import Mathlib

/-! Open Platform Model: flattener, renderer command, provider loader and
CLI configuration.

A shallow embedding of the element resolver and composite flattener of the
module flattener example (`flattener_example.go`), of the path and release
helpers and the component loop of the render command (`render.go`), of the
declared definitions and hashes of the provider loader (`loader.go`), of the
CLI configuration (`config.go`, `paths.go`) and of the transformer matcher of
the specification, followed by the properties proved about them.

Conventions of the embedding:

* `cue.Value` is the tree `CueValue`; a looked-up value that does not exist is
  `none`.
* A `*Element` is an address into the store `Flattener.heap`; the code mutates
  elements through shared pointers, so the store is part of the state that is
  threaded through every operation.
* Go maps are keyed lists in which `mapSet` keeps each key once.
* `log.Printf` calls are omitted, and so is the field `ctx`, which only
  `buildModuleValue` reads.
* A function that may recurse without bound takes a fuel argument bounding the
  depth of nested calls; the result `none` means that the fuel ran out.
* Functions of the Go library and of packages outside the sources (`os`,
  `crypto/sha256`, the matcher, executor, renderer and writer called by
  `runRender`) are parameters of the definitions that call them.
-/

namespace Flatten

/-! ## Keyed lists (Go maps, struct fields) -/

/-- The value of the first entry with key `k`: `m[k]` with the comma-ok form
for a Go map, the field labelled `k` for a struct. -/
def mapGet {α : Type} : List (String × α) → String → Option α
  | [], _ => none
  | (k', v) :: rest, k => if k' = k then some v else mapGet rest k

/-- `m[k] = v`: overwrite the entry for `k`, or add one. -/
def mapSet {α : Type} : List (String × α) → String → α → List (String × α)
  | [], k, v => [(k, v)]
  | (k', v') :: rest, k, v =>
    if k' = k then (k, v) :: rest else (k', v') :: mapSet rest k v

/-! ## Structured values -/

/-- The part of `cue.Value` the flattener observes: strings, lists, structs,
and every other value (numbers, booleans, null, bottom) as `atom`. -/
inductive CueValue where
  | str (s : String)
  | atom (text : String)
  | list (items : List CueValue)
  | struct (fields : List (String × CueValue))

namespace CueValue

/-- `v.LookupPath(cue.ParsePath(label))` for a one-selector path; `none` is a
value for which `Exists()` is false. -/
def lookupPath : CueValue → String → Option CueValue
  | .struct fields, label => mapGet fields label
  | _, _ => none

/-- `v.String()`: the string, or an error for any value that is not a string. -/
def asString : CueValue → Except String String
  | .str s => .ok s
  | _ => .error "cannot use value as string"

/-- The values an iterator from `v.List()` yields; when `List()` fails the
iterator it returns yields nothing. -/
def listItems : CueValue → List CueValue
  | .list items => items
  | _ => []

/-- `v.Fields(cue.All())`: labels and values in field order, or an error. -/
def fields : CueValue → Except String (List (String × CueValue))
  | .struct fs => .ok fs
  | _ => .error "cannot use value as struct"

end CueValue

/-! ## Data model -/

/-- ProvenanceInfo tracks where an element came from. -/
structure ProvenanceInfo where
  SourceComposite : String
  ViaComposite : String
  ElementHash : String

/-- Element represents a resolved element with inlined schema. The zero
`cue.Value` of `Schema` is `none`. -/
structure Element where
  FQN : String
  Name : String
  Kind : String
  APIVersion : String
  Target : List String
  Schema : Option CueValue
  Composes : List String
  Modifies : List String
  Labels : List (String × String)
  Description : String
  Hash : String
  Provenance : ProvenanceInfo

/-- The zero value of `Element`. -/
def Element.zero : Element :=
  { FQN := "", Name := "", Kind := "", APIVersion := "", Target := [], Schema := none,
    Composes := [], Modifies := [], Labels := [], Description := "", Hash := "",
    Provenance := { SourceComposite := "", ViaComposite := "", ElementHash := "" } }

/-- A `*Element`: an address in the element store. -/
abbrev Ptr := Nat

/-- Flattener state: the elements allocated so far and the FQN cache pointing
into them. -/
structure Flattener where
  heap : List Element
  elementCache : List (String × Ptr)
  version : String

/-- The constant `version`. -/
def version : String := "v0.1.0"

/-- NewFlattener creates a new flattener instance. -/
def NewFlattener : Flattener :=
  { heap := [], elementCache := [], version := version }

/-- The element a pointer refers to. An address outside the store reads as
the zero element; no cached pointer is such an address in a state satisfying
`Flattener.WF`. -/
def Flattener.deref (f : Flattener) (p : Ptr) : Element :=
  (f.heap[p]?).getD Element.zero

/-- Every pointer stored in the cache refers to an allocated element (the
cache holds no nil or dangling pointer). -/
def Flattener.WF (f : Flattener) : Prop :=
  ∀ e ∈ f.elementCache, e.2 < f.heap.length

instance (f : Flattener) : Decidable f.WF := by
  unfold Flattener.WF; infer_instance

/-- ComponentIR represents a flattened component; `Elements` holds pointers. -/
structure ComponentIR where
  ID : String
  Metadata : Option CueValue
  Elements : List (String × Ptr)
  DataFields : Option CueValue
  Provenance : List String

/-- The zero value of `ComponentIR`. -/
def ComponentIR.zero : ComponentIR :=
  { ID := "", Metadata := none, Elements := [], DataFields := none, Provenance := [] }

/-! ## External collaborators -/

/-- A SHA-256 digest: 32 bytes. -/
abbrev Digest := { bs : List UInt8 // bs.length = 32 }

/-- The library functions the resolver calls: `sha256` is the digest of the
bytes written to a `crypto/sha256` hash, `formatNode` is
`format.Node(v.Syntax())` with its error discarded. -/
structure Engine where
  sha256 : List UInt8 → Digest
  formatNode : CueValue → List UInt8

/-! ## Element resolver -/

/-- The conversion `[]byte(s)`: the UTF-8 encoding of a string. -/
def stringBytes (s : String) : List UInt8 :=
  s.data.flatMap String.utf8EncodeChar

/-- The digit table of `encoding/hex`. -/
def hextable : List Char := "0123456789abcdef".data

/-- The hexadecimal digit of a number below 16. -/
def hexDigit (n : Nat) : Char := hextable.getD n '0'

/-- `hex.EncodeToString`, as the list of characters of the string. -/
def hexEncode (bs : List UInt8) : List Char :=
  bs.flatMap fun b => [hexDigit (b.toNat / 16), hexDigit (b.toNat % 16)]

/-- computeElementHash computes a deterministic hash of element content. The
hash state `h` is the sequence of bytes written so far. -/
def computeElementHash (E : Engine) (elem : Element) : String :=
  let h : List UInt8 := []
  let h := h ++ stringBytes elem.FQN
  let h := h ++ stringBytes elem.Kind
  let h := h ++ stringBytes elem.APIVersion
  let h := match elem.Schema with
    | some schema => h ++ E.formatNode schema
    | none => h
  let h := elem.Composes.foldl (fun h c => h ++ stringBytes c) h
  let h := elem.Modifies.foldl (fun h m => h ++ stringBytes m) h
  String.mk ((hexEncode (E.sha256 h).val).take 16)

/-- The string at `label` when the field exists and is a string, else `dflt`. -/
def stringField (elemValue : CueValue) (label : String) (dflt : String) : String :=
  match elemValue.lookupPath label with
  | some v =>
    match v.asString with
    | .ok s => s
    | .error _ => dflt
  | none => dflt

/-- The loop `for it.Next() { if s, err := it.Value().String(); err == nil
{ acc = append(acc, s) } }`. -/
def appendStrings (acc : List String) : List CueValue → List String
  | [] => acc
  | v :: rest =>
    match v.asString with
    | .ok s => appendStrings (acc ++ [s]) rest
    | .error _ => appendStrings acc rest

/-- The strings of the list at `label`, appended to `acc`, when the field
exists. -/
def stringListField (elemValue : CueValue) (label : String) (acc : List String) :
    List String :=
  match elemValue.lookupPath label with
  | some v => appendStrings acc v.listItems
  | none => acc

/-- The loop filling `elem.Labels` from the fields of the `labels` value. -/
def setLabels (acc : List (String × String)) :
    List (String × CueValue) → List (String × String)
  | [] => acc
  | (l, v) :: rest =>
    match v.asString with
    | .ok s => setLabels (mapSet acc l s) rest
    | .error _ => setLabels acc rest

/-- The element `resolveElement` builds on a cache miss, before it is cached. -/
def buildElement (E : Engine) (fqn : String) (elemValue : CueValue) : Element :=
  let elem : Element := { Element.zero with FQN := fqn, Labels := [] }
  let elem := { elem with Name := stringField elemValue "name" elem.Name }
  let elem := { elem with Kind := stringField elemValue "kind" elem.Kind }
  let elem := { elem with APIVersion := stringField elemValue "#apiVersion" elem.APIVersion }
  let elem := { elem with Target := stringListField elemValue "target" elem.Target }
  let elem := { elem with Schema := elemValue.lookupPath "schema" }
  let elem :=
    if elem.Kind = "composite" then
      { elem with Composes := stringListField elemValue "composes" elem.Composes }
    else elem
  let elem :=
    if elem.Kind = "modifier" then
      { elem with Modifies := stringListField elemValue "modifies" elem.Modifies }
    else elem
  let elem :=
    match elemValue.lookupPath "labels" with
    | some labelsValue =>
      match labelsValue.fields with
      | .ok fs => { elem with Labels := setLabels elem.Labels fs }
      | .error _ => elem
    | none => elem
  let elem := { elem with Description := stringField elemValue "description" elem.Description }
  { elem with Hash := computeElementHash E elem }

/-- resolveElement inlines element schema and computes hash. A cache hit
returns the cached pointer; a miss allocates the element and caches it. -/
def resolveElement (E : Engine) (f : Flattener) (fqn : String) (elemValue : CueValue) :
    Flattener × Except String Ptr :=
  match mapGet f.elementCache fqn with
  | some cached => (f, .ok cached)
  | none =>
    let elem : Ptr := f.heap.length
    ({ f with heap := f.heap ++ [buildElement E fqn elemValue],
              elementCache := mapSet f.elementCache fqn elem }, .ok elem)

/-- resolveElementByFQN looks up an element by FQN (from registry or cache). -/
def resolveElementByFQN (f : Flattener) (fqn : String) : Except String Ptr :=
  match mapGet f.elementCache fqn with
  | some cached => .ok cached
  | none => .error ("element not found in cache: " ++ fqn)

/-! ## Composite flattener -/

/-- An element with `Provenance.SourceComposite` overwritten. -/
def Element.stamp (e : Element) (originFQN : String) : Element :=
  { e with Provenance := { e.Provenance with SourceComposite := originFQN } }

/-- The assignment `p.Provenance.SourceComposite = originFQN` through a
pointer. -/
def Flattener.setSourceComposite (f : Flattener) (p : Ptr) (originFQN : String) : Flattener :=
  { f with heap := f.heap.set p ((f.deref p).stamp originFQN) }

/-- The result of a call that may run out of fuel: the state it leaves and the
Go result pair. -/
abbrev Outcome (α : Type) := Option (Flattener × Except String α)

/-- The body of the loop over `composite.Composes`; `recur` is the recursive
call of `expandComposite` one level down. -/
def expandLoop (recur : Flattener → Ptr → String → Outcome (List Ptr)) (originFQN : String) :
    List String → Flattener → List Ptr → Outcome (List Ptr)
  | [], f, primitives => some (f, .ok primitives)
  | composedFQN :: rest, f, primitives =>
    match resolveElementByFQN f composedFQN with
    | .error _ => expandLoop recur originFQN rest f primitives
    | .ok composedElem =>
      if (f.deref composedElem).Kind = "composite" then
        match recur f composedElem originFQN with
        | none => none
        | some (f', .error err) =>
          some (f', .error ("expand sub-composite " ++ composedFQN ++ ": " ++ err))
        | some (f', .ok subPrimitives) =>
          expandLoop recur originFQN rest f' (primitives ++ subPrimitives)
      else
        expandLoop recur originFQN rest (f.setSourceComposite composedElem originFQN)
          (primitives ++ [composedElem])

/-- expandComposite recursively expands a composite element to
primitives/modifiers. -/
def expandComposite : Nat → Flattener → Ptr → String → Outcome (List Ptr)
  | 0, _, _, _ => none
  | fuel + 1, f, composite, originFQN =>
    expandLoop (expandComposite fuel) originFQN (f.deref composite).Composes f []

/-- The loop `for _, prim := range primitives { comp.Elements[prim.FQN] = prim }`. -/
def addPrimitives (f : Flattener) (elements : List (String × Ptr)) :
    List Ptr → List (String × Ptr)
  | [] => elements
  | prim :: rest => addPrimitives f (mapSet elements (f.deref prim).FQN prim) rest

/-- The loop of `flattenComponent` over the entries of `#elements`. -/
def flattenLoop (E : Engine) (fuel : Nat) :
    List (String × CueValue) → Flattener → ComponentIR → Outcome ComponentIR
  | [], f, comp => some (f, .ok comp)
  | (elemFQN, elemValue) :: rest, f, comp =>
    match resolveElement E f elemFQN elemValue with
    | (f1, .error err) => some (f1, .error ("resolve element " ++ elemFQN ++ ": " ++ err))
    | (f1, .ok resolvedElem) =>
      if (f1.deref resolvedElem).Kind = "composite" then
        match expandComposite fuel f1 resolvedElem elemFQN with
        | none => none
        | some (f2, .error err) =>
          some (f2, .error ("expand composite " ++ elemFQN ++ ": " ++ err))
        | some (f2, .ok primitives) =>
          flattenLoop E fuel rest f2
            { comp with
              Elements := addPrimitives f2 comp.Elements primitives,
              Provenance := comp.Provenance ++ [(f2.deref resolvedElem).FQN] }
      else
        flattenLoop E fuel rest f1
          { comp with
            Elements := mapSet comp.Elements (f1.deref resolvedElem).FQN resolvedElem }

/-- flattenComponent processes a single component. -/
def flattenComponent (E : Engine) (fuel : Nat) (f : Flattener) (id : String)
    (compValue : CueValue) : Outcome ComponentIR :=
  let comp : ComponentIR :=
    { ID := id, Metadata := compValue.lookupPath "#metadata", Elements := [],
      DataFields := none, Provenance := [] }
  match compValue.lookupPath "#elements" with
  | none => some (f, .ok comp)
  | some elementsValue =>
    match elementsValue.fields with
    | .error err => some (f, .error ("iterate elements: " ++ err))
    | .ok entries =>
      match flattenLoop E fuel entries f comp with
      | some (f', .ok comp') => some (f', .ok { comp' with DataFields := some compValue })
      | other => other

/-! ## Relations between states -/

/-- The state after allocating `e` and caching its pointer under `fqn`. -/
def Flattener.alloc (f : Flattener) (fqn : String) (e : Element) : Flattener :=
  { f with heap := f.heap ++ [e], elementCache := mapSet f.elementCache fqn f.heap.length }


/-- The state `f'` differs from `f` only in that some elements had
`Provenance.SourceComposite` set to `o`. -/
def StampedBy (o : String) (f f' : Flattener) : Prop :=
  f'.elementCache = f.elementCache ∧ f'.version = f.version ∧
  f'.heap.length = f.heap.length ∧
  ∀ p, f'.deref p = f.deref p ∨ f'.deref p = (f.deref p).stamp o

/-- The state `f'` is a later state of `f`: elements are only added, cache
entries are kept, and an element allocated in `f` is unchanged except
possibly for `Provenance.SourceComposite`. -/
def Evolves (f f' : Flattener) : Prop :=
  f.heap.length ≤ f'.heap.length ∧ f'.version = f.version ∧
  (∀ k p, mapGet f.elementCache k = some p → mapGet f'.elementCache k = some p) ∧
  ∀ p, p < f.heap.length → (f'.deref p).stamp "" = (f.deref p).stamp ""

/-- Loop invariant of `flattenComponent` on a component without composites,
started from an empty cache: after the entries `done`, the cache and the
`Elements` map hold exactly the labels of `done`, each pointing at the element
built from the first entry with that label, and `Provenance` is empty. -/
def FlatInv (E : Engine) (done : List (String × CueValue)) (f : Flattener)
    (comp : ComponentIR) : Prop :=
  comp.Provenance = [] ∧
  ∀ k, match mapGet done k with
    | some v => ∃ p, p < f.heap.length ∧ mapGet f.elementCache k = some p ∧
        mapGet comp.Elements k = some p ∧ f.deref p = buildElement E k v
    | none => mapGet f.elementCache k = none ∧ mapGet comp.Elements k = none

/-- The pointer `p` is allocated in `f` and does not refer to a composite. -/
def NonComposite (f : Flattener) (p : Ptr) : Prop :=
  p < f.heap.length ∧ (f.deref p).Kind ≠ "composite"

/-- An element with `Composes` replaced. -/
def Element.withComposes (e : Element) (cs : List String) : Element :=
  { e with Composes := cs }

/-- The state in which the element at `c` has every occurrence of `x`
removed from its `Composes`. -/
def Flattener.dropComposed (f : Flattener) (c : Ptr) (x : String) : Flattener :=
  let e := (f.deref c).withComposes ((f.deref c).Composes.filter fun y => decide (y ≠ x))
  { f with heap := f.heap.set c e }

/-- The FQN `x` is not cached in `f`, and `g` is `f` except that `Composes`
lists may differ in their occurrences of `x`. -/
def SameUpTo (x : String) (f g : Flattener) : Prop :=
  mapGet f.elementCache x = none ∧ g.elementCache = f.elementCache ∧
  g.heap.length = f.heap.length ∧
  ∀ p, ∃ cs, g.deref p = (f.deref p).withComposes cs ∧
    cs.filter (fun y => decide (y ≠ x)) = (f.deref p).Composes.filter (fun y => decide (y ≠ x))

/-- Two outcomes agree: both ran out of fuel, or both returned the same Go
result in states related by `SameUpTo`. -/
def OutcomeSim (x : String) : Outcome (List Ptr) → Outcome (List Ptr) → Prop
  | none, none => True
  | some (f, r), some (g, r') => r = r' ∧ SameUpTo x f g
  | _, _ => False

/-- The kind gate on an element: `Composes` is empty unless the kind is
"composite", and `Modifies` is empty unless the kind is "modifier". -/
def KindGated (e : Element) : Prop :=
  (e.Kind ≠ "composite" → e.Composes = []) ∧ (e.Kind ≠ "modifier" → e.Modifies = [])

/-- Every element in the cache satisfies the kind gate. -/
def CacheGated (f : Flattener) : Prop :=
  ∀ e ∈ f.elementCache, KindGated (f.deref e.2)

/-- The byte concatenation the content hash is specified over: FQN, Kind,
APIVersion, the formatted schema when the schema exists, each Composes entry
in order, each Modifies entry in order. -/
def hashInput (E : Engine) (e : Element) : List UInt8 :=
  stringBytes e.FQN ++ stringBytes e.Kind ++ stringBytes e.APIVersion ++
    (match e.Schema with
     | some schema => E.formatNode schema
     | none => []) ++
    e.Composes.flatMap stringBytes ++ e.Modifies.flatMap stringBytes

/-- The pointer `p` is allocated in `f`, does not refer to a composite and
its element carries the origin `o`. -/
def LeafOf (o : String) (f : Flattener) (p : Ptr) : Prop :=
  p < f.heap.length ∧ (f.deref p).Kind ≠ "composite" ∧
  (f.deref p).Provenance.SourceComposite = o

/-- What a call of `expandComposite` with origin `o` guarantees: the state is
only stamped with `o`, and every pointer it returns is allocated, is not a
composite and carries the origin. -/
def ExpandSpec (recur : Flattener → Ptr → String → Outcome (List Ptr)) : Prop :=
  ∀ f c o f' r, f.WF → recur f c o = some (f', r) →
    StampedBy o f f' ∧ ∀ prims, r = .ok prims → ∀ p ∈ prims, LeafOf o f' p

/-! ## Sample inputs -/

/-- A stand-in engine for evaluating the definitions on examples: the digest
is 32 copies of the input length modulo 256, the formatter yields no bytes. -/
def sampleEngine : Engine :=
  { sha256 := fun bs => ⟨List.replicate 32 (UInt8.ofNat bs.length), List.length_replicate _ _⟩,
    formatNode := fun _ => [] }

/-- A raw primitive element named `name`. -/
def rawLeaf (name : String) : CueValue :=
  .struct [("name", .str name), ("kind", .str "primitive"),
    ("#apiVersion", .str "elements.opm.dev/core/v0")]

/-- A raw composite element named `name` composing the FQNs `parts`. -/
def rawComposite (name : String) (parts : List String) : CueValue :=
  .struct [("name", .str name), ("kind", .str "composite"),
    ("#apiVersion", .str "elements.opm.dev/core/v0"),
    ("composes", .list (parts.map CueValue.str))]

/-- A raw component with the given `#elements` entries. -/
def rawComponent (entries : List (String × CueValue)) : CueValue :=
  .struct [("#metadata", .struct [("name", .str "frontend")]), ("#elements", .struct entries)]

/-- A flattener that has already resolved the primitives `Container` and
`Replicas`. -/
def leavesResolved : Flattener :=
  (resolveElement sampleEngine
    (resolveElement sampleEngine NewFlattener "Container" (rawLeaf "Container")).1
    "Replicas" (rawLeaf "Replicas")).1

/-- The component of the example in `main`: one composite composing
`Container` and `Replicas`. -/
def statelessComponent : CueValue :=
  rawComponent [("Stateless", rawComposite "Stateless" ["Container", "Replicas"])]

/-- The state and component an outcome holds when it returned a component. -/
def returned : Outcome ComponentIR → Flattener × ComponentIR
  | some (f, .ok comp) => (f, comp)
  | _ => (NewFlattener, ComponentIR.zero)

/-- The outcome of flattening `statelessComponent` with both leaves cached. -/
def statelessFlattened : Flattener × ComponentIR :=
  returned (flattenComponent sampleEngine 1 leavesResolved "frontend" statelessComponent)

/-- A flattener that has resolved the primitive `Leaf`, the composite
`Inner` composing it, and the composite `Outer` composing `Inner`. -/
def nestedResolved : Flattener :=
  (resolveElement sampleEngine
    (resolveElement sampleEngine
      (resolveElement sampleEngine NewFlattener "Leaf" (rawLeaf "Leaf")).1
      "Inner" (rawComposite "Inner" ["Leaf"])).1
    "Outer" (rawComposite "Outer" ["Inner"])).1

/-- The flattener `leavesResolved` after also resolving the composite
`Partial`, which composes `Container`, the uncached `Missing`, and
`Replicas`. -/
def partlyResolved : Flattener :=
  (resolveElement sampleEngine leavesResolved "Partial"
    (rawComposite "Partial" ["Container", "Missing", "Replicas"])).1

/-- A component listing the composite `Web` (composes `Container`) and then
the composite `Worker` (composes `Container` and `Replicas`). -/
def sharedLeafComponent : CueValue :=
  rawComponent [("Web", rawComposite "Web" ["Container"]),
    ("Worker", rawComposite "Worker" ["Container", "Replicas"])]

/-- The outcome of flattening `sharedLeafComponent` with both leaves cached. -/
def sharedLeafFlattened : Flattener × ComponentIR :=
  returned (flattenComponent sampleEngine 1 leavesResolved "frontend" sharedLeafComponent)

/-- A raw primitive that nevertheless carries `composes` and `modifies`. -/
def strayFieldsLeaf : CueValue :=
  .struct [("name", .str "Stray"), ("kind", .str "primitive"),
    ("composes", .list [.str "Container"]), ("modifies", .list [.str "Replicas"])]

/-- A component listing the two primitives directly. -/
def flatComponent : CueValue :=
  rawComponent [("Container", rawLeaf "Container"), ("Replicas", rawLeaf "Replicas")]

/-- A component listing composite `A` (composes `B`) and composite `B`
(composes `A`). -/
def cyclicComponent : CueValue :=
  rawComponent [("A", rawComposite "A" ["B"]), ("B", rawComposite "B" ["A"])]

/-- The labels of the fields `resolveElement` reads from a raw value. -/
def elementLabels : List String :=
  ["name", "kind", "#apiVersion", "target", "schema", "composes", "modifies", "labels",
    "description"]

/-- None of the fields `resolveElement` reads exists in the raw value. -/
def AllAbsent (elemValue : CueValue) : Prop :=
  ∀ label ∈ elementLabels, elemValue.lookupPath label = none

/-- An element with FQN `ab` and kind `c`, every other attribute zero. -/
def elementAbC : Element :=
  { Element.zero with FQN := "ab", Kind := "c" }

/-- An element with FQN `a` and kind `bc`, every other attribute zero. -/
def elementABc : Element :=
  { Element.zero with FQN := "a", Kind := "bc" }

/-- The attributes the content hash is computed from. -/
def hashedFields (e : Element) :
    String × String × String × Option CueValue × List String × List String :=
  (e.FQN, e.Kind, e.APIVersion, e.Schema, e.Composes, e.Modifies)

/-- The FQNs of the directly listed elements whose kind is "composite", in
the order of the entries; the element of an entry is the one cached under its
label. -/
def compositeFQNs (f : Flattener) (entries : List (String × CueValue)) : List String :=
  entries.filterMap fun entry =>
    match mapGet f.elementCache entry.1 with
    | some p => if (f.deref p).Kind = "composite" then some (f.deref p).FQN else none
    | none => none

/-- A component listing the primitive `Leaf` and the composite `Outer`, which
composes the composite `Inner`. -/
def outerComponent : CueValue :=
  rawComponent [("Leaf", rawLeaf "Leaf"), ("Outer", rawComposite "Outer" ["Inner"])]

/-- The outcome of flattening `outerComponent` when `Leaf`, `Inner` and
`Outer` are cached. -/
def outerFlattened : Flattener × ComponentIR :=
  returned (flattenComponent sampleEngine 2 nestedResolved "frontend" outerComponent)

/-- A component whose only element is the composite `Loop`, which composes
itself. -/
def selfComponent : CueValue :=
  rawComponent [("Loop", rawComposite "Loop" ["Loop"])]

/-- The entries of a component listing the primitive `Container` and the
composite `Web`, which composes `Container` and the uncached `Sidecar`. -/
def leafFirst : List (String × CueValue) :=
  [("Container", rawLeaf "Container"), ("Web", rawComposite "Web" ["Container", "Sidecar"])]

/-- The entries of `leafFirst` in the other order. -/
def compositeFirst : List (String × CueValue) :=
  [("Web", rawComposite "Web" ["Container", "Sidecar"]), ("Container", rawLeaf "Container")]

/-- A raw element whose kind is the string `widget`. -/
def rawWidget : CueValue :=
  .struct [("name", .str "Gadget"), ("kind", .str "widget")]

/-- A flattener that has resolved `Gadget` (kind `widget`), `Bare` (no kind)
and the composite `Box` composing both. -/
def widgetsResolved : Flattener :=
  (resolveElement sampleEngine
    (resolveElement sampleEngine
      (resolveElement sampleEngine NewFlattener "Gadget" rawWidget).1
      "Bare" (.struct [])).1
    "Box" (rawComposite "Box" ["Gadget", "Bare"])).1

end Flatten

/-! ## Paths (`path/filepath` on Unix, `strings`, `os`) -/

namespace Render

open Flatten

/-- The path elements of a path: the runs of characters between separators.
A path without a separator is its single element; a leading separator gives a
leading empty element. -/
def splitSep : List Char → List (List Char)
  | [] => [[]]
  | c :: cs =>
    if c = '/' then [] :: splitSep cs
    else
      match splitSep cs with
      | [] => [[c]]
      | e :: es => (c :: e) :: es

/-- Path elements joined by single separators. -/
def joinSep : List (List Char) → List Char
  | [] => []
  | [e] => e
  | e :: es => e ++ '/' :: joinSep es

/-- `strings.HasPrefix(s, pre)`. -/
def hasPrefix (s pre : String) : Bool :=
  pre.data.isPrefixOf s.data

/-- `filepath.IsAbs(path)` on Unix: the path begins with a separator. -/
def pathIsAbs (path : String) : Bool :=
  hasPrefix path "/"

/-- The output buffer of `filepath.Clean`, by path elements: the number of
leading `..` elements that cannot be removed, and the elements written after
them, most recent first. -/
structure CleanBuf where
  dotdots : Nat
  elems : List (List Char)

/-- One round of the loop of `filepath.Clean`, on the next path element: an
empty element and `.` are dropped; `..` removes the last element written, or
is kept when nothing can be removed and the path is not rooted, or is dropped
at the root; any other element is written. -/
def cleanStep (rooted : Bool) (buf : CleanBuf) (e : List Char) : CleanBuf :=
  if e = [] then buf
  else if e = ['.'] then buf
  else if e = ['.', '.'] then
    match buf.elems with
    | _ :: rest => { buf with elems := rest }
    | [] => if rooted then buf else { buf with dotdots := buf.dotdots + 1 }
  else { buf with elems := e :: buf.elems }

/-- The string `filepath.Clean` returns for a final buffer: the separator of
a rooted path, then the elements joined by separators; `.` when a path that is
not rooted has no element left. -/
def cleanOutput (rooted : Bool) (buf : CleanBuf) : List Char :=
  let body := joinSep (List.replicate buf.dotdots ['.', '.'] ++ buf.elems.reverse)
  if rooted then '/' :: body else if body = [] then ['.'] else body

/-- `filepath.Clean(path)` on Unix. -/
def pathClean (path : String) : String :=
  let rooted := pathIsAbs path
  String.mk (cleanOutput rooted ((splitSep path.data).foldl (cleanStep rooted) ⟨0, []⟩))

/-- `strings.Join(elems, "/")`. -/
def joinStrings : List String → String
  | [] => ""
  | [e] => e
  | e :: es => e ++ "/" ++ joinStrings es

/-- `filepath.Join(elem...)` on Unix: the elements from the first non-empty
one on, joined by separators and cleaned; the empty string when every element
is empty. -/
def pathJoin : List String → String
  | [] => ""
  | e :: es => if e ≠ "" then pathClean (joinStrings (e :: es)) else pathJoin es

/-- The list `dangerousPrefixes` of `validateOutputPath`. -/
def dangerousPrefixes : List String :=
  ["/etc", "/bin", "/usr", "/sys", "/proc", "/boot", "/dev"]

/-- The loop of `validateOutputPath` over `dangerousPrefixes`: the error of
the first prefix that matches, or `none`. -/
def checkPrefixes (path cleanPath : String) : List String → Option String
  | [] => none
  | pre :: rest =>
    if hasPrefix cleanPath (pre ++ "/") || cleanPath == pre then
      some ("output path targets system directory: " ++ path)
    else checkPrefixes path cleanPath rest

/-- validateOutputPath performs security validation on the output path.
`getwd` is the result of `os.Getwd()`; the result `none` is the nil error. -/
def validateOutputPath (getwd : Except String String) (path : String) : Option String :=
  if path = "" then some "output path cannot be empty"
  else
    let cleanPath := pathClean path
    if !pathIsAbs cleanPath then
      match getwd with
      | .error err => some ("failed to get working directory: " ++ err)
      | .ok cwd =>
        let cleanPath := pathJoin [cwd, cleanPath]
        let cleanPath := pathClean cleanPath
        checkPrefixes path cleanPath dangerousPrefixes
    else checkPrefixes path cleanPath dangerousPrefixes

/-- The help text that ends the error message of `getReleaseFilePath` when
no release file is found. -/
def noReleaseFileHelp : String :=
  "\n\nExpected: releases/module_release.cue\nOr use: --values <path-to-release-file>\n\nTo create a release file structure:\n  mkdir -p releases\n  # Create releases/module_release.cue with ModuleRelease definition\n\nSee documentation for ModuleRelease structure."

/-- The error message of `getReleaseFilePath` when no release file is found. -/
def noReleaseFileMessage : String :=
  "no release file found" ++ noReleaseFileHelp

/-- getReleaseFilePath determines the release file path to use. `stat path`
tells whether `os.Stat(path)` succeeds; the result is the Go pair of path and
error. -/
def getReleaseFilePath (stat : String → Bool) (modulePath valuesFlag : String) :
    String × Option String :=
  if valuesFlag ≠ "" then
    if pathIsAbs valuesFlag then
      if !stat valuesFlag then ("", some ("release file not found: " ++ valuesFlag))
      else (valuesFlag, none)
    else
      let releasePath := pathJoin [modulePath, valuesFlag]
      if !stat releasePath then ("", some ("release file not found: " ++ releasePath))
      else (releasePath, none)
  else
    let defaultPath := pathJoin [modulePath, "releases", "module_release.cue"]
    if stat defaultPath then (defaultPath, none)
    else ("", some noReleaseFileMessage)

/-- A label of a regular field: neither a definition (`#x`) nor a hidden
field (`_x`). -/
def isRegularLabel (label : String) : Bool :=
  !(hasPrefix label "#" || hasPrefix label "_")

/-- `v.Fields()` with no option: the regular fields in order, or an error for
a value that is not a struct. -/
def regularFields : CueValue → Except String (List (String × CueValue))
  | .struct fs => .ok (fs.filter fun f => isRegularLabel f.1)
  | _ => .error "cannot use value as struct"

/-- The test `kindVal.Exists()` with `kind, err := kindVal.String()` and
`err == nil && kind == "ModuleRelease"`. -/
def isModuleRelease (val : CueValue) : Bool :=
  match val.lookupPath "kind" with
  | some kindVal =>
    match kindVal.asString with
    | .ok kind => kind == "ModuleRelease"
    | .error _ => false
  | none => false

/-- The loop of `extractModuleRelease` over the fields. -/
def searchFields : List (String × CueValue) → Option CueValue × Option String
  | [] => (none, some
      "no ModuleRelease found in file (check that file contains a value with kind: \"ModuleRelease\")")
  | (_, fieldVal) :: rest =>
    if isModuleRelease fieldVal then (some fieldVal, none) else searchFields rest

/-- extractModuleRelease finds and extracts the ModuleRelease value from a
loaded CUE file. The result is the Go pair of value and error; the zero
`cue.Value` is `none`. -/
def extractModuleRelease (val : CueValue) : Option CueValue × Option String :=
  if isModuleRelease val then (some val, none)
  else
    match regularFields val with
    | .error err => (none, some ("failed to iterate fields: " ++ err))
    | .ok fields => searchFields fields

/-- The value has a field `kind` that is the string `kind`. -/
def HasKind (val : CueValue) (kind : String) : Prop :=
  val.lookupPath "kind" = some (.str kind)

/-- A release file whose root is a ModuleRelease and whose field `module`
also has that kind. -/
def rootRelease : CueValue :=
  .struct [("kind", .str "ModuleRelease"),
    ("metadata", .struct [("name", .str "test-release")]),
    ("module", .struct [("kind", .str "ModuleRelease")])]

/-- A release file with the ModuleRelease in its second regular field; the
definition before it has the kind too but is not a regular field. -/
def fieldRelease : CueValue :=
  .struct [("#Template", .struct [("kind", .str "ModuleRelease")]),
    ("other", .struct [("kind", .str "ModuleDefinition")]),
    ("myRelease", .struct [("kind", .str "ModuleRelease"),
      ("metadata", .struct [("name", .str "test-release")])])]

/-- A file whose only ModuleRelease lies two levels deep. -/
def nestedRelease : CueValue :=
  .struct [("kind", .str "ModuleDefinition"),
    ("outer", .struct [("inner", .struct [("kind", .str "ModuleRelease")])])]

/-- A file system in which exactly the file `path` exists. -/
def onlyFile (path : String) : String → Bool :=
  fun p => p == path

/-- A path element that names an entry: not empty, not `.` and not `..`. -/
def IsName (e : List Char) : Prop :=
  e ≠ [] ∧ e ≠ ['.'] ∧ e ≠ ['.', '.']

/-- The path elements a buffer of `filepath.Clean` stands for, in order. -/
def bufElems (buf : CleanBuf) : List (List Char) :=
  List.replicate buf.dotdots ['.', '.'] ++ buf.elems.reverse

/-- The message `msg` contains the text `sub`. -/
def Contains (msg sub : String) : Prop :=
  sub.data <:+: msg.data

instance (msg sub : String) : Decidable (Contains msg sub) := by
  unfold Contains; infer_instance

/-- The path `p` is the directory `d` or lies beneath it: the path elements
of `d` are the leading path elements of `p`. -/
def IsUnder (d p : String) : Prop :=
  splitSep d.data <+: splitSep p.data

instance (d p : String) : Decidable (IsUnder d p) := by
  unfold IsUnder; infer_instance

/-- The path is one of the seven system directories or lies beneath one. -/
def InSystemDir (p : String) : Prop :=
  ∃ d ∈ dangerousPrefixes, IsUnder d p

instance (p : String) : Decidable (InSystemDir p) := by
  unfold InSystemDir; infer_instance

/-- The cleaned absolute form of a path: a relative path is first joined to
the working directory, then the path is cleaned. -/
def cleanedAbsolute (cwd path : String) : String :=
  pathClean (if pathIsAbs path then path else cwd ++ "/" ++ path)

/-- The first top-level field, in field order, whose kind is "ModuleRelease",
when every field of the struct counts as a top-level field, definitions and
hidden fields included (the fields `Fields(cue.All())` yields). -/
def firstTopLevelRelease (val : CueValue) : Option CueValue :=
  match val.fields with
  | .ok fs => (fs.find? fun f => isModuleRelease f.2).map Prod.snd
  | .error _ => none

/-- A file whose only ModuleRelease is the definition `#Rel`. -/
def definitionRelease : CueValue :=
  .struct [("#Rel", .struct [("kind", .str "ModuleRelease")])]

end Render

/-! ## Provider loader (`loader.go`) -/

namespace Loader

open Flatten

/-- Modelled from the spec: the declaration of `TransformerMetadata` is not
among the sources; the fields are those `loader.go` assigns (§3,
Transformer metadata). -/
structure TransformerMetadata where
  FQN : String
  Name : String
  APIVersion : String
  Description : String
  Labels : List (String × String)
  Annotations : List (String × String)

/-- Modelled from the spec: the declaration of `Transformer` is not among the
sources; the fields are those `loader.go` assigns (§3, Transformer). The
zero `cue.Value` is `none`. -/
structure Transformer where
  Metadata : TransformerMetadata
  Resources : List String
  Traits : List String
  Policies : List String
  Transform : Option CueValue
  Schema : Option CueValue
  Hash : String

/-- Modelled from the spec: the declaration of `ProviderMetadata` is not
among the sources; the fields are those `loader.go` assigns (§3, Provider
metadata). -/
structure ProviderMetadata where
  Name : String
  Version : String
  MinVersion : String
  Description : String
  Labels : List (String × String)
  Annotations : List (String × String)

/-- Modelled from the spec: the declaration of `Provider` is not among the
sources; the fields are those `loader.go` assigns (§3, Provider). The map
`Transformers` is the list of its entries, each key once, in the order in
which a `range` over the map visits them; Go leaves that order unspecified,
so the entries may come in any order. -/
structure Provider where
  Metadata : ProviderMetadata
  Transformers : List (String × Transformer)
  DeclaredResources : List String
  DeclaredTraits : List String
  DeclaredPolicies : List String
  Hash : String
  Schema : Option CueValue

/-- The `switch defType` of `computeDeclaredDefinitions`; no case matches any
other `defType` and `defs` stays nil. -/
def definitionsOf (transformer : Transformer) (defType : String) : List String :=
  if defType = "resources" then transformer.Resources
  else if defType = "traits" then transformer.Traits
  else if defType = "policies" then transformer.Policies
  else []

/-- The read `seen[def]` of a `map[string]bool`: false for a missing key. -/
def seenGet (seen : List (String × Bool)) (k : String) : Bool :=
  (mapGet seen k).getD false

/-- The inner loop of `computeDeclaredDefinitions` over `defs`, on the state
`(seen, result)`. -/
def addDefinitions :
    List String → List (String × Bool) × List String → List (String × Bool) × List String
  | [], st => st
  | d :: rest, (seen, result) =>
    if !seenGet seen d then addDefinitions rest (mapSet seen d true, result ++ [d])
    else addDefinitions rest (seen, result)

/-- The outer loop of `computeDeclaredDefinitions` over the transformers. -/
def visitTransformers (defType : String) :
    List (String × Transformer) → List (String × Bool) × List String →
      List (String × Bool) × List String
  | [], st => st
  | (_, transformer) :: rest, st =>
    visitTransformers defType rest (addDefinitions (definitionsOf transformer defType) st)

/-- computeDeclaredDefinitions computes all definitions of a specific type
across all transformers. -/
def computeDeclaredDefinitions (provider : Provider) (defType : String) : List String :=
  (visitTransformers defType provider.Transformers ([], [])).2

/-- sortedKeys returns sorted keys from a map. The body appends the keys in
the order the `range` visits them and returns them as they are. -/
def sortedKeys (m : List (String × Transformer)) : List String :=
  m.foldl (fun keys entry => keys ++ [entry.1]) []

/-- The `Hash` of `m[fqn]`; the key is always present where this is read. -/
def hashOf (m : List (String × Transformer)) (fqn : String) : String :=
  match mapGet m fqn with
  | some transformer => transformer.Hash
  | none => ""

/-- The bytes `computeProviderHash` writes to the hash, in order. -/
def providerHashInput (provider : Provider) : List UInt8 :=
  let h : List UInt8 := []
  let h := h ++ stringBytes provider.Metadata.Name
  let h := h ++ stringBytes provider.Metadata.Version
  let h := h ++ stringBytes provider.Metadata.Description
  (sortedKeys provider.Transformers).foldl
    (fun h fqn => h ++ stringBytes fqn ++ stringBytes (hashOf provider.Transformers fqn)) h

/-- computeProviderHash computes a content-based hash for the provider:
`fmt.Sprintf("%x", h.Sum(nil))` over the bytes written. `sha256` is the
digest function of `crypto/sha256`. -/
def computeProviderHash (sha256 : List UInt8 → Digest) (provider : Provider) : String :=
  String.mk (hexEncode (sha256 (providerHashInput provider)).val)

/-- The keep-first deduplication of a list: each value stays at its first
occurrence, later occurrences are dropped. -/
def keepFirst : List String → List String
  | [] => []
  | x :: xs => x :: (keepFirst xs).filter fun y => decide (y ≠ x)

/-- The list `result` after the values of `xs` are appended to it in order,
each unless it is already there. -/
def dedupInto (result : List String) (xs : List String) : List String :=
  xs.foldl (fun r x => if x ∈ r then r else r ++ [x]) result

/-- A transformer that declares the given resources and traits. -/
def sampleTransformer (fqn : String) (resources traits : List String) (hash : String) :
    Transformer :=
  { Metadata := { FQN := fqn, Name := fqn, APIVersion := "v1", Description := "",
                  Labels := [], Annotations := [] },
    Resources := resources, Traits := traits, Policies := [], Transform := none,
    Schema := none, Hash := hash }

/-- A provider with the given transformer map and empty metadata. -/
def sampleProvider (transformers : List (String × Transformer)) : Provider :=
  { Metadata := { Name := "", Version := "", MinVersion := "", Description := "",
                  Labels := [], Annotations := [] },
    Transformers := transformers, DeclaredResources := [], DeclaredTraits := [],
    DeclaredPolicies := [], Hash := "", Schema := none }

/-- A transformer map with the keys `b` and `a`, visited in that order. -/
def mapVisitedBA : List (String × Transformer) :=
  [("b", sampleTransformer "b" ["Container", "Volume"] ["Replicas"] ""),
   ("a", sampleTransformer "a" ["Volume", "Container", "Secret"] [] "")]

/-- The same map as `mapVisitedBA`, visited in the other order. -/
def mapVisitedAB : List (String × Transformer) :=
  [("a", sampleTransformer "a" ["Volume", "Container", "Secret"] [] ""),
   ("b", sampleTransformer "b" ["Container", "Volume"] ["Replicas"] "")]

/-- The concatenation, in visiting order, of the lists the transformers
declare under `defType`. -/
def declaredLists (provider : Provider) (defType : String) : List String :=
  provider.Transformers.flatMap fun entry => definitionsOf entry.2 defType

/-- The bytes `computeTransformerHash` writes to the hash, in order. -/
def transformerHashInput (transformer : Transformer) : List UInt8 :=
  let h : List UInt8 := []
  let h := h ++ stringBytes transformer.Metadata.FQN
  let h := h ++ stringBytes transformer.Metadata.Name
  let h := h ++ stringBytes transformer.Metadata.APIVersion
  let h := transformer.Resources.foldl (fun h resource => h ++ stringBytes resource) h
  let h := transformer.Traits.foldl (fun h trait => h ++ stringBytes trait) h
  transformer.Policies.foldl (fun h policy => h ++ stringBytes policy) h

/-- computeTransformerHash computes a content-based hash for a transformer. -/
def computeTransformerHash (sha256 : List UInt8 → Digest) (transformer : Transformer) : String :=
  String.mk (hexEncode (sha256 (transformerHashInput transformer)).val)

/-- The step `Compute hash if requested` of `LoadFromPath`: the provider hash
is assigned first, then the loop over the map assigns each transformer its
hash. -/
def assignHashes (sha256 : List UInt8 → Digest) (ComputeHashes : Bool) (provider : Provider) :
    Provider :=
  if ComputeHashes then
    let provider := { provider with Hash := computeProviderHash sha256 provider }
    { provider with
      Transformers := provider.Transformers.map fun entry =>
        (entry.1, { entry.2 with Hash := computeTransformerHash sha256 entry.2 }) }
  else provider

/-- The provider is as `extractProvider` leaves it: no transformer has a hash
yet (`Hash` is assigned nowhere but in the hashing step of `LoadFromPath`). -/
def FreshlyExtracted (provider : Provider) : Prop :=
  ∀ entry ∈ provider.Transformers, entry.2.Hash = ""

instance (provider : Provider) : Decidable (FreshlyExtracted provider) := by
  unfold FreshlyExtracted; infer_instance

/-- The same map as `mapVisitedBA` with other declarations in both
transformers. -/
def mapVisitedBAOther : List (String × Transformer) :=
  [("b", sampleTransformer "b" ["Service"] [] ""),
   ("a", sampleTransformer "a" [] ["Expose"] "")]

end Loader

/-! ## CLI configuration (`config.go`) -/

namespace CliConfig

/-- RegistryConfig contains registry-related configuration. -/
structure RegistryConfig where
  URL : String

/-- DefinitionsConfig contains definitions loading configuration; the nil
`Path` is `none`. -/
structure DefinitionsConfig where
  Module : String
  Path : Option String

/-- ProvidersConfig contains provider-related configuration. -/
structure ProvidersConfig where
  Path : String

/-- CacheConfig contains cache-related configuration. -/
structure CacheConfig where
  Enabled : Bool
  Dir : String
  TTL : String

/-- LogConfig contains logging configuration. -/
structure LogConfig where
  Level : String
  Format : String

/-- Config represents the OPM CLI configuration. -/
structure Config where
  Registry : RegistryConfig
  Definitions : DefinitionsConfig
  Providers : ProvidersConfig
  Cache : CacheConfig
  Log : LogConfig

/-- The map `validLevels` of `Validate`. -/
def validLevels : List (String × Bool) :=
  [("debug", true), ("info", true), ("warn", true), ("error", true)]

/-- The map `validFormats` of `Validate`. -/
def validFormats : List (String × Bool) :=
  [("text", true), ("json", true)]

/-- The read `m[k]` of a `map[string]bool`: false for a missing key. -/
def boolAt (m : List (String × Bool)) (k : String) : Bool :=
  (Flatten.mapGet m k).getD false

/-- `len(s)` of a Go string: the number of bytes of its UTF-8 encoding. -/
def len (s : String) : Nat :=
  s.utf8ByteSize

/-- Validate validates the configuration; the result `none` is the nil
error. -/
def Validate (cfg : Config) : Option String :=
  if !boolAt validLevels cfg.Log.Level then
    some ("invalid log level: " ++ cfg.Log.Level ++ " (must be debug, info, warn, or error)")
  else if !boolAt validFormats cfg.Log.Format then
    some ("invalid log format: " ++ cfg.Log.Format ++ " (must be text or json)")
  else if cfg.Cache.TTL ≠ "" ∧ len cfg.Cache.TTL < 2 then
    some ("invalid cache TTL: " ++ cfg.Cache.TTL)
  else if cfg.Definitions.Module = "" then
    some "definitions.module cannot be empty"
  else none

/-- A configuration that differs from the defaults of `NewDefaultConfig` only
in the chosen cache TTL. -/
def configWithTTL (ttl : String) : Config :=
  { Registry := { URL := "localhost:5000" },
    Definitions := { Module := "opm.dev@v1", Path := none },
    Providers := { Path := "" },
    Cache := { Enabled := true, Dir := "", TTL := ttl },
    Log := { Level := "info", Format := "text" } }

/-- A configuration in which every condition of `Validate` fails. -/
def allInvalidConfig : Config :=
  { Registry := { URL := "" },
    Definitions := { Module := "", Path := none },
    Providers := { Path := "" },
    Cache := { Enabled := true, Dir := "", TTL := "x" },
    Log := { Level := "loud", Format := "xml" } }

/-- The environment: `getenv name` is `os.Getenv(name)`, the empty string for
a variable that is not set. -/
abbrev Environ := String → String

/-- The copy `result` of `ApplyEnvironmentOverrides` after the six
assignments, for the configuration `cfg` points to. -/
def applyOverrides (getenv : Environ) (cfg : Config) : Config :=
  let result := cfg
  let registryURL := getenv "OPM_REGISTRY_URL"
  let result :=
    if registryURL ≠ "" then { result with Registry := { result.Registry with URL := registryURL } }
    else result
  let defsModule := getenv "OPM_DEFINITIONS_MODULE"
  let result :=
    if defsModule ≠ "" then
      { result with Definitions := { result.Definitions with Module := defsModule } }
    else result
  let defsPath := getenv "OPM_DEFINITIONS_PATH"
  let result :=
    if defsPath ≠ "" then
      { result with Definitions := { result.Definitions with Path := some defsPath } }
    else result
  let cacheDir := getenv "OPM_CACHE_DIR"
  let result :=
    if cacheDir ≠ "" then { result with Cache := { result.Cache with Dir := cacheDir } }
    else result
  let logLevel := getenv "OPM_LOG_LEVEL"
  let result :=
    if logLevel ≠ "" then { result with Log := { result.Log with Level := logLevel } }
    else result
  let logFormat := getenv "OPM_LOG_FORMAT"
  let result :=
    if logFormat ≠ "" then { result with Log := { result.Log with Format := logFormat } }
    else result
  result

/-- ApplyEnvironmentOverrides applies environment variable overrides to
config. `store` holds the configurations allocated so far and `cfg` is an
address in it; the copy `result` is allocated at a new address, which is
returned with the new store. The result `none` is the panic on a nil `cfg`. -/
def ApplyEnvironmentOverrides (getenv : Environ) (store : List Config) (cfg : Nat) :
    Option (List Config × Nat) :=
  match store[cfg]? with
  | none => none
  | some c => some (store ++ [applyOverrides getenv c], store.length)

/-- The value an override gives a field: the variable when it is not empty,
else the value of the input. -/
def overridden (value current : String) : String :=
  if value ≠ "" then value else current

/-- An environment in which only the log level and the definitions path are
set. -/
def sampleEnviron : Environ := fun name =>
  if name = "OPM_LOG_LEVEL" then "debug"
  else if name = "OPM_DEFINITIONS_PATH" then "/src/defs"
  else ""

/-- GetConfigDir returns the OPM config directory. `goos` is `runtime.GOOS`,
`userHomeDir` the result of `os.UserHomeDir()` and `join` the function
`filepath.Join` of the operating system; the result is the Go pair of path and
error. -/
def GetConfigDir (getenv : Environ) (goos : String) (userHomeDir : Except String String)
    (join : List String → String) : String × Option String :=
  let configPath := getenv "OPM_CONFIG_PATH"
  if configPath ≠ "" then (configPath, none)
  else
    let xdgConfig := getenv "XDG_CONFIG_HOME"
    if xdgConfig ≠ "" ∧ goos ≠ "windows" then (join [xdgConfig, "opm"], none)
    else
      match userHomeDir with
      | .error err => ("", some ("failed to get home directory: " ++ err))
      | .ok homeDir => (join [homeDir, ".opm"], none)

/-- GetConfigPath returns the full path to config.cue. -/
def GetConfigPath (getenv : Environ) (goos : String) (userHomeDir : Except String String)
    (join : List String → String) : String × Option String :=
  match GetConfigDir getenv goos userHomeDir join with
  | (_, some err) => ("", some err)
  | (configDir, none) => (join [configDir, "config.cue"], none)

/-- An environment in which only `XDG_CONFIG_HOME` is set. -/
def xdgEnviron : Environ := fun name =>
  if name = "XDG_CONFIG_HOME" then "/home/u/.config" else ""

end CliConfig

/-! ## Transformer matcher (§4.3) -/

namespace Matcher

open Flatten Loader

/-- Modelled from the spec: the package `transformer` is not among the
sources. The strategies of §4.3. -/
inductive MatchStrategy where
  | StrategyAll
  | StrategyBest

/-- Modelled from the spec: the options `{strategy, strict}` of
`matchComponent` (§4.3). -/
structure MatchOptions where
  Strategy : MatchStrategy
  Strict : Bool

/-- Modelled from the spec: `MatchResult`, the ordered list `selected` of
transformers for one component (§3). -/
structure MatchResult where
  Selected : List Transformer

/-- Modelled from the spec: `MatchError`, with the unmatched element FQNs
listed (§4.3). -/
structure MatchError where
  Unmatched : List String

/-- Modelled from the spec: the declared set `resources ∪ traits ∪ policies`
of a transformer (§4.3). -/
def declared (t : Transformer) : List String :=
  t.Resources ++ t.Traits ++ t.Policies

/-- Modelled from the spec: the element names of a flattened component, by
FQN (§4.3). -/
def elementNames (component : ComponentIR) : List String :=
  component.Elements.map Prod.fst

/-- Modelled from the spec: the declared set of a transformer with respect to
the elements actually present on the component, that is the intersection of
the element names with the declared set (§4.3). -/
def present (names : List String) (t : Transformer) : List String :=
  names.filter fun name => decide (name ∈ declared t)

/-- Modelled from the spec: a transformer is a candidate for a component if
the intersection of the element names with its declared set is non-empty
(§4.3). -/
def isCandidate (names : List String) (t : Transformer) : Bool :=
  !(present names t).isEmpty

/-- Modelled from the spec: the candidates among the transformers of the
provider (§4.3). -/
def candidates (names : List String) (provider : Provider) : List Transformer :=
  (provider.Transformers.map Prod.snd).filter (isCandidate names)

/-- Modelled from the spec: A dominates B if A's declared set is a strict
superset of B's declared set with respect to the elements actually present on
the component (§4.3). -/
def Dominates (names : List String) (a b : Transformer) : Prop :=
  present names b ⊆ present names a ∧ ¬ present names a ⊆ present names b

instance (names : List String) (a b : Transformer) : Decidable (Dominates names a b) := by
  unfold Dominates; infer_instance

/-- Modelled from the spec: strategy `best`, the candidates that no candidate
strictly dominates (§4.3). -/
def selectBest (names : List String) (cands : List Transformer) : List Transformer :=
  cands.filter fun b => decide (∀ a ∈ cands, ¬ Dominates names a b)

/-- Modelled from the spec: the order of transformers by FQN ascending
(§4.3, output ordering); strings are compared character by character. -/
def FqnLE (a b : Transformer) : Prop :=
  a.Metadata.FQN.data ≤ b.Metadata.FQN.data

instance : DecidableRel FqnLE := fun a b =>
  inferInstanceAs (Decidable (a.Metadata.FQN.data ≤ b.Metadata.FQN.data))

/-- Modelled from the spec: the elements of the component that map to no
selected transformer (§4.3, strict mode). -/
def unmatched (names : List String) (selected : List Transformer) : List String :=
  names.filter fun name => decide (∀ t ∈ selected, name ∉ declared t)

/-- Modelled from the spec: `matchComponent(component, provider,
options{strategy, strict})` of §4.3, which `runRender` calls as
`matcher.MatchComponent`; the code is not among the sources. The candidates
are selected by the strategy, the selection is sorted by transformer FQN
ascending, and strict mode fails when an element maps to no selected
transformer. -/
def matchComponent (component : ComponentIR) (provider : Provider) (options : MatchOptions) :
    Except MatchError MatchResult :=
  let names := elementNames component
  let cands := candidates names provider
  let chosen :=
    match options.Strategy with
    | .StrategyAll => cands
    | .StrategyBest => selectBest names cands
  let selected := chosen.insertionSort FqnLE
  if options.Strict ∧ unmatched names selected ≠ [] then
    .error { Unmatched := unmatched names selected }
  else .ok { Selected := selected }

/-- A flattened component with the elements `Container` and `Replicas`. -/
def containerReplicas : ComponentIR :=
  { ID := "frontend", Metadata := none, Elements := [("Container", 0), ("Replicas", 1)],
    DataFields := none, Provenance := [] }

/-- A provider with `T1` declaring `resources: [Container]` and `T2`
declaring `resources: [Container, Replicas]`. -/
def specificityProvider : Provider :=
  sampleProvider
    [("T1", sampleTransformer "T1" ["Container"] [] ""),
     ("T2", sampleTransformer "T2" ["Container", "Replicas"] [] "")]

/-- A provider whose transformers `Zeta` and `Alpha` cover one element each,
so that neither dominates the other. -/
def tiedProvider : Provider :=
  sampleProvider
    [("Zeta", sampleTransformer "Zeta" ["Container"] [] ""),
     ("Alpha", sampleTransformer "Alpha" ["Replicas"] [] "")]

end Matcher

/-! ## The component loop of `runRender` (`render.go`) -/

namespace Render

open Flatten Loader Matcher

/-- The options of `renderOptions` that `runRender` reads once the module is
loaded. -/
structure renderOptions where
  output : String
  rendererType : String
  format : String
  dryRun : Bool

/-- Modelled from the spec: `ExecutionResult`, the resources one transformer
produced (§3); its declaration is not among the sources. -/
structure ExecutionResult where
  Resources : List CueValue
  TransformerFQN : String
  ResourceCount : Nat

/-- The collaborators `runRender` calls, none of them among the sources: the
matcher and the executor built for this run (the execution context and the
provider name are fixed), and the functions of the package `renderer` and of
its writer. Each returns its Go result; of the two results of `WriteSingle`
and `WriteMultiple` only the error is kept (`none` is nil), the write result
is read by the printed summary alone. The calls themselves are recorded by
`runRender`. -/
structure Collaborators where
  MatchComponent : CueValue → Except String MatchResult
  ExecuteAll : CueValue → List Transformer → Except String (List ExecutionResult)
  ParseFormat : String → Except String String
  GetFileExtension : String → String
  RenderKubernetesList : List CueValue → String → Except String String
  RenderSimple : List CueValue → String → Except String String
  SplitResources : List CueValue → String → String → Except String (List (String × String))
  WriteSingle : String → String → Option String
  WriteMultiple : List (String × String) → String → Option String

/-- A call to the renderer or to the writer. -/
inductive Event where
  | RenderKubernetesList (resources : List CueValue) (format : String)
  | RenderSimple (resources : List CueValue) (format : String)
  | SplitResources (resources : List CueValue) (pattern : String) (format : String)
  | WriteSingle (manifest : String) (outputFile : String)
  | WriteMultiple (manifests : List (String × String)) (output : String)

/-- The loop of `filepath.Ext` from the last character backwards: `rest` holds
the characters still to visit, last first, and `suffix` those visited. -/
def extLoop : List Char → List Char → List Char
  | [], _ => []
  | c :: rest, suffix =>
    if c = '/' then []
    else if c = '.' then '.' :: suffix
    else extLoop rest (c :: suffix)

/-- `filepath.Ext(path)` on Unix: the suffix beginning at the final dot in the
final element of the path, empty if there is no dot. -/
def pathExt (path : String) : String :=
  String.mk (extLoop path.data.reverse [])

/-- The loop `for iter.Next()` of `runRender` over the components, on the
state `(allResources, componentCount)`; an error is the error `runRender`
returns. -/
def processComponents (c : Collaborators) :
    List (String × CueValue) → List CueValue → Nat → Except String (List CueValue × Nat)
  | [], allResources, componentCount => .ok (allResources, componentCount)
  | (componentName, componentVal) :: rest, allResources, componentCount =>
    let componentCount := componentCount + 1
    match c.MatchComponent componentVal with
    | .error err =>
      .error ("failed to match transformers for component " ++ componentName ++ ": " ++ err)
    | .ok matchResult =>
      if matchResult.Selected.length = 0 then
        processComponents c rest allResources componentCount
      else
        match c.ExecuteAll componentVal matchResult.Selected with
        | .error err =>
          .error ("failed to execute transformers for component " ++ componentName ++ ": "
            ++ err)
        | .ok results =>
          processComponents c rest
            (results.foldl (fun all result => all ++ result.Resources) allResources)
            componentCount

/-- The output file of the renderers `list` and `stream`. -/
def singleOutputFile (opts : renderOptions) (format : String) : String :=
  if pathExt opts.output = "" then pathJoin [opts.output, "resources." ++ format]
  else opts.output

/-- Step 8 of `runRender`: render and write based on the renderer type. The
result is the list of calls made to the renderer and the writer, and the
error. -/
def renderAndWrite (c : Collaborators) (opts : renderOptions) (allResources : List CueValue)
    (format : String) : List Event × Option String :=
  if opts.rendererType = "list" then
    match c.RenderKubernetesList allResources format with
    | .error err =>
      ([.RenderKubernetesList allResources format],
        some ("failed to render Kubernetes List: " ++ err))
    | .ok manifest =>
      let outputFile := singleOutputFile opts format
      ([.RenderKubernetesList allResources format, .WriteSingle manifest outputFile],
        (c.WriteSingle manifest outputFile).map fun err => "failed to write manifest: " ++ err)
  else if opts.rendererType = "stream" then
    match c.RenderSimple allResources format with
    | .error err =>
      ([.RenderSimple allResources format], some ("failed to render manifests: " ++ err))
    | .ok manifest =>
      let outputFile := singleOutputFile opts format
      ([.RenderSimple allResources format, .WriteSingle manifest outputFile],
        (c.WriteSingle manifest outputFile).map fun err => "failed to write manifest: " ++ err)
  else if opts.rendererType = "split" then
    let pattern := "\x7b\x7b.Kind\x7d\x7d-\x7b\x7b.Name\x7d\x7d" ++ c.GetFileExtension format
    match c.SplitResources allResources pattern format with
    | .error err =>
      ([.SplitResources allResources pattern format],
        some ("failed to split resources: " ++ err))
    | .ok manifests =>
      ([.SplitResources allResources pattern format, .WriteMultiple manifests opts.output],
        (c.WriteMultiple manifests opts.output).map fun err =>
          "failed to write manifests: " ++ err)
  else
    ([], some ("unsupported renderer type: " ++ opts.rendererType
      ++ " (supported: list, stream, split)"))

/-- runRender from the point where the module is loaded: `loaded` is the
outcome of the steps before, the error one of them returned or the value of
`components`; none of these steps calls the renderer or the writer. The
result is the list of calls made to the renderer and the writer, in order, and
the error returned (`none` is nil). Logging and the printed summary are
omitted. -/
def runRender (c : Collaborators) (opts : renderOptions) (loaded : Except String CueValue) :
    List Event × Option String :=
  match loaded with
  | .error err => ([], some err)
  | .ok componentsVal =>
    match regularFields componentsVal with
    | .error err => ([], some ("failed to iterate components: " ++ err))
    | .ok components =>
      match processComponents c components [] 0 with
      | .error err => ([], some err)
      | .ok (allResources, componentCount) =>
        if componentCount = 0 then ([], some "module has no components")
        else if allResources.length = 0 then
          ([], some ("no resources generated from module (processed "
            ++ toString componentCount ++ " components)"))
        else
          match c.ParseFormat opts.format with
          | .error err => ([], some ("invalid format: " ++ err))
          | .ok format => renderAndWrite c opts allResources format

/-- The component is processed without error: the matcher returns a result
and, when it selected a transformer, so does the executor. -/
def Processed (c : Collaborators) (componentVal : CueValue) : Prop :=
  ∃ matchResult, c.MatchComponent componentVal = .ok matchResult ∧
    (matchResult.Selected = [] ∨
      ∃ results, c.ExecuteAll componentVal matchResult.Selected = .ok results)

/-- `MatchComponent` or `ExecuteAll` returns an error for the component. -/
def Fails (c : Collaborators) (componentVal : CueValue) : Prop :=
  (∃ err, c.MatchComponent componentVal = .error err) ∨
  ∃ matchResult err, c.MatchComponent componentVal = .ok matchResult ∧
    matchResult.Selected ≠ [] ∧ c.ExecuteAll componentVal matchResult.Selected = .error err

/-- A transformer that stands for the one the sample matcher selects. -/
def deployment : Transformer :=
  sampleTransformer "DeploymentTransformer" ["Container"] [] ""

/-- Collaborators for the examples: the matcher always selects `deployment`,
the executor fails on the component named `db` and returns the component as
its only resource otherwise, rendering and writing always succeed. -/
def sampleCollaborators : Collaborators :=
  { MatchComponent := fun _ => .ok { Selected := [deployment] },
    ExecuteAll := fun componentVal _ =>
      if stringField componentVal "name" "" = "db" then .error "transform failed"
      else .ok [{ Resources := [componentVal], TransformerFQN := "DeploymentTransformer",
                  ResourceCount := 1 }],
    ParseFormat := fun format => .ok format,
    GetFileExtension := fun format => "." ++ format,
    RenderKubernetesList := fun _ _ => .ok "kind: List",
    RenderSimple := fun _ _ => .ok "kind: Deployment",
    SplitResources := fun _ _ _ => .ok [("Deployment-web.yaml", "kind: Deployment")],
    WriteSingle := fun _ _ => none,
    WriteMultiple := fun _ _ => none }

/-- The options `--renderer stream --format yaml --output ./output/`. -/
def streamOptions : renderOptions :=
  { output := "./output/", rendererType := "stream", format := "yaml", dryRun := false }

/-- The components `web` and `db`, in this order. -/
def webAndDb : CueValue :=
  .struct [("web", .struct [("name", .str "web")]), ("db", .struct [("name", .str "db")])]

/-- The component `web` alone. -/
def webOnly : CueValue :=
  .struct [("web", .struct [("name", .str "web")])]

end Render

namespace Flatten

/-! ## Lemmas on maps and the element store -/

theorem mapGet_mapSet_self {α : Type} (m : List (String × α)) (k : String) (v : α) :
    mapGet (mapSet m k v) k = some v := by
  induction m with
  | nil => simp [mapSet, mapGet]
  | cons e rest ih =>
    obtain ⟨k', v'⟩ := e
    by_cases h : k' = k <;> simp [mapSet, mapGet, h, ih]

theorem mapGet_mapSet_ne {α : Type} (m : List (String × α)) {k k' : String} (v : α)
    (h : k ≠ k') : mapGet (mapSet m k v) k' = mapGet m k' := by
  induction m with
  | nil => simp [mapSet, mapGet, h]
  | cons e rest ih =>
    obtain ⟨k₀, v₀⟩ := e
    by_cases h₀ : k₀ = k
    · subst h₀; simp [mapSet, mapGet, h]
    · by_cases h₁ : k₀ = k'
      · subst h₁; simp [mapSet, mapGet, h₀]
      · simp [mapSet, mapGet, h₀, h₁, ih]

theorem mem_of_mapGet {α : Type} {m : List (String × α)} {k : String} {v : α}
    (h : mapGet m k = some v) : (k, v) ∈ m := by
  induction m with
  | nil => simp [mapGet] at h
  | cons e rest ih =>
    obtain ⟨k', v'⟩ := e
    by_cases hk : k' = k
    · simp [mapGet, hk] at h; simp [hk, h]
    · simp [mapGet, hk] at h; exact List.mem_cons_of_mem _ (ih h)

theorem mem_mapSet {α : Type} {m : List (String × α)} {k : String} {v : α}
    {e : String × α} (h : e ∈ mapSet m k v) : e = (k, v) ∨ e ∈ m := by
  induction m with
  | nil => simp [mapSet] at h; exact Or.inl h
  | cons e₀ rest ih =>
    obtain ⟨k', v'⟩ := e₀
    by_cases hk : k' = k
    · simp [mapSet, hk] at h
      rcases h with h | h
      · exact Or.inl h
      · exact Or.inr (List.mem_cons_of_mem _ h)
    · simp [mapSet, hk] at h
      rcases h with h | h
      · exact Or.inr (by simp [h])
      · rcases ih h with h' | h'
        · exact Or.inl h'
        · exact Or.inr (List.mem_cons_of_mem _ h')

theorem deref_heap_set (f : Flattener) (p q : Ptr) (e : Element) :
    Flattener.deref { f with heap := f.heap.set p e } q =
      if q = p ∧ p < f.heap.length then e else f.deref q := by
  unfold Flattener.deref
  simp only [List.getElem?_set]
  by_cases hpq : p = q
  · subst hpq
    by_cases hp : p < f.heap.length
    · simp [hp]
    · simp [hp, List.getElem?_eq_none (Nat.le_of_not_lt hp)]
  · have : ¬ q = p := fun h => hpq h.symm
    simp [hpq, this]

theorem deref_setSourceComposite (f : Flattener) (p q : Ptr) (o : String) :
    (f.setSourceComposite p o).deref q =
      if q = p ∧ p < f.heap.length then (f.deref p).stamp o else f.deref q :=
  deref_heap_set f p q _

theorem deref_dropComposed (f : Flattener) (c q : Ptr) (x : String) :
    (f.dropComposed c x).deref q =
      if q = c ∧ c < f.heap.length then
        (f.deref c).withComposes ((f.deref c).Composes.filter fun y => decide (y ≠ x))
      else f.deref q :=
  deref_heap_set f c q _

theorem stampedBy_refl (o : String) (f : Flattener) : StampedBy o f f :=
  ⟨rfl, rfl, rfl, fun _ => Or.inl rfl⟩

theorem stamp_stamp (e : Element) (o : String) : (e.stamp o).stamp o = e.stamp o := rfl

theorem stampedBy_trans {o : String} {f g h : Flattener}
    (h₁ : StampedBy o f g) (h₂ : StampedBy o g h) : StampedBy o f h := by
  refine ⟨h₂.1.trans h₁.1, h₂.2.1.trans h₁.2.1, h₂.2.2.1.trans h₁.2.2.1, fun p => ?_⟩
  rcases h₂.2.2.2 p with a | a <;> rcases h₁.2.2.2 p with b | b
  · exact Or.inl (a.trans b)
  · exact Or.inr (a.trans b)
  · exact Or.inr (by rw [a, b])
  · exact Or.inr (by rw [a, b, stamp_stamp])

theorem stampedBy_setSourceComposite (f : Flattener) (p : Ptr) (o : String) :
    StampedBy o f (f.setSourceComposite p o) := by
  refine ⟨rfl, rfl, by simp [Flattener.setSourceComposite], fun q => ?_⟩
  rw [deref_setSourceComposite]
  by_cases h : q = p ∧ p < f.heap.length
  · rw [if_pos h, h.1]; exact Or.inr rfl
  · rw [if_neg h]; exact Or.inl rfl

theorem stampedBy_wf {o : String} {f f' : Flattener} (h : StampedBy o f f') (hf : f.WF) :
    f'.WF := by
  intro e he
  rw [h.1] at he
  rw [h.2.2.1]
  exact hf e he

theorem stampedBy_kind {o : String} {f f' : Flattener} (h : StampedBy o f f') (p : Ptr) :
    (f'.deref p).Kind = (f.deref p).Kind := by
  rcases h.2.2.2 p with a | a
  · rw [a]
  · rw [a]; rfl

theorem stampedBy_fqn {o : String} {f f' : Flattener} (h : StampedBy o f f') (p : Ptr) :
    (f'.deref p).FQN = (f.deref p).FQN := by
  rcases h.2.2.2 p with a | a
  · rw [a]
  · rw [a]; rfl

theorem stampedBy_source {o : String} {f f' : Flattener} (h : StampedBy o f f') {p : Ptr}
    (hp : (f.deref p).Provenance.SourceComposite = o) :
    (f'.deref p).Provenance.SourceComposite = o := by
  rcases h.2.2.2 p with a | a <;> rw [a]
  · exact hp
  · rfl

theorem leafOf_stamped {o : String} {f f' : Flattener} {p : Ptr}
    (h : StampedBy o f f') (hp : LeafOf o f p) : LeafOf o f' p :=
  ⟨h.2.2.1 ▸ hp.1, by rw [stampedBy_kind h]; exact hp.2.1, stampedBy_source h hp.2.2⟩

theorem wf_mapGet {f : Flattener} (hf : f.WF) {k : String} {p : Ptr}
    (h : mapGet f.elementCache k = some p) : p < f.heap.length :=
  hf (k, p) (mem_of_mapGet h)

/-! ## Lemmas on `expandComposite` -/

theorem expandLoop_spec {recur : Flattener → Ptr → String → Outcome (List Ptr)}
    (hrec : ExpandSpec recur) (o : String) :
    ∀ (L : List String) (f : Flattener) (acc : List Ptr) (f' : Flattener)
      (r : Except String (List Ptr)),
      f.WF → (∀ p ∈ acc, LeafOf o f p) → expandLoop recur o L f acc = some (f', r) →
      StampedBy o f f' ∧ ∀ prims, r = .ok prims → ∀ p ∈ prims, LeafOf o f' p := by
  intro L
  induction L with
  | nil =>
    intro f acc f' r _ hacc h
    simp only [expandLoop, Option.some.injEq, Prod.mk.injEq] at h
    obtain ⟨rfl, rfl⟩ := h
    refine ⟨stampedBy_refl _ _, fun prims hp => ?_⟩
    cases hp
    exact hacc
  | cons x rest ih =>
    intro f acc f' r hf hacc h
    unfold expandLoop resolveElementByFQN at h
    cases hget : mapGet f.elementCache x with
    | none =>
      simp only [hget] at h
      exact ih f acc f' r hf hacc h
    | some q =>
      simp only [hget] at h
      have hq : q < f.heap.length := wf_mapGet hf hget
      by_cases hk : (f.deref q).Kind = "composite"
      · simp only [hk, if_true] at h
        cases hr : recur f q o with
        | none => simp [hr] at h
        | some res =>
          obtain ⟨f₁, r₁⟩ := res
          obtain ⟨hst, hsub⟩ := hrec f q o f₁ r₁ hf hr
          cases r₁ with
          | error e =>
            simp only [hr, Option.some.injEq, Prod.mk.injEq] at h
            obtain ⟨rfl, rfl⟩ := h
            exact ⟨hst, fun prims hp => by cases hp⟩
          | ok sub =>
            simp only [hr] at h
            have hacc' : ∀ p ∈ acc ++ sub, LeafOf o f₁ p := by
              intro p hp
              rcases List.mem_append.1 hp with hp | hp
              · exact leafOf_stamped hst (hacc p hp)
              · exact hsub sub rfl p hp
            obtain ⟨hst', hres⟩ := ih f₁ (acc ++ sub) f' r (stampedBy_wf hst hf) hacc' h
            exact ⟨stampedBy_trans hst hst', hres⟩
      · simp only [hk, if_false] at h
        have hst := stampedBy_setSourceComposite f q o
        have hacc' : ∀ p ∈ acc ++ [q], LeafOf o (f.setSourceComposite q o) p := by
          intro p hp
          rcases List.mem_append.1 hp with hp | hp
          · exact leafOf_stamped hst (hacc p hp)
          · have hpq : p = q := by simpa using hp
            subst hpq
            refine ⟨hst.2.2.1 ▸ hq, by rw [stampedBy_kind hst]; exact hk, ?_⟩
            rw [deref_setSourceComposite, if_pos ⟨rfl, hq⟩]
            rfl
        obtain ⟨hst', hres⟩ :=
          ih (f.setSourceComposite q o) (acc ++ [q]) f' r (stampedBy_wf hst hf) hacc' h
        exact ⟨stampedBy_trans hst hst', hres⟩

theorem expandComposite_spec (fuel : Nat) : ExpandSpec (expandComposite fuel) := by
  induction fuel with
  | zero =>
    intro f c o f' r _ h
    simp [expandComposite] at h
  | succ n ih =>
    intro f c o f' r hf h
    unfold expandComposite at h
    exact expandLoop_spec ih o _ f [] f' r hf (fun p hp => by cases hp) h

/-! ## Lemmas on `resolveElement` and `flattenComponent` -/

theorem evolves_refl (f : Flattener) : Evolves f f :=
  ⟨Nat.le_refl _, rfl, fun _ _ h => h, fun _ _ => rfl⟩

theorem evolves_trans {f g h : Flattener} (h₁ : Evolves f g) (h₂ : Evolves g h) :
    Evolves f h :=
  ⟨Nat.le_trans h₁.1 h₂.1, h₂.2.1.trans h₁.2.1, fun k p hk => h₂.2.2.1 k p (h₁.2.2.1 k p hk),
    fun p hp => (h₂.2.2.2 p (Nat.lt_of_lt_of_le hp h₁.1)).trans (h₁.2.2.2 p hp)⟩

theorem evolves_of_stampedBy {o : String} {f f' : Flattener} (h : StampedBy o f f') :
    Evolves f f' := by
  refine ⟨Nat.le_of_eq h.2.2.1.symm, h.2.1, fun k p hk => by rw [h.1]; exact hk, fun p _ => ?_⟩
  rcases h.2.2.2 p with a | a
  · rw [a]
  · rw [a]; rfl

theorem evolves_kind {f f' : Flattener} (h : Evolves f f') {p : Ptr} (hp : p < f.heap.length) :
    (f'.deref p).Kind = (f.deref p).Kind := by
  have h' := congrArg (fun e : Element => e.Kind) (h.2.2.2 p hp)
  exact h'

theorem evolves_fqn {f f' : Flattener} (h : Evolves f f') {p : Ptr} (hp : p < f.heap.length) :
    (f'.deref p).FQN = (f.deref p).FQN := by
  have h' := congrArg (fun e : Element => e.FQN) (h.2.2.2 p hp)
  exact h'

theorem nonComposite_evolves {f f' : Flattener} {p : Ptr} (h : Evolves f f')
    (hp : NonComposite f p) : NonComposite f' p :=
  ⟨Nat.lt_of_lt_of_le hp.1 h.1, by rw [evolves_kind h hp.1]; exact hp.2⟩

theorem deref_alloc_old (f : Flattener) (k : String) (e : Element) {p : Ptr}
    (hp : p < f.heap.length) : (f.alloc k e).deref p = f.deref p := by
  simp [Flattener.alloc, Flattener.deref, List.getElem?_append_left hp]

theorem deref_alloc_new (f : Flattener) (k : String) (e : Element) :
    (f.alloc k e).deref f.heap.length = e := by
  simp [Flattener.alloc, Flattener.deref]

theorem length_alloc (f : Flattener) (k : String) (e : Element) :
    (f.alloc k e).heap.length = f.heap.length + 1 := by
  simp [Flattener.alloc]

theorem mapGet_alloc_self (f : Flattener) (k : String) (e : Element) :
    mapGet (f.alloc k e).elementCache k = some f.heap.length :=
  mapGet_mapSet_self _ _ _

theorem mapGet_alloc_ne (f : Flattener) {k k' : String} (e : Element) (h : k ≠ k') :
    mapGet (f.alloc k e).elementCache k' = mapGet f.elementCache k' :=
  mapGet_mapSet_ne _ _ h

/-- A cache miss of `resolveElement`: the new state and the returned pointer. -/
theorem resolveElement_miss (E : Engine) (f : Flattener) (k : String) (v : CueValue)
    (h : mapGet f.elementCache k = none) :
    resolveElement E f k v = (f.alloc k (buildElement E k v), .ok f.heap.length) := by
  simp [resolveElement, h, Flattener.alloc]

/-- A cache hit of `resolveElement`: the state is unchanged and the cached
pointer is returned. -/
theorem resolveElement_hit (E : Engine) (f : Flattener) (k : String) (v : CueValue) {p : Ptr}
    (h : mapGet f.elementCache k = some p) : resolveElement E f k v = (f, .ok p) := by
  simp [resolveElement, h]

theorem resolveElement_spec (E : Engine) (f : Flattener) (k : String) (v : CueValue)
    (hf : f.WF) :
    ∃ p, (resolveElement E f k v).2 = .ok p ∧ (resolveElement E f k v).1.WF ∧
      Evolves f (resolveElement E f k v).1 ∧ p < (resolveElement E f k v).1.heap.length ∧
      mapGet (resolveElement E f k v).1.elementCache k = some p ∧
      (∀ q, q < f.heap.length → (resolveElement E f k v).1.deref q = f.deref q) := by
  cases hget : mapGet f.elementCache k with
  | some p =>
    rw [resolveElement_hit E f k v hget]
    exact ⟨p, rfl, hf, evolves_refl f, wf_mapGet hf hget, hget, fun _ _ => rfl⟩
  | none =>
    rw [resolveElement_miss E f k v hget]
    refine ⟨f.heap.length, rfl, ?_, ⟨?_, rfl, ?_, ?_⟩, ?_, ?_, ?_⟩
    · intro e he
      rw [length_alloc]
      rcases mem_mapSet he with h | h
      · simp [h]
      · exact Nat.lt_succ_of_lt (hf e h)
    · simp [length_alloc]
    · intro k' p hk'
      have hne : k ≠ k' := by
        intro hkk; rw [hkk] at hget; rw [hget] at hk'; cases hk'
      simp only
      rw [mapGet_alloc_ne _ _ hne]; exact hk'
    · intro p hp
      simp only
      rw [deref_alloc_old f _ _ hp]
    · simp [length_alloc]
    · exact mapGet_alloc_self _ _ _
    · intro q hq
      exact deref_alloc_old f _ _ hq

theorem mem_addPrimitives (f : Flattener) :
    ∀ (prims : List Ptr) (els : List (String × Ptr)) (e : String × Ptr),
      e ∈ addPrimitives f els prims → e ∈ els ∨ e.2 ∈ prims := by
  intro prims
  induction prims with
  | nil => intro els e h; exact Or.inl h
  | cons q rest ih =>
    intro els e h
    rcases ih _ e h with h' | h'
    · rcases mem_mapSet h' with h'' | h''
      · exact Or.inr (by simp [h''])
      · exact Or.inl h''
    · exact Or.inr (List.mem_cons_of_mem _ h')

theorem flattenLoop_nonComposite (E : Engine) (fuel : Nat) :
    ∀ (entries : List (String × CueValue)) (f : Flattener) (comp : ComponentIR)
      (f' : Flattener) (comp' : ComponentIR),
      f.WF → (∀ e ∈ comp.Elements, NonComposite f e.2) →
      flattenLoop E fuel entries f comp = some (f', .ok comp') →
      ∀ e ∈ comp'.Elements, NonComposite f' e.2 := by
  intro entries
  induction entries with
  | nil =>
    intro f comp f' comp' _ hc h
    simp only [flattenLoop, Option.some.injEq, Prod.mk.injEq, Except.ok.injEq] at h
    obtain ⟨rfl, rfl⟩ := h
    exact hc
  | cons entry rest ih =>
    obtain ⟨k, v⟩ := entry
    intro f comp f' comp' hf hc h
    obtain ⟨p, hp, hwf, hev, hlt, -, -⟩ := resolveElement_spec E f k v hf
    unfold flattenLoop at h
    rcases hres : resolveElement E f k v with ⟨f₁, r⟩
    rw [hres] at hp hwf hev hlt
    simp only at hp hwf hev hlt
    subst hp
    simp only [hres] at h
    by_cases hk : (f₁.deref p).Kind = "composite"
    · simp only [hk, if_true] at h
      cases hx : expandComposite fuel f₁ p k with
      | none => simp [hx] at h
      | some res =>
        obtain ⟨f₂, r₂⟩ := res
        obtain ⟨hst, hsub⟩ := expandComposite_spec fuel f₁ p k f₂ r₂ hwf hx
        cases r₂ with
        | error e => simp [hx] at h
        | ok prims =>
          simp only [hx] at h
          refine ih f₂ _ f' comp' (stampedBy_wf hst hwf) ?_ h
          intro e he
          rcases mem_addPrimitives f₂ prims comp.Elements e he with h' | h'
          · exact nonComposite_evolves (evolves_trans hev (evolves_of_stampedBy hst)) (hc e h')
          · exact ⟨(hsub prims rfl e.2 h').1, (hsub prims rfl e.2 h').2.1⟩
    · simp only [hk, if_false] at h
      refine ih f₁ _ f' comp' hwf ?_ h
      intro e he
      rcases mem_mapSet he with h' | h'
      · rw [h']; exact ⟨hlt, hk⟩
      · exact nonComposite_evolves hev (hc e h')

theorem flattenLoop_evolves (E : Engine) (fuel : Nat) :
    ∀ (entries : List (String × CueValue)) (f : Flattener) (comp : ComponentIR)
      (f' : Flattener) (r : Except String ComponentIR),
      f.WF → flattenLoop E fuel entries f comp = some (f', r) → Evolves f f' ∧ f'.WF := by
  intro entries
  induction entries with
  | nil =>
    intro f comp f' r hf h
    simp only [flattenLoop, Option.some.injEq, Prod.mk.injEq] at h
    obtain ⟨rfl, -⟩ := h
    exact ⟨evolves_refl _, hf⟩
  | cons entry rest ih =>
    obtain ⟨k, v⟩ := entry
    intro f comp f' r hf h
    obtain ⟨p, hp, hwf, hev, -, -, -⟩ := resolveElement_spec E f k v hf
    unfold flattenLoop at h
    rcases hres : resolveElement E f k v with ⟨f₁, r₁⟩
    rw [hres] at hp hwf hev
    simp only at hp hwf hev
    subst hp
    simp only [hres] at h
    by_cases hk : (f₁.deref p).Kind = "composite"
    · simp only [hk, if_true] at h
      cases hx : expandComposite fuel f₁ p k with
      | none => simp [hx] at h
      | some res =>
        obtain ⟨f₂, r₂⟩ := res
        have hst := (expandComposite_spec fuel f₁ p k f₂ r₂ hwf hx).1
        have hev₂ : Evolves f f₂ := evolves_trans hev (evolves_of_stampedBy hst)
        cases r₂ with
        | error e =>
          simp only [hx, Option.some.injEq, Prod.mk.injEq] at h
          obtain ⟨rfl, -⟩ := h
          exact ⟨hev₂, stampedBy_wf hst hwf⟩
        | ok prims =>
          simp only [hx] at h
          obtain ⟨hev₃, hwf₃⟩ := ih f₂ _ f' r (stampedBy_wf hst hwf) h
          exact ⟨evolves_trans hev₂ hev₃, hwf₃⟩
    · simp only [hk, if_false] at h
      obtain ⟨hev₃, hwf₃⟩ := ih f₁ _ f' r hwf h
      exact ⟨evolves_trans hev hev₃, hwf₃⟩

theorem flattenComponent_evolves (E : Engine) (fuel : Nat) (f : Flattener) (id : String)
    (compValue : CueValue) (f' : Flattener) (r : Except String ComponentIR) (hf : f.WF)
    (h : flattenComponent E fuel f id compValue = some (f', r)) : Evolves f f' ∧ f'.WF := by
  unfold flattenComponent at h
  cases hel : compValue.lookupPath "#elements" with
  | none =>
    simp only [hel, Option.some.injEq, Prod.mk.injEq] at h
    obtain ⟨rfl, -⟩ := h
    exact ⟨evolves_refl _, hf⟩
  | some ev =>
    simp only [hel] at h
    cases hfs : ev.fields with
    | error e =>
      simp only [hfs, Option.some.injEq, Prod.mk.injEq] at h
      obtain ⟨rfl, -⟩ := h
      exact ⟨evolves_refl _, hf⟩
    | ok entries =>
      simp only [hfs] at h
      cases hloop : flattenLoop E fuel entries f
          { ID := id, Metadata := compValue.lookupPath "#metadata", Elements := [],
            DataFields := none, Provenance := [] } with
      | none => simp [hloop] at h
      | some res =>
        obtain ⟨f₁, r₁⟩ := res
        have hev := flattenLoop_evolves E fuel entries f _ f₁ r₁ hf hloop
        cases r₁ with
        | error e =>
          simp only [hloop, Option.some.injEq, Prod.mk.injEq] at h
          obtain ⟨rfl, -⟩ := h
          exact hev
        | ok comp₁ =>
          simp only [hloop, Option.some.injEq, Prod.mk.injEq] at h
          obtain ⟨rfl, -⟩ := h
          exact hev

theorem evolves_stamp {f f' : Flattener} (h : Evolves f f') {p : Ptr}
    (hp : p < f.heap.length) :
    f'.deref p = (f.deref p).stamp (f'.deref p).Provenance.SourceComposite := by
  have h₁ : f'.deref p
      = ((f'.deref p).stamp "").stamp (f'.deref p).Provenance.SourceComposite := rfl
  rw [h.2.2.2 p hp] at h₁
  exact h₁

/-! ## Components without composites -/

theorem mapGet_eq_none_iff {α : Type} (m : List (String × α)) (k : String) :
    mapGet m k = none ↔ k ∉ m.map Prod.fst := by
  induction m with
  | nil => simp [mapGet]
  | cons e rest ih =>
    obtain ⟨k', v'⟩ := e
    by_cases h : k' = k
    · simp [mapGet, h]
    · have h' : ¬ k = k' := fun e => h e.symm
      simp [mapGet, h, h', ih]

theorem mapGet_append_singleton {α : Type} (m : List (String × α)) (k k' : String) (v : α) :
    mapGet (m ++ [(k, v)]) k' =
      match mapGet m k' with
      | some x => some x
      | none => if k = k' then some v else none := by
  induction m with
  | nil => simp [mapGet]
  | cons e rest ih =>
    obtain ⟨k₀, v₀⟩ := e
    by_cases h : k₀ = k'
    · simp [mapGet, h]
    · simp [mapGet, h, ih]

theorem buildElement_fqn (E : Engine) (k : String) (v : CueValue) :
    (buildElement E k v).FQN = k := by
  unfold buildElement
  simp only
  repeat' split
  all_goals rfl

theorem buildElement_kind (E : Engine) (k : String) (v : CueValue) :
    (buildElement E k v).Kind = stringField v "kind" "" := by
  unfold buildElement
  simp only
  repeat' split
  all_goals rfl

theorem buildElement_hash (E : Engine) (k : String) (v : CueValue) :
    (buildElement E k v).Hash = computeElementHash E (buildElement E k v) := by
  unfold buildElement
  simp only
  repeat' split
  all_goals rfl

theorem stringField_kind_composite (v : CueValue) :
    stringField v "kind" "" = "composite" ↔ v.lookupPath "kind" = some (.str "composite") := by
  unfold stringField
  cases h : v.lookupPath "kind" with
  | none => simp
  | some w =>
    cases w with
    | str s => simp [CueValue.asString]
    | atom t => simp [CueValue.asString]
    | list l => simp [CueValue.asString]
    | struct fs => simp [CueValue.asString]

theorem flattenLoop_flat (E : Engine) (fuel : Nat) :
    ∀ (rest done : List (String × CueValue)) (f : Flattener) (comp : ComponentIR),
      FlatInv E done f comp →
      (∀ e ∈ done, e.2.lookupPath "kind" ≠ some (.str "composite")) →
      (∀ e ∈ rest, e.2.lookupPath "kind" ≠ some (.str "composite")) →
      ∃ f' comp', flattenLoop E fuel rest f comp = some (f', .ok comp') ∧
        FlatInv E (done ++ rest) f' comp' := by
  intro rest
  induction rest with
  | nil =>
    intro done f comp hinv _ _
    exact ⟨f, comp, rfl, by simpa using hinv⟩
  | cons entry rest ih =>
    obtain ⟨k, v⟩ := entry
    intro done f comp hinv hdone hrest
    have hkv : (buildElement E k v).Kind ≠ "composite" := by
      rw [buildElement_kind, Ne, stringField_kind_composite]
      exact hrest (k, v) (List.mem_cons_self _ _)
    have hdone' : ∀ e ∈ done ++ [(k, v)], e.2.lookupPath "kind" ≠ some (.str "composite") := by
      intro e he
      rcases List.mem_append.1 he with h | h
      · exact hdone e h
      · exact hrest e (by simp at h; simp [h])
    have hrest' : ∀ e ∈ rest, e.2.lookupPath "kind" ≠ some (.str "composite") :=
      fun e he => hrest e (List.mem_cons_of_mem _ he)
    have happ : done ++ (k, v) :: rest = (done ++ [(k, v)]) ++ rest := by simp
    rw [happ]
    unfold flattenLoop
    have hk := hinv.2 k
    cases hd : mapGet done k with
    | some v₀ =>
      rw [hd] at hk
      obtain ⟨p, hp, hcache, hel, hderef⟩ := hk
      have hkv₀ : (buildElement E k v₀).Kind ≠ "composite" := by
        rw [buildElement_kind, Ne, stringField_kind_composite]
        exact hdone (k, v₀) (mem_of_mapGet hd)
      rw [resolveElement_hit E f k v hcache]
      simp only [hderef, hkv₀, if_false, buildElement_fqn]
      refine ih (done ++ [(k, v)]) f _ ⟨hinv.1, fun k' => ?_⟩ hdone' hrest'
      rw [mapGet_append_singleton]
      have hk' := hinv.2 k'
      cases hd' : mapGet done k' with
      | some v' =>
        rw [hd'] at hk'
        obtain ⟨p', hp', hcache', hel', hderef'⟩ := hk'
        refine ⟨p', hp', hcache', ?_, hderef'⟩
        by_cases hkk : k = k'
        · subst hkk
          rw [hcache] at hcache'
          cases hcache'
          exact mapGet_mapSet_self _ _ _
        · simp only
          rw [mapGet_mapSet_ne _ _ hkk]; exact hel'
      | none =>
        rw [hd'] at hk'
        have hkk : k ≠ k' := by
          intro e; rw [e] at hd; rw [hd] at hd'; cases hd'
        simp only [hkk, if_false]
        exact ⟨hk'.1, by rw [mapGet_mapSet_ne _ _ hkk]; exact hk'.2⟩
    | none =>
      rw [hd] at hk
      rw [resolveElement_miss E f k v hk.1]
      simp only [deref_alloc_new, hkv, if_false, buildElement_fqn]
      refine ih (done ++ [(k, v)]) _ _ ⟨hinv.1, fun k' => ?_⟩ hdone' hrest'
      rw [mapGet_append_singleton]
      have hk' := hinv.2 k'
      cases hd' : mapGet done k' with
      | some v' =>
        rw [hd'] at hk'
        obtain ⟨p', hp', hcache', hel', hderef'⟩ := hk'
        have hkk : k ≠ k' := by
          intro e; rw [e] at hd; rw [hd] at hd'; cases hd'
        refine ⟨p', by rw [length_alloc]; exact Nat.lt_succ_of_lt hp', ?_, ?_, ?_⟩
        · rw [mapGet_alloc_ne _ _ hkk]; exact hcache'
        · simp only
          rw [mapGet_mapSet_ne _ _ hkk]; exact hel'
        · rw [deref_alloc_old f _ _ hp']; exact hderef'
      | none =>
        rw [hd'] at hk'
        by_cases hkk : k = k'
        · subst hkk
          simp only [if_true]
          exact ⟨f.heap.length, by rw [length_alloc]; exact Nat.lt_succ_self _,
            mapGet_alloc_self _ _ _, mapGet_mapSet_self _ _ _, deref_alloc_new _ _ _⟩
        · simp only [hkk, if_false]
          exact ⟨by rw [mapGet_alloc_ne _ _ hkk]; exact hk'.1,
            by rw [mapGet_mapSet_ne _ _ hkk]; exact hk'.2⟩

/-! ## Cyclic compose graphs -/

/-- With two cached composites composing each other, no amount of fuel lets
`expandComposite` return on either of them. -/
theorem expandComposite_cycle (f : Flattener) (a b : String) (pa pb : Ptr)
    (ha : mapGet f.elementCache a = some pa) (hb : mapGet f.elementCache b = some pb)
    (hka : (f.deref pa).Kind = "composite") (hca : (f.deref pa).Composes = [b])
    (hkb : (f.deref pb).Kind = "composite") (hcb : (f.deref pb).Composes = [a]) :
    ∀ fuel o, expandComposite fuel f pa o = none ∧ expandComposite fuel f pb o = none := by
  intro fuel
  induction fuel with
  | zero => intro o; exact ⟨rfl, rfl⟩
  | succ n ih =>
    intro o
    constructor
    · unfold expandComposite
      rw [hca]
      simp [expandLoop, resolveElementByFQN, hb, hkb, (ih o).2]
    · unfold expandComposite
      rw [hcb]
      simp [expandLoop, resolveElementByFQN, ha, hka, (ih o).1]

theorem flattenLoop_cycle (E : Engine) (fuel : Nat) (f : Flattener) (comp : ComponentIR)
    (a b : String) (va vb : CueValue)
    (ha : mapGet f.elementCache a = none) (hb : mapGet f.elementCache b = none)
    (hka : (buildElement E a va).Kind = "composite")
    (hca : (buildElement E a va).Composes = [b])
    (hkb : (buildElement E b vb).Kind = "composite")
    (hcb : (buildElement E b vb).Composes = [a]) :
    flattenLoop E fuel [(a, va), (b, vb)] f comp = none := by
  unfold flattenLoop
  rw [resolveElement_miss E f a va ha]
  simp only [deref_alloc_new, hka, if_true]
  generalize hf₁ : f.alloc a (buildElement E a va) = f₁
  have hlen : f₁.heap.length = f.heap.length + 1 := by subst hf₁; exact length_alloc _ _ _
  have ha₁ : mapGet f₁.elementCache a = some f.heap.length := by
    subst hf₁; exact mapGet_alloc_self _ _ _
  have hda : f₁.deref f.heap.length = buildElement E a va := by
    subst hf₁; exact deref_alloc_new _ _ _
  by_cases hab : a = b
  · subst hab
    have hdiv := (expandComposite_cycle f₁ a a f.heap.length f.heap.length ha₁ ha₁
      (by rw [hda]; exact hka) (by rw [hda]; exact hca)
      (by rw [hda]; exact hka) (by rw [hda]; exact hca) fuel a).1
    simp only [hdiv]
  · cases fuel with
    | zero => simp [expandComposite]
    | succ n =>
      have hb₁ : mapGet f₁.elementCache b = none := by
        subst hf₁; rw [mapGet_alloc_ne _ _ hab]; exact hb
      have hstep : expandComposite (n + 1) f₁ f.heap.length a = some (f₁, .ok []) := by
        unfold expandComposite
        rw [hda, hca]
        simp [expandLoop, resolveElementByFQN, hb₁]
      simp only [hstep]
      unfold flattenLoop
      rw [resolveElement_miss E f₁ b vb hb₁]
      simp only [deref_alloc_new, hkb, if_true]
      have hba : b ≠ a := fun h => hab h.symm
      have hlt : f.heap.length < f₁.heap.length := by omega
      have hdiv := (expandComposite_cycle (f₁.alloc b (buildElement E b vb))
        a b f.heap.length f₁.heap.length
        (by rw [mapGet_alloc_ne _ _ hba]; exact ha₁)
        (mapGet_alloc_self _ _ _)
        (by rw [deref_alloc_old f₁ _ _ hlt, hda]; exact hka)
        (by rw [deref_alloc_old f₁ _ _ hlt, hda]; exact hca)
        (by rw [deref_alloc_new]; exact hkb) (by rw [deref_alloc_new]; exact hcb)
        (n + 1) b).2
      simp only [hdiv]

theorem flattenComponent_cycle (E : Engine) (fuel : Nat) (f : Flattener) (id : String)
    (compValue : CueValue) (a b : String) (va vb : CueValue)
    (hcomp : compValue.lookupPath "#elements" = some (.struct [(a, va), (b, vb)]))
    (ha : mapGet f.elementCache a = none) (hb : mapGet f.elementCache b = none)
    (hka : (buildElement E a va).Kind = "composite")
    (hca : (buildElement E a va).Composes = [b])
    (hkb : (buildElement E b vb).Kind = "composite")
    (hcb : (buildElement E b vb).Composes = [a]) :
    flattenComponent E fuel f id compValue = none := by
  unfold flattenComponent
  simp only [hcomp, CueValue.fields]
  rw [flattenLoop_cycle E fuel f _ a b va vb ha hb hka hca hkb hcb]

/-! ## Composed references that are not cached -/

theorem sameUpTo_refl (x : String) (f : Flattener) (hx : mapGet f.elementCache x = none) :
    SameUpTo x f f :=
  ⟨hx, rfl, rfl, fun p => ⟨(f.deref p).Composes, rfl, rfl⟩⟩

theorem sameUpTo_setSourceComposite {x : String} {f g : Flattener} (h : SameUpTo x f g)
    (p : Ptr) (o : String) :
    SameUpTo x (f.setSourceComposite p o) (g.setSourceComposite p o) := by
  obtain ⟨hx, hc, hl, hd⟩ := h
  refine ⟨hx, hc, by simpa [Flattener.setSourceComposite] using hl, fun q => ?_⟩
  rw [deref_setSourceComposite, deref_setSourceComposite, hl]
  by_cases hq : q = p ∧ p < f.heap.length
  · rw [if_pos hq, if_pos hq]
    obtain ⟨cs, hg, hcs⟩ := hd p
    exact ⟨cs, by rw [hg]; rfl, hcs⟩
  · rw [if_neg hq, if_neg hq]
    exact hd q

theorem sameUpTo_dropComposed (f : Flattener) (c : Ptr) (x : String)
    (hx : mapGet f.elementCache x = none) : SameUpTo x f (f.dropComposed c x) := by
  refine ⟨hx, rfl, by simp [Flattener.dropComposed], fun q => ?_⟩
  rw [deref_dropComposed]
  by_cases hq : q = c ∧ c < f.heap.length
  · rw [if_pos hq, hq.1]
    exact ⟨_, rfl, (List.filter_filter _ _).trans (by simp)⟩
  · rw [if_neg hq]
    exact ⟨_, rfl, rfl⟩

/-- Entries equal to an uncached FQN can be removed from the list the loop of
`expandComposite` runs over. -/
theorem expandLoop_filter (x : String)
    (recur : Flattener → Ptr → String → Outcome (List Ptr))
    (hpres : ∀ f c o f' r, mapGet f.elementCache x = none → recur f c o = some (f', r) →
      mapGet f'.elementCache x = none) (o : String) :
    ∀ (L : List String) (f : Flattener) (acc : List Ptr), mapGet f.elementCache x = none →
      expandLoop recur o (L.filter fun y => decide (y ≠ x)) f acc
        = expandLoop recur o L f acc := by
  intro L
  induction L with
  | nil => intro f acc _; rfl
  | cons y rest ih =>
    intro f acc hx
    by_cases hy : y = x
    · subst hy
      have hfil : List.filter (fun z => decide (z ≠ y)) (y :: rest)
          = List.filter (fun z => decide (z ≠ y)) rest := by simp
      rw [hfil, ih f acc hx]
      conv => rhs; unfold expandLoop
      simp [resolveElementByFQN, hx]
    · have hfil : List.filter (fun z => decide (z ≠ x)) (y :: rest)
          = y :: List.filter (fun z => decide (z ≠ x)) rest := by simp [hy]
      rw [hfil]
      conv => lhs; unfold expandLoop
      conv => rhs; unfold expandLoop
      cases hget : resolveElementByFQN f y with
      | error e => simp only; exact ih f acc hx
      | ok q =>
        simp only
        by_cases hk : (f.deref q).Kind = "composite"
        · simp only [hk, if_true]
          cases hr : recur f q o with
          | none => rfl
          | some res =>
            obtain ⟨f₁, r₁⟩ := res
            cases r₁ with
            | error e => rfl
            | ok sub => exact ih f₁ _ (hpres f q o f₁ _ hx hr)
        · simp only [hk, if_false]
          exact ih _ _ hx

/-- The loop of `expandComposite` run on the same list from two states
related by `SameUpTo` gives outcomes related by `OutcomeSim`. -/
theorem expandLoop_sim (x : String)
    (recur : Flattener → Ptr → String → Outcome (List Ptr))
    (hrec : ∀ f g c o, SameUpTo x f g → OutcomeSim x (recur f c o) (recur g c o))
    (o : String) :
    ∀ (L : List String) (f g : Flattener) (acc : List Ptr), SameUpTo x f g →
      OutcomeSim x (expandLoop recur o L f acc) (expandLoop recur o L g acc) := by
  intro L
  induction L with
  | nil => intro f g acc h; exact ⟨rfl, h⟩
  | cons y rest ih =>
    intro f g acc h
    unfold expandLoop resolveElementByFQN
    rw [h.2.1]
    cases hget : mapGet f.elementCache y with
    | none => simp only; exact ih f g acc h
    | some q =>
      simp only
      have hkind : (g.deref q).Kind = (f.deref q).Kind := by
        obtain ⟨cs, hg, -⟩ := h.2.2.2 q
        rw [hg]; rfl
      rw [hkind]
      by_cases hk : (f.deref q).Kind = "composite"
      · simp only [hk, if_true]
        have hs := hrec f g q o h
        cases hf : recur f q o with
        | none =>
          cases hg : recur g q o with
          | none => trivial
          | some res => rw [hf, hg] at hs; exact hs.elim
        | some res =>
          obtain ⟨f₁, r₁⟩ := res
          cases hg : recur g q o with
          | none => rw [hf, hg] at hs; exact hs.elim
          | some res' =>
            obtain ⟨g₁, r₁'⟩ := res'
            rw [hf, hg] at hs
            obtain ⟨hr, hs₁⟩ := hs
            subst hr
            cases r₁ with
            | error e => exact ⟨rfl, hs₁⟩
            | ok sub => exact ih f₁ g₁ _ hs₁
      · simp only [hk, if_false]
        exact ih _ _ _ (sameUpTo_setSourceComposite h q o)

theorem outcomeSim_uncached {x : String} {a b : Outcome (List Ptr)} (h : OutcomeSim x a b)
    {f' : Flattener} {r : Except String (List Ptr)} (ha : a = some (f', r)) :
    mapGet f'.elementCache x = none := by
  subst ha
  cases b with
  | none => exact h.elim
  | some res => exact h.2.1

theorem expandComposite_sim (x : String) (fuel : Nat) :
    ∀ (f g : Flattener) (c : Ptr) (o : String), SameUpTo x f g →
      OutcomeSim x (expandComposite fuel f c o) (expandComposite fuel g c o) := by
  induction fuel with
  | zero => intro f g c o _; trivial
  | succ n ih =>
    intro f g c o h
    have hpres : ∀ f c o f' r, mapGet f.elementCache x = none →
        expandComposite n f c o = some (f', r) → mapGet f'.elementCache x = none :=
      fun f c o f' r hx hr => outcomeSim_uncached (ih f f c o (sameUpTo_refl x f hx)) hr
    have hxg : mapGet g.elementCache x = none := by rw [h.2.1]; exact h.1
    obtain ⟨cs, hg, hcs⟩ := h.2.2.2 c
    unfold expandComposite
    rw [← expandLoop_filter x _ hpres o _ f [] h.1, ← expandLoop_filter x _ hpres o _ g [] hxg]
    have hcomp : (g.deref c).Composes = cs := by rw [hg]; rfl
    rw [hcomp, hcs]
    exact expandLoop_sim x _ ih o _ f g [] h

theorem expandLoop_no_error {recur : Flattener → Ptr → String → Outcome (List Ptr)}
    (hrec : ∀ f c o f' e, recur f c o ≠ some (f', .error e)) (o : String) :
    ∀ (L : List String) (f : Flattener) (acc : List Ptr) (f' : Flattener) (e : String),
      expandLoop recur o L f acc ≠ some (f', .error e) := by
  intro L
  induction L with
  | nil => intro f acc f' e h; simp [expandLoop] at h
  | cons y rest ih =>
    intro f acc f' e h
    unfold expandLoop at h
    cases hget : resolveElementByFQN f y with
    | error err => rw [hget] at h; exact ih f acc f' e h
    | ok q =>
      rw [hget] at h
      simp only at h
      by_cases hk : (f.deref q).Kind = "composite"
      · simp only [hk, if_true] at h
        cases hr : recur f q o with
        | none => simp [hr] at h
        | some res =>
          obtain ⟨f₁, r₁⟩ := res
          cases r₁ with
          | error err => exact hrec f q o f₁ err hr
          | ok sub => rw [hr] at h; exact ih f₁ _ f' e h
      · simp only [hk, if_false] at h
        exact ih _ _ f' e h

theorem expandComposite_no_error (fuel : Nat) :
    ∀ (f : Flattener) (c : Ptr) (o : String) (f' : Flattener) (e : String),
      expandComposite fuel f c o ≠ some (f', .error e) := by
  induction fuel with
  | zero => intro f c o f' e h; simp [expandComposite] at h
  | succ n ih =>
    intro f c o f' e
    unfold expandComposite
    exact expandLoop_no_error ih o _ f [] f' e

theorem resolveElement_ok (E : Engine) (f : Flattener) (k : String) (v : CueValue) :
    ∃ p, (resolveElement E f k v).2 = .ok p := by
  cases h : mapGet f.elementCache k with
  | some p => exact ⟨p, by rw [resolveElement_hit E f k v h]⟩
  | none => exact ⟨f.heap.length, by rw [resolveElement_miss E f k v h]⟩

theorem flattenLoop_no_error (E : Engine) (fuel : Nat) :
    ∀ (entries : List (String × CueValue)) (f : Flattener) (comp : ComponentIR)
      (f' : Flattener) (e : String),
      flattenLoop E fuel entries f comp ≠ some (f', .error e) := by
  intro entries
  induction entries with
  | nil => intro f comp f' e h; simp [flattenLoop] at h
  | cons entry rest ih =>
    obtain ⟨k, v⟩ := entry
    intro f comp f' e h
    obtain ⟨p, hp⟩ := resolveElement_ok E f k v
    unfold flattenLoop at h
    rcases hres : resolveElement E f k v with ⟨f₁, r⟩
    rw [hres] at hp
    simp only at hp
    subst hp
    simp only [hres] at h
    by_cases hk : (f₁.deref p).Kind = "composite"
    · simp only [hk, if_true] at h
      cases hx : expandComposite fuel f₁ p k with
      | none => simp [hx] at h
      | some res =>
        obtain ⟨f₂, r₂⟩ := res
        cases r₂ with
        | error err => exact expandComposite_no_error fuel f₁ p k f₂ err hx
        | ok prims => rw [hx] at h; exact ih f₂ _ f' e h
    · simp only [hk, if_false] at h
      exact ih f₁ _ f' e h

/-! ## Leaves reached through two composites -/

theorem expandLoop_mem {recur : Flattener → Ptr → String → Outcome (List Ptr)}
    (hrec : ExpandSpec recur) (o : String) :
    ∀ (L : List String) (f : Flattener) (acc : List Ptr) (f' : Flattener) (prims : List Ptr),
      f.WF → expandLoop recur o L f acc = some (f', .ok prims) →
      (∀ p ∈ acc, p ∈ prims) ∧
      ∀ y ∈ L, ∀ q, mapGet f.elementCache y = some q → (f.deref q).Kind ≠ "composite" →
        q ∈ prims := by
  intro L
  induction L with
  | nil =>
    intro f acc f' prims _ h
    simp only [expandLoop, Option.some.injEq, Prod.mk.injEq, Except.ok.injEq] at h
    obtain ⟨-, rfl⟩ := h
    exact ⟨fun p hp => hp, fun y hy => by cases hy⟩
  | cons x rest ih =>
    intro f acc f' prims hf h
    unfold expandLoop resolveElementByFQN at h
    cases hget : mapGet f.elementCache x with
    | none =>
      simp only [hget] at h
      obtain ⟨hacc, hrest⟩ := ih f acc f' prims hf h
      refine ⟨hacc, fun y hy q hq hk => ?_⟩
      rcases List.mem_cons.1 hy with rfl | hy
      · rw [hget] at hq; cases hq
      · exact hrest y hy q hq hk
    | some q₀ =>
      simp only [hget] at h
      by_cases hk₀ : (f.deref q₀).Kind = "composite"
      · simp only [hk₀, if_true] at h
        cases hr : recur f q₀ o with
        | none => simp [hr] at h
        | some res =>
          obtain ⟨f₁, r₁⟩ := res
          have hst := (hrec f q₀ o f₁ r₁ hf hr).1
          cases r₁ with
          | error e => simp [hr] at h
          | ok sub =>
            simp only [hr] at h
            obtain ⟨hacc, hrest⟩ := ih f₁ (acc ++ sub) f' prims (stampedBy_wf hst hf) h
            refine ⟨fun p hp => hacc p (List.mem_append_left _ hp), fun y hy q hq hk => ?_⟩
            rcases List.mem_cons.1 hy with rfl | hy
            · rw [hget] at hq; cases hq; exact absurd hk₀ hk
            · exact hrest y hy q (by rw [hst.1]; exact hq)
                (by rw [stampedBy_kind hst]; exact hk)
      · simp only [hk₀, if_false] at h
        have hst := stampedBy_setSourceComposite f q₀ o
        obtain ⟨hacc, hrest⟩ :=
          ih (f.setSourceComposite q₀ o) (acc ++ [q₀]) f' prims (stampedBy_wf hst hf) h
        refine ⟨fun p hp => hacc p (List.mem_append_left _ hp), fun y hy q hq hk => ?_⟩
        rcases List.mem_cons.1 hy with rfl | hy
        · have hqq : q₀ = q := by rw [hget] at hq; exact Option.some.inj hq
          rw [← hqq]
          exact hacc q₀ (List.mem_append_right _ (List.mem_singleton_self q₀))
        · exact hrest y hy q (by rw [hst.1]; exact hq)
            (by rw [stampedBy_kind hst]; exact hk)

/-- A cached leaf named directly in `Composes` is among the pointers
`expandComposite` returns. -/
theorem expandComposite_mem (fuel : Nat) (f : Flattener) (c : Ptr) (o : String)
    (f' : Flattener) (prims : List Ptr) (hf : f.WF)
    (h : expandComposite fuel f c o = some (f', .ok prims)) :
    ∀ y ∈ (f.deref c).Composes, ∀ q, mapGet f.elementCache y = some q →
      (f.deref q).Kind ≠ "composite" → q ∈ prims := by
  cases fuel with
  | zero => simp [expandComposite] at h
  | succ n =>
    unfold expandComposite at h
    exact (expandLoop_mem (expandComposite_spec n) o _ f [] f' prims hf h).2

/-- Over a list whose cached entries are all leaves the loop of
`expandComposite` returns a list, without any recursive call. -/
theorem expandLoop_leaves (recur : Flattener → Ptr → String → Outcome (List Ptr))
    (o : String) :
    ∀ (L : List String) (f : Flattener) (acc : List Ptr),
      (∀ y ∈ L, ∀ q, mapGet f.elementCache y = some q → (f.deref q).Kind ≠ "composite") →
      ∃ f' prims, expandLoop recur o L f acc = some (f', .ok prims) ∧ StampedBy o f f' := by
  intro L
  induction L with
  | nil => intro f acc _; exact ⟨f, acc, rfl, stampedBy_refl o f⟩
  | cons x rest ih =>
    intro f acc hL
    unfold expandLoop resolveElementByFQN
    cases hget : mapGet f.elementCache x with
    | none =>
      simp only
      exact ih f acc (fun y hy => hL y (List.mem_cons_of_mem _ hy))
    | some q₀ =>
      have hk₀ := hL x (List.mem_cons_self _ _) q₀ hget
      simp only [hk₀, if_false]
      have hst := stampedBy_setSourceComposite f q₀ o
      obtain ⟨f', prims, hrun, hst'⟩ := ih (f.setSourceComposite q₀ o) (acc ++ [q₀])
        (fun y hy q hq => by
          rw [stampedBy_kind hst]
          exact hL y (List.mem_cons_of_mem _ hy) q (by rw [← hst.1]; exact hq))
      exact ⟨f', prims, hrun, stampedBy_trans hst hst'⟩

theorem mapSet_keys {α : Type} (m : List (String × α)) (k : String) (v : α) :
    (mapSet m k v).map Prod.fst
      = if k ∈ m.map Prod.fst then m.map Prod.fst else m.map Prod.fst ++ [k] := by
  induction m with
  | nil => simp [mapSet]
  | cons e rest ih =>
    obtain ⟨k', v'⟩ := e
    by_cases h : k' = k
    · simp [mapSet, h]
    · have h' : ¬ k = k' := fun e => h e.symm
      by_cases hm : k ∈ rest.map Prod.fst
      · simp only [mapSet, h, if_false, List.map_cons, ih, hm, if_true, List.mem_cons, or_true]
      · simp only [mapSet, h, if_false, List.map_cons, ih, hm, List.mem_cons, h', or_self,
          List.cons_append]

theorem mapSet_keys_nodup {α : Type} (m : List (String × α)) (k : String) (v : α)
    (h : (m.map Prod.fst).Nodup) : ((mapSet m k v).map Prod.fst).Nodup := by
  rw [mapSet_keys]
  by_cases hm : k ∈ m.map Prod.fst
  · rw [if_pos hm]; exact h
  · rw [if_neg hm]
    exact List.Nodup.append h (List.nodup_singleton k)
      (by intro a ha hk; simp at hk; subst hk; exact hm ha)

theorem addPrimitives_keys_nodup (f : Flattener) :
    ∀ (prims : List Ptr) (els : List (String × Ptr)), (els.map Prod.fst).Nodup →
      ((addPrimitives f els prims).map Prod.fst).Nodup := by
  intro prims
  induction prims with
  | nil => intro els h; exact h
  | cons q rest ih => intro els h; exact ih _ (mapSet_keys_nodup els _ q h)

/-- When some pointer of `prims` refers to an element with FQN `k`, the map
built by the loop over `prims` holds under `k` a pointer of `prims`. -/
theorem addPrimitives_get (f : Flattener) (k : String) :
    ∀ (prims : List Ptr) (els : List (String × Ptr)),
      (∃ q ∈ prims, (f.deref q).FQN = k) →
      ∃ p ∈ prims, mapGet (addPrimitives f els prims) k = some p := by
  intro prims
  induction prims with
  | nil => intro els h; obtain ⟨q, hq, -⟩ := h; cases hq
  | cons q rest ih =>
    intro els h
    by_cases hr : ∃ q' ∈ rest, (f.deref q').FQN = k
    · obtain ⟨p, hp, hget⟩ := ih (mapSet els (f.deref q).FQN q) hr
      exact ⟨p, List.mem_cons_of_mem _ hp, hget⟩
    · have hq : (f.deref q).FQN = k := by
        obtain ⟨q', hq', hk⟩ := h
        rcases List.mem_cons.1 hq' with rfl | hq'
        · exact hk
        · exact absurd ⟨q', hq', hk⟩ hr
      have hkeep : ∀ (rest' : List Ptr) (els' : List (String × Ptr)),
          (∀ q' ∈ rest', (f.deref q').FQN ≠ k) →
          mapGet (addPrimitives f els' rest') k = mapGet els' k := by
        intro rest'
        induction rest' with
        | nil => intro els' _; rfl
        | cons q' rest'' ih' =>
          intro els' hne
          have h₁ := ih' (mapSet els' (f.deref q').FQN q')
            (fun a ha => hne a (List.mem_cons_of_mem _ ha))
          rw [mapGet_mapSet_ne _ _ (hne q' (List.mem_cons_self _ _))] at h₁
          exact h₁
      refine ⟨q, List.mem_cons_self _ _, ?_⟩
      have h₂ := hkeep rest (mapSet els (f.deref q).FQN q)
        (fun q' hq' hk => hr ⟨q', hq', hk⟩)
      rw [hq, mapGet_mapSet_self] at h₂
      have h₃ : addPrimitives f els (q :: rest) = addPrimitives f (mapSet els k q) rest := by
        simp [addPrimitives, hq]
      rw [h₃]
      exact h₂

/-! ## Kind gating and the content hash -/

theorem buildElement_kindGated (E : Engine) (k : String) (v : CueValue) :
    KindGated (buildElement E k v) := by
  unfold buildElement KindGated
  simp only
  repeat' split
  all_goals simp_all [Element.zero]

theorem cacheGated_of_stampedBy {o : String} {f f' : Flattener} (h : StampedBy o f f')
    (hg : CacheGated f) : CacheGated f' := by
  intro e he
  rw [h.1] at he
  rcases h.2.2.2 e.2 with a | a
  · rw [a]; exact hg e he
  · rw [a]; exact hg e he

theorem resolveElement_cacheGated (E : Engine) (f : Flattener) (k : String) (v : CueValue)
    (hf : f.WF) (hg : CacheGated f) : CacheGated (resolveElement E f k v).1 := by
  cases hget : mapGet f.elementCache k with
  | some p => rw [resolveElement_hit E f k v hget]; exact hg
  | none =>
    rw [resolveElement_miss E f k v hget]
    intro e he
    rcases mem_mapSet he with h | h
    · rw [h]
      simp only
      rw [deref_alloc_new]
      exact buildElement_kindGated E k v
    · simp only
      rw [deref_alloc_old f _ _ (hf e h)]
      exact hg e h

theorem flattenLoop_cacheGated (E : Engine) (fuel : Nat) :
    ∀ (entries : List (String × CueValue)) (f : Flattener) (comp : ComponentIR)
      (f' : Flattener) (r : Except String ComponentIR),
      f.WF → CacheGated f → flattenLoop E fuel entries f comp = some (f', r) →
      CacheGated f' := by
  intro entries
  induction entries with
  | nil =>
    intro f comp f' r _ hg h
    simp only [flattenLoop, Option.some.injEq, Prod.mk.injEq] at h
    obtain ⟨rfl, -⟩ := h
    exact hg
  | cons entry rest ih =>
    obtain ⟨k, v⟩ := entry
    intro f comp f' r hf hg h
    obtain ⟨p, hp, hwf, -, -, -, -⟩ := resolveElement_spec E f k v hf
    have hg₁ := resolveElement_cacheGated E f k v hf hg
    unfold flattenLoop at h
    rcases hres : resolveElement E f k v with ⟨f₁, r₁⟩
    rw [hres] at hp hwf hg₁
    simp only at hp hwf hg₁
    subst hp
    simp only [hres] at h
    by_cases hk : (f₁.deref p).Kind = "composite"
    · simp only [hk, if_true] at h
      cases hx : expandComposite fuel f₁ p k with
      | none => simp [hx] at h
      | some res =>
        obtain ⟨f₂, r₂⟩ := res
        have hst := (expandComposite_spec fuel f₁ p k f₂ r₂ hwf hx).1
        cases r₂ with
        | error e =>
          simp only [hx, Option.some.injEq, Prod.mk.injEq] at h
          obtain ⟨rfl, -⟩ := h
          exact cacheGated_of_stampedBy hst hg₁
        | ok prims =>
          simp only [hx] at h
          exact ih f₂ _ f' r (stampedBy_wf hst hwf) (cacheGated_of_stampedBy hst hg₁) h
    · simp only [hk, if_false] at h
      exact ih f₁ _ f' r hwf hg₁ h

theorem flattenComponent_cacheGated (E : Engine) (fuel : Nat) (f : Flattener) (id : String)
    (compValue : CueValue) (f' : Flattener) (r : Except String ComponentIR) (hf : f.WF)
    (hg : CacheGated f) (h : flattenComponent E fuel f id compValue = some (f', r)) :
    CacheGated f' := by
  unfold flattenComponent at h
  cases hel : compValue.lookupPath "#elements" with
  | none =>
    simp only [hel, Option.some.injEq, Prod.mk.injEq] at h
    obtain ⟨rfl, -⟩ := h
    exact hg
  | some ev =>
    simp only [hel] at h
    cases hfs : ev.fields with
    | error e =>
      simp only [hfs, Option.some.injEq, Prod.mk.injEq] at h
      obtain ⟨rfl, -⟩ := h
      exact hg
    | ok entries =>
      simp only [hfs] at h
      cases hloop : flattenLoop E fuel entries f
          { ID := id, Metadata := compValue.lookupPath "#metadata", Elements := [],
            DataFields := none, Provenance := [] } with
      | none => simp [hloop] at h
      | some res =>
        obtain ⟨f₁, r₁⟩ := res
        have hg₁ := flattenLoop_cacheGated E fuel entries f _ f₁ r₁ hf hg hloop
        cases r₁ with
        | error e =>
          simp only [hloop, Option.some.injEq, Prod.mk.injEq] at h
          obtain ⟨rfl, -⟩ := h
          exact hg₁
        | ok comp₁ =>
          simp only [hloop, Option.some.injEq, Prod.mk.injEq] at h
          obtain ⟨rfl, -⟩ := h
          exact hg₁

theorem foldl_append_stringBytes (L : List String) (h : List UInt8) :
    L.foldl (fun h c => h ++ stringBytes c) h = h ++ L.flatMap stringBytes := by
  induction L generalizing h with
  | nil => simp
  | cons c rest ih => simp [List.foldl_cons, ih, List.flatMap_cons, List.append_assoc]

theorem computeElementHash_eq (E : Engine) (e : Element) :
    computeElementHash E e = String.mk ((hexEncode (E.sha256 (hashInput E e)).val).take 16) := by
  unfold computeElementHash hashInput
  simp only [foldl_append_stringBytes, List.nil_append]
  cases e.Schema <;> simp [List.append_assoc]

theorem length_hexEncode (bs : List UInt8) : (hexEncode bs).length = 2 * bs.length := by
  induction bs with
  | nil => rfl
  | cons b rest ih =>
    simp only [hexEncode, List.flatMap_cons, List.length_append, List.length_cons,
      List.length_nil] at ih ⊢
    omega

theorem hexDigit_mem (n : Nat) : hexDigit n ∈ hextable := by
  unfold hexDigit
  by_cases h : n < hextable.length
  · rw [List.getD_eq_getElem _ _ h]
    exact List.getElem_mem h
  · rw [List.getD_eq_default _ _ (Nat.le_of_not_lt h)]
    decide

theorem hexEncode_mem (bs : List UInt8) : ∀ c ∈ hexEncode bs, c ∈ hextable := by
  intro c hc
  simp only [hexEncode, List.mem_flatMap, List.mem_cons, List.mem_singleton,
    List.not_mem_nil, or_false] at hc
  obtain ⟨b, -, rfl | rfl⟩ := hc
  · exact hexDigit_mem _
  · exact hexDigit_mem _

/-! ## Properties of the flattener -/

/-- C1: for every flattener state (whose cache holds allocated pointers only)
and every raw component on which `flattenComponent` returns a component, no
element of the returned `Elements` map has Kind "composite"; and no pointer
returned by `expandComposite` refers to a composite. -/
theorem flattenComponent_elements_not_composite (E : Engine) (fuel : Nat) (f : Flattener)
    (hf : f.WF) :
    (∀ id compValue f' comp,
      flattenComponent E fuel f id compValue = some (f', .ok comp) →
      ∀ k p, (k, p) ∈ comp.Elements → (f'.deref p).Kind ≠ "composite") ∧
    (∀ composite originFQN f' primitives,
      expandComposite fuel f composite originFQN = some (f', .ok primitives) →
      ∀ p ∈ primitives, (f'.deref p).Kind ≠ "composite") := by
  constructor
  · intro id compValue f' comp h k p hmem
    unfold flattenComponent at h
    cases hel : compValue.lookupPath "#elements" with
    | none =>
      simp only [hel, Option.some.injEq, Prod.mk.injEq, Except.ok.injEq] at h
      obtain ⟨-, rfl⟩ := h
      cases hmem
    | some ev =>
      simp only [hel] at h
      cases hfs : ev.fields with
      | error e => simp [hfs] at h
      | ok entries =>
        simp only [hfs] at h
        cases hloop : flattenLoop E fuel entries f
            { ID := id, Metadata := compValue.lookupPath "#metadata", Elements := [],
              DataFields := none, Provenance := [] } with
        | none => simp [hloop] at h
        | some res =>
          obtain ⟨f₁, r⟩ := res
          cases r with
          | error e => simp [hloop] at h
          | ok comp₁ =>
            simp only [hloop, Option.some.injEq, Prod.mk.injEq, Except.ok.injEq] at h
            obtain ⟨rfl, rfl⟩ := h
            exact (flattenLoop_nonComposite E fuel entries f _ f₁ comp₁ hf
              (fun e he => by cases he) hloop (k, p) hmem).2
  · intro composite originFQN f' primitives h p hp
    exact ((expandComposite_spec fuel f composite originFQN f' _ hf h).2 primitives rfl p hp).2.1

/-- C1 at the example of `main` with both leaves cached: the composite is
replaced by its two leaves. -/
theorem flattenComponent_elements_not_composite_witness :
    leavesResolved.WF ∧
    flattenComponent sampleEngine 1 leavesResolved "frontend" statelessComponent
      = some (statelessFlattened.1, .ok statelessFlattened.2) ∧
    statelessFlattened.2.Elements = [("Container", 0), ("Replicas", 1)] ∧
    ∀ k p, (k, p) ∈ statelessFlattened.2.Elements →
      (statelessFlattened.1.deref p).Kind ≠ "composite" :=
  ⟨by decide, rfl, by decide,
    (flattenComponent_elements_not_composite sampleEngine 1 leavesResolved (by decide)).1
      "frontend" statelessComponent statelessFlattened.1 statelessFlattened.2 rfl⟩

/-- C2 (as the code behaves): for a component that directly lists composite A
(composes B) and composite B (composes A), neither of them cached before,
`flattenComponent` does not terminate: whatever the fuel, the call runs out
of it, so it returns neither a component nor a cycle error. -/
theorem flattenComponent_cycle_never_returns (E : Engine) (fuel : Nat) (f : Flattener)
    (id : String) (compValue : CueValue) (a b : String) (va vb : CueValue)
    (hcomp : compValue.lookupPath "#elements" = some (.struct [(a, va), (b, vb)]))
    (ha : mapGet f.elementCache a = none) (hb : mapGet f.elementCache b = none)
    (hka : (buildElement E a va).Kind = "composite")
    (hca : (buildElement E a va).Composes = [b])
    (hkb : (buildElement E b vb).Kind = "composite")
    (hcb : (buildElement E b vb).Composes = [a]) :
    flattenComponent E fuel f id compValue = none :=
  flattenComponent_cycle E fuel f id compValue a b va vb hcomp ha hb hka hca hkb hcb

/-- C2 on `cyclicComponent` with a fresh flattener and fuel 1000. -/
theorem flattenComponent_cycle_never_returns_witness :
    flattenComponent sampleEngine 1000 NewFlattener "frontend" cyclicComponent = none :=
  flattenComponent_cycle_never_returns sampleEngine 1000 NewFlattener "frontend"
    cyclicComponent "A" "B" (rawComposite "A" ["B"]) (rawComposite "B" ["A"])
    rfl rfl rfl rfl rfl rfl rfl

/-- C2 as stated fails: on `cyclicComponent` a fresh flattener never returns,
so in particular it never fails with a cycle error. -/
theorem flattenComponent_cycle_no_error :
    ¬ ∃ fuel f' r,
      flattenComponent sampleEngine fuel NewFlattener "frontend" cyclicComponent
        = some (f', r) := by
  rintro ⟨fuel, f', r, h⟩
  rw [flattenComponent_cycle sampleEngine fuel NewFlattener "frontend"
    cyclicComponent "A" "B" (rawComposite "A" ["B"]) (rawComposite "B" ["A"])
    rfl rfl rfl rfl rfl rfl rfl] at h
  cases h

/-- C3: for every composite, origin FQN `o` and flattener state on which
`expandComposite` returns a list, every returned element has
`Provenance.SourceComposite = o`, leaves reached through nested composites
included. -/
theorem expandComposite_stamps_origin (fuel : Nat) (f : Flattener) (composite : Ptr)
    (o : String) (f' : Flattener) (primitives : List Ptr) (hf : f.WF)
    (h : expandComposite fuel f composite o = some (f', .ok primitives)) :
    ∀ p ∈ primitives, (f'.deref p).Provenance.SourceComposite = o :=
  fun p hp => ((expandComposite_spec fuel f composite o f' _ hf h).2 primitives rfl p hp).2.2

/-- C3 on a nested composite: expanding `Outer` (pointer 2) reaches `Leaf`
(pointer 0) through `Inner` and stamps it with the origin `Outer`. -/
theorem expandComposite_stamps_origin_witness :
    expandComposite 2 nestedResolved 2 "Outer"
      = some (nestedResolved.setSourceComposite 0 "Outer", .ok [0]) ∧
    ∀ p ∈ [0], ((nestedResolved.setSourceComposite 0 "Outer").deref p).Provenance.SourceComposite
      = "Outer" :=
  ⟨rfl, expandComposite_stamps_origin 2 nestedResolved 2 "Outer"
    (nestedResolved.setSourceComposite 0 "Outer") [0] (by decide) rfl⟩

/-- C4: for a fresh flattener and every raw component none of whose element
entries has kind "composite" (its `#elements` a struct with entries `entries`,
or absent with no entries), `flattenComponent` succeeds whatever the fuel; the
keys of the returned `Elements` are exactly the labels listed under
`#elements`; each label maps to the element `resolveElement` builds from its
entry, whose `Hash` is the hash of that element; and `Provenance` is empty. -/
theorem flattenComponent_flat_identity (E : Engine) (fuel : Nat) (id : String)
    (compValue : CueValue) (entries : List (String × CueValue))
    (hel : compValue.lookupPath "#elements" = some (.struct entries) ∨
      (compValue.lookupPath "#elements" = none ∧ entries = []))
    (hflat : ∀ e ∈ entries, e.2.lookupPath "kind" ≠ some (.str "composite")) :
    ∃ f' comp, flattenComponent E fuel NewFlattener id compValue = some (f', .ok comp) ∧
      (∀ k, k ∈ comp.Elements.map Prod.fst ↔ k ∈ entries.map Prod.fst) ∧
      (∀ k v, mapGet entries k = some v →
        ∃ p, mapGet comp.Elements k = some p ∧ f'.deref p = buildElement E k v ∧
          (f'.deref p).Hash = computeElementHash E (f'.deref p)) ∧
      comp.Provenance = [] := by
  rcases hel with hel | ⟨hel, rfl⟩
  · have hinv : FlatInv E [] NewFlattener
        { ID := id, Metadata := compValue.lookupPath "#metadata", Elements := [],
          DataFields := none, Provenance := [] } :=
      ⟨rfl, fun k => ⟨rfl, rfl⟩⟩
    obtain ⟨f', comp', hloop, hprov, hkeys⟩ :=
      flattenLoop_flat E fuel entries [] NewFlattener _ hinv (fun e he => by cases he) hflat
    simp only [List.nil_append] at hkeys
    refine ⟨f', { comp' with DataFields := some compValue }, ?_, fun k => ?_, fun k v hk => ?_,
      hprov⟩
    · unfold flattenComponent
      simp only [hel, CueValue.fields, hloop]
    · have h := hkeys k
      rw [← not_iff_not, ← mapGet_eq_none_iff, ← mapGet_eq_none_iff]
      cases hd : mapGet entries k with
      | some v =>
        rw [hd] at h
        obtain ⟨p, -, -, hp, -⟩ := h
        simp [hp]
      | none =>
        rw [hd] at h
        simp [h.2]
    · have h := hkeys k
      rw [hk] at h
      obtain ⟨p, -, -, hp, hd⟩ := h
      exact ⟨p, hp, hd, by rw [hd]; exact buildElement_hash E k v⟩
  · refine ⟨NewFlattener,
      { ID := id, Metadata := compValue.lookupPath "#metadata", Elements := [],
        DataFields := none, Provenance := [] }, ?_, fun k => ?_, fun k v hk => ?_, rfl⟩
    · unfold flattenComponent
      simp only [hel]
    · simp
    · simp [mapGet] at hk

/-- C4 on `flatComponent`, with no fuel at all. -/
theorem flattenComponent_flat_identity_witness :
    ∃ f' comp,
      flattenComponent sampleEngine 0 NewFlattener "frontend" flatComponent
        = some (f', .ok comp) ∧
      (∀ k, k ∈ comp.Elements.map Prod.fst ↔ k ∈ ["Container", "Replicas"]) ∧
      (∀ k v, mapGet [("Container", rawLeaf "Container"), ("Replicas", rawLeaf "Replicas")] k
          = some v →
        ∃ p, mapGet comp.Elements k = some p ∧ f'.deref p = buildElement sampleEngine k v ∧
          (f'.deref p).Hash = computeElementHash sampleEngine (f'.deref p)) ∧
      comp.Provenance = [] :=
  flattenComponent_flat_identity sampleEngine 0 "frontend" flatComponent
    [("Container", rawLeaf "Container"), ("Replicas", rawLeaf "Replicas")] (Or.inl rfl)
    (by
      intro e he
      simp only [List.mem_cons, List.mem_singleton, List.not_mem_nil, or_false] at he
      rcases he with rfl | rfl <;> simp [rawLeaf, CueValue.lookupPath, mapGet])

/-- C5 (as the code behaves): once an element is cached under an FQN, every
later operation keeps the cache entry pointing at it; `resolveElement` leaves
it unchanged, and `expandComposite` and `flattenComponent` change at most its
`Provenance.SourceComposite`. -/
theorem cached_element_changes_only_source (E : Engine) (f : Flattener) (fqn : String)
    (p : Ptr) (hf : f.WF) (hc : mapGet f.elementCache fqn = some p) :
    (∀ k v, mapGet (resolveElement E f k v).1.elementCache fqn = some p ∧
      (resolveElement E f k v).1.deref p = f.deref p) ∧
    (∀ fuel c o f' r, expandComposite fuel f c o = some (f', r) →
      mapGet f'.elementCache fqn = some p ∧ ∃ s, f'.deref p = (f.deref p).stamp s) ∧
    (∀ fuel id compValue f' r, flattenComponent E fuel f id compValue = some (f', r) →
      mapGet f'.elementCache fqn = some p ∧ ∃ s, f'.deref p = (f.deref p).stamp s) := by
  have hp : p < f.heap.length := wf_mapGet hf hc
  refine ⟨fun k v => ?_, fun fuel c o f' r h => ?_, fun fuel id compValue f' r h => ?_⟩
  · obtain ⟨-, -, -, hev, -, -, hsame⟩ := resolveElement_spec E f k v hf
    exact ⟨hev.2.2.1 fqn p hc, hsame p hp⟩
  · have hev := evolves_of_stampedBy (expandComposite_spec fuel f c o f' r hf h).1
    exact ⟨hev.2.2.1 fqn p hc, _, evolves_stamp hev hp⟩
  · have hev := (flattenComponent_evolves E fuel f id compValue f' r hf h).1
    exact ⟨hev.2.2.1 fqn p hc, _, evolves_stamp hev hp⟩

/-- C5 for the cached `Container` (pointer 0) of `leavesResolved`. -/
theorem cached_element_changes_only_source_witness :
    (∀ k v, mapGet (resolveElement sampleEngine leavesResolved k v).1.elementCache "Container"
        = some 0 ∧
      (resolveElement sampleEngine leavesResolved k v).1.deref 0 = leavesResolved.deref 0) ∧
    (∀ fuel c o f' r, expandComposite fuel leavesResolved c o = some (f', r) →
      mapGet f'.elementCache "Container" = some 0 ∧
      ∃ s, f'.deref 0 = (leavesResolved.deref 0).stamp s) ∧
    (∀ fuel id compValue f' r,
      flattenComponent sampleEngine fuel leavesResolved id compValue = some (f', r) →
      mapGet f'.elementCache "Container" = some 0 ∧
      ∃ s, f'.deref 0 = (leavesResolved.deref 0).stamp s) :=
  cached_element_changes_only_source sampleEngine leavesResolved "Container" 0
    (by decide) rfl

/-- C5 as stated fails: flattening `statelessComponent` changes the
`Provenance.SourceComposite` of the cached `Container` element from the empty
string to "Stateless". -/
theorem cached_element_mutated_by_flatten :
    mapGet leavesResolved.elementCache "Container" = some 0 ∧
    (leavesResolved.deref 0).Provenance.SourceComposite = "" ∧
    flattenComponent sampleEngine 1 leavesResolved "frontend" statelessComponent
      = some (statelessFlattened.1, .ok statelessFlattened.2) ∧
    mapGet statelessFlattened.1.elementCache "Container" = some 0 ∧
    (statelessFlattened.1.deref 0).Provenance.SourceComposite = "Stateless" ∧
    statelessFlattened.1.deref 0 ≠ leavesResolved.deref 0 := by
  refine ⟨rfl, rfl, rfl, rfl, rfl, fun h => ?_⟩
  have h' := congrArg (fun e : Element => e.Provenance.SourceComposite) h
  exact absurd h' (by decide)

/-- C6: after `resolveElement(f, v1)`, a second call `resolveElement(f, v2)`
leaves the whole state (cache and elements) unchanged and returns the pointer
the first call returned, whatever `v2` is; that pointer is the cache entry of
`fqn`. -/
theorem resolveElement_memoized (E : Engine) (f : Flattener) (fqn : String)
    (v1 v2 : CueValue) :
    (resolveElement E (resolveElement E f fqn v1).1 fqn v2).1 = (resolveElement E f fqn v1).1 ∧
    (resolveElement E (resolveElement E f fqn v1).1 fqn v2).2 = (resolveElement E f fqn v1).2 ∧
    ∃ p, (resolveElement E f fqn v1).2 = .ok p ∧
      mapGet (resolveElement E f fqn v1).1.elementCache fqn = some p := by
  cases h : mapGet f.elementCache fqn with
  | some p =>
    rw [resolveElement_hit E f fqn v1 h]
    simp only
    rw [resolveElement_hit E f fqn v2 h]
    exact ⟨rfl, rfl, p, rfl, h⟩
  | none =>
    rw [resolveElement_miss E f fqn v1 h]
    simp only
    rw [resolveElement_hit E _ fqn v2 (mapGet_alloc_self f fqn _)]
    exact ⟨rfl, rfl, _, rfl, mapGet_alloc_self f fqn _⟩

/-- C6 on `Container`: resolved first from a primitive and then again with a
composite's raw value, it stays the element built from the primitive. -/
theorem resolveElement_memoized_witness :
    (resolveElement sampleEngine
      (resolveElement sampleEngine NewFlattener "Container" (rawLeaf "Container")).1
      "Container" (rawComposite "Container" ["Replicas"])).2 = .ok 0 ∧
    ((resolveElement sampleEngine
      (resolveElement sampleEngine NewFlattener "Container" (rawLeaf "Container")).1
      "Container" (rawComposite "Container" ["Replicas"])).1.deref 0).Kind = "primitive" ∧
    (resolveElement sampleEngine
      (resolveElement sampleEngine NewFlattener "Container" (rawLeaf "Container")).1
      "Container" (rawComposite "Container" ["Replicas"])).1
      = (resolveElement sampleEngine NewFlattener "Container" (rawLeaf "Container")).1 :=
  ⟨rfl, rfl,
    (resolveElement_memoized sampleEngine NewFlattener "Container" (rawLeaf "Container")
      (rawComposite "Container" ["Replicas"])).1⟩

/-- C7: a composed FQN `x` that is absent from the cache contributes no
element and no error. `expandComposite` gives the same result (the same list,
or out of fuel alike) as on the same composite with `x` removed from its
`Composes`; it never returns an error; and `flattenComponent` returns an
error only when the fields of `#elements` cannot be iterated. -/
theorem expandComposite_skips_uncached (fuel : Nat) (f : Flattener) (composite : Ptr)
    (o x : String) (hx : mapGet f.elementCache x = none) :
    (expandComposite fuel (f.dropComposed composite x) composite o).map Prod.snd
      = (expandComposite fuel f composite o).map Prod.snd ∧
    (∀ f' e, expandComposite fuel f composite o ≠ some (f', .error e)) ∧
    (∀ E id compValue f' e, flattenComponent E fuel f id compValue = some (f', .error e) →
      ∃ ev err, compValue.lookupPath "#elements" = some ev ∧ ev.fields = .error err) := by
  refine ⟨?_, expandComposite_no_error fuel f composite o, ?_⟩
  · have hs := expandComposite_sim x fuel f (f.dropComposed composite x) composite o
      (sameUpTo_dropComposed f composite x hx)
    cases ha : expandComposite fuel f composite o with
    | none =>
      cases hb : expandComposite fuel (f.dropComposed composite x) composite o with
      | none => rfl
      | some res => rw [ha, hb] at hs; exact hs.elim
    | some res =>
      obtain ⟨f₁, r₁⟩ := res
      cases hb : expandComposite fuel (f.dropComposed composite x) composite o with
      | none => rw [ha, hb] at hs; exact hs.elim
      | some res' =>
        obtain ⟨g₁, r₁'⟩ := res'
        rw [ha, hb] at hs
        simp [hs.1]
  · intro E id compValue f' e h
    unfold flattenComponent at h
    cases hel : compValue.lookupPath "#elements" with
    | none => simp [hel] at h
    | some ev =>
      simp only [hel] at h
      cases hfs : ev.fields with
      | error err => exact ⟨ev, err, rfl, hfs⟩
      | ok entries =>
        simp only [hfs] at h
        cases hloop : flattenLoop E fuel entries f
            { ID := id, Metadata := compValue.lookupPath "#metadata", Elements := [],
              DataFields := none, Provenance := [] } with
        | none => simp [hloop] at h
        | some res =>
          obtain ⟨f₁, r₁⟩ := res
          cases r₁ with
          | error err => exact absurd hloop (flattenLoop_no_error E fuel entries f _ f₁ err)
          | ok comp₁ => simp [hloop] at h

/-- C7 on the composite `Partial` (pointer 2), which composes `Container`,
the uncached `Missing`, and `Replicas`: the two cached leaves are returned. -/
theorem expandComposite_skips_uncached_witness :
    (expandComposite 1 partlyResolved 2 "Partial").map Prod.snd = some (.ok [0, 1]) ∧
    (expandComposite 1 (partlyResolved.dropComposed 2 "Missing") 2 "Partial").map Prod.snd
      = (expandComposite 1 partlyResolved 2 "Partial").map Prod.snd ∧
    (∀ f' e, expandComposite 1 partlyResolved 2 "Partial" ≠ some (f', .error e)) ∧
    (∀ E id compValue f' e,
      flattenComponent E 1 partlyResolved id compValue = some (f', .error e) →
      ∃ ev err, compValue.lookupPath "#elements" = some ev ∧ ev.fields = .error err) :=
  ⟨rfl, expandComposite_skips_uncached 1 partlyResolved 2 "Partial" "Missing" rfl⟩

/-- C8: when a component directly lists two composites `c1` and then `c2`
(neither cached before) and `c2` composes a leaf `P` already in the cache,
then whatever `c1` composes, `P` included, every component `flattenComponent`
returns holds exactly one entry under the FQN of `P`, and the element it
points to has `Provenance.SourceComposite` equal to `c2`. When the two
composites compose only cached leaves and uncached FQNs, any fuel of at least
one makes `flattenComponent` return such a component. -/
theorem flattenComponent_shared_leaf_last_wins (E : Engine) (fuel : Nat) (f : Flattener)
    (id : String) (compValue : CueValue) (c1 c2 : String) (v1 v2 : CueValue)
    (pname : String) (pp : Ptr) (hf : f.WF)
    (hcomp : compValue.lookupPath "#elements" = some (.struct [(c1, v1), (c2, v2)]))
    (hP : mapGet f.elementCache pname = some pp)
    (hPk : (f.deref pp).Kind ≠ "composite") (hPf : (f.deref pp).FQN = pname)
    (h1 : mapGet f.elementCache c1 = none) (h2 : mapGet f.elementCache c2 = none)
    (h12 : c1 ≠ c2)
    (hk1 : (buildElement E c1 v1).Kind = "composite")
    (hk2 : (buildElement E c2 v2).Kind = "composite")
    (hp2 : pname ∈ (buildElement E c2 v2).Composes) :
    (∀ f' comp, flattenComponent E fuel f id compValue = some (f', .ok comp) →
      (comp.Elements.map Prod.fst).count pname = 1 ∧
      ∃ p, mapGet comp.Elements pname = some p ∧
        (f'.deref p).Provenance.SourceComposite = c2) ∧
    ((∀ y ∈ (buildElement E c1 v1).Composes, y ≠ c1 ∧
        ∀ q, mapGet f.elementCache y = some q → (f.deref q).Kind ≠ "composite") →
      (∀ y ∈ (buildElement E c2 v2).Composes, y ≠ c1 ∧ y ≠ c2 ∧
        ∀ q, mapGet f.elementCache y = some q → (f.deref q).Kind ≠ "composite") →
      0 < fuel →
      ∃ f' comp, flattenComponent E fuel f id compValue = some (f', .ok comp)) := by
  have hpp : pp < f.heap.length := wf_mapGet hf hP
  have hc1p : c1 ≠ pname := by intro e; rw [e] at h1; rw [h1] at hP; cases hP
  have hc2p : c2 ≠ pname := by intro e; rw [e] at h2; rw [h2] at hP; cases hP
  constructor
  · intro f' comp h
    unfold flattenComponent at h
    simp only [hcomp, CueValue.fields] at h
    cases hloop : flattenLoop E fuel [(c1, v1), (c2, v2)] f
        { ID := id, Metadata := compValue.lookupPath "#metadata", Elements := [],
          DataFields := none, Provenance := [] } with
    | none => simp [hloop] at h
    | some res =>
      obtain ⟨f₁, r⟩ := res
      cases r with
      | error e => simp [hloop] at h
      | ok comp₁ =>
        simp only [hloop, Option.some.injEq, Prod.mk.injEq, Except.ok.injEq] at h
        obtain ⟨rfl, rfl⟩ := h
        -- first entry: the composite `c1`
        obtain ⟨-, -, hwfa, heva, -, -, -⟩ := resolveElement_spec E f c1 v1 hf
        unfold flattenLoop at hloop
        rw [resolveElement_miss E f c1 v1 h1] at hloop hwfa heva
        simp only [deref_alloc_new, hk1, if_true] at hloop hwfa heva
        have hca2 : mapGet (f.alloc c1 (buildElement E c1 v1)).elementCache c2 = none := by
          rw [mapGet_alloc_ne _ _ h12]; exact h2
        have hcaP : mapGet (f.alloc c1 (buildElement E c1 v1)).elementCache pname
            = some pp := by
          rw [mapGet_alloc_ne _ _ hc1p]; exact hP
        generalize f.alloc c1 (buildElement E c1 v1) = fa at hloop hwfa heva hca2 hcaP
        cases hx1 : expandComposite fuel fa f.heap.length c1 with
        | none => simp [hx1] at hloop
        | some res₁ =>
          obtain ⟨f₂, r₂⟩ := res₁
          have hst1 := (expandComposite_spec fuel fa f.heap.length c1 f₂ r₂ hwfa hx1).1
          cases r₂ with
          | error e => simp [hx1] at hloop
          | ok prims₁ =>
            simp only [hx1] at hloop
            have hwf2 : f₂.WF := stampedBy_wf hst1 hwfa
            have hev2 : Evolves f f₂ := evolves_trans heva (evolves_of_stampedBy hst1)
            have hc22 : mapGet f₂.elementCache c2 = none := by rw [hst1.1]; exact hca2
            have hc2P : mapGet f₂.elementCache pname = some pp := by rw [hst1.1]; exact hcaP
            -- second entry: the composite `c2`
            obtain ⟨-, -, hwfb, hevb, -, -, -⟩ := resolveElement_spec E f₂ c2 v2 hwf2
            unfold flattenLoop at hloop
            rw [resolveElement_miss E f₂ c2 v2 hc22] at hloop hwfb hevb
            simp only [deref_alloc_new, hk2, if_true] at hloop hwfb hevb
            have hcbP : mapGet (f₂.alloc c2 (buildElement E c2 v2)).elementCache pname
                = some pp := by
              rw [mapGet_alloc_ne _ _ hc2p]; exact hc2P
            have hcomposes : pname ∈
                ((f₂.alloc c2 (buildElement E c2 v2)).deref f₂.heap.length).Composes := by
              rw [deref_alloc_new]; exact hp2
            generalize f₂.alloc c2 (buildElement E c2 v2) = fb
              at hloop hwfb hevb hcbP hcomposes
            have hevfb : Evolves f fb := evolves_trans hev2 hevb
            cases hx2 : expandComposite fuel fb f₂.heap.length c2 with
            | none => simp [hx2] at hloop
            | some res₂ =>
              obtain ⟨f₄, r₄⟩ := res₂
              obtain ⟨hst2, hleaf⟩ :=
                expandComposite_spec fuel fb f₂.heap.length c2 f₄ r₄ hwfb hx2
              cases r₄ with
              | error e => simp [hx2] at hloop
              | ok prims₂ =>
                simp only [hx2, flattenLoop, Option.some.injEq, Prod.mk.injEq,
                  Except.ok.injEq] at hloop
                obtain ⟨rfl, rfl⟩ := hloop
                have hev4 : Evolves f f₄ := evolves_trans hevfb (evolves_of_stampedBy hst2)
                have hmem : pp ∈ prims₂ :=
                  expandComposite_mem fuel fb f₂.heap.length c2 f₄ prims₂ hwfb hx2 pname
                    hcomposes pp hcbP (by rw [evolves_kind hevfb hpp]; exact hPk)
                have hfqn : (f₄.deref pp).FQN = pname := by
                  rw [evolves_fqn hev4 hpp]; exact hPf
                obtain ⟨p, hp, hget⟩ := addPrimitives_get f₄ pname prims₂
                  (addPrimitives f₂ [] prims₁) ⟨pp, hmem, hfqn⟩
                have hnodup : ((addPrimitives f₄ (addPrimitives f₂ [] prims₁) prims₂).map
                    Prod.fst).Nodup :=
                  addPrimitives_keys_nodup f₄ prims₂ _
                    (addPrimitives_keys_nodup f₂ prims₁ [] List.nodup_nil)
                refine ⟨?_, p, hget, (hleaf prims₂ rfl p hp).2.2⟩
                apply List.count_eq_one_of_mem hnodup
                by_contra hnot
                rw [← mapGet_eq_none_iff, hget] at hnot
                cases hnot
  · intro hL1 hL2 hfuel
    obtain ⟨n, rfl⟩ : ∃ n, fuel = n + 1 := ⟨fuel - 1, by omega⟩
    obtain ⟨-, -, hwfa, heva, -, -, -⟩ := resolveElement_spec E f c1 v1 hf
    rw [resolveElement_miss E f c1 v1 h1] at hwfa heva
    simp only at hwfa heva
    -- the expansion of `c1`
    have hLa : ∀ y ∈ ((f.alloc c1 (buildElement E c1 v1)).deref f.heap.length).Composes,
        ∀ q, mapGet (f.alloc c1 (buildElement E c1 v1)).elementCache y = some q →
          ((f.alloc c1 (buildElement E c1 v1)).deref q).Kind ≠ "composite" := by
      rw [deref_alloc_new]
      intro y hy q hq
      obtain ⟨hy1, hleaf⟩ := hL1 y hy
      rw [mapGet_alloc_ne _ _ (Ne.symm hy1)] at hq
      rw [deref_alloc_old f _ _ (wf_mapGet hf hq)]
      exact hleaf q hq
    obtain ⟨f₂, prims₁, hx1, hst1⟩ := expandLoop_leaves (expandComposite n) c1 _
      (f.alloc c1 (buildElement E c1 v1)) [] hLa
    have hwf2 : f₂.WF := stampedBy_wf hst1 hwfa
    have hev2 : Evolves f f₂ := evolves_trans heva (evolves_of_stampedBy hst1)
    have hc22 : mapGet f₂.elementCache c2 = none := by
      rw [hst1.1, mapGet_alloc_ne _ _ h12]; exact h2
    -- the expansion of `c2`
    obtain ⟨-, -, -, hevb, -, -, -⟩ := resolveElement_spec E f₂ c2 v2 hwf2
    rw [resolveElement_miss E f₂ c2 v2 hc22] at hevb
    simp only at hevb
    have hLb : ∀ y ∈ ((f₂.alloc c2 (buildElement E c2 v2)).deref f₂.heap.length).Composes,
        ∀ q, mapGet (f₂.alloc c2 (buildElement E c2 v2)).elementCache y = some q →
          ((f₂.alloc c2 (buildElement E c2 v2)).deref q).Kind ≠ "composite" := by
      rw [deref_alloc_new]
      intro y hy q hq
      obtain ⟨hy1, hy2, hleaf⟩ := hL2 y hy
      rw [mapGet_alloc_ne _ _ (Ne.symm hy2), hst1.1, mapGet_alloc_ne _ _ (Ne.symm hy1)] at hq
      rw [evolves_kind (evolves_trans hev2 hevb) (wf_mapGet hf hq)]
      exact hleaf q hq
    obtain ⟨f₄, prims₂, hx2, -⟩ := expandLoop_leaves (expandComposite n) c2 _
      (f₂.alloc c2 (buildElement E c2 v2)) [] hLb
    have hx1' : expandComposite (n + 1) (f.alloc c1 (buildElement E c1 v1)) f.heap.length c1
        = some (f₂, .ok prims₁) := by
      unfold expandComposite; exact hx1
    have hx2' : expandComposite (n + 1) (f₂.alloc c2 (buildElement E c2 v2)) f₂.heap.length c2
        = some (f₄, .ok prims₂) := by
      unfold expandComposite; exact hx2
    refine ⟨f₄, ?_⟩
    unfold flattenComponent
    simp only [hcomp, CueValue.fields]
    unfold flattenLoop
    rw [resolveElement_miss E f c1 v1 h1]
    simp only [deref_alloc_new, hk1, if_true, hx1']
    unfold flattenLoop
    rw [resolveElement_miss E f₂ c2 v2 hc22]
    simp only [deref_alloc_new, hk2, if_true, hx2', flattenLoop]
    exact ⟨_, rfl⟩

/-- C8 on `sharedLeafComponent`: `Container` is reached through `Web` and
then through `Worker`; its single entry carries `Worker`. -/
theorem flattenComponent_shared_leaf_last_wins_witness :
    flattenComponent sampleEngine 1 leavesResolved "frontend" sharedLeafComponent
      = some (sharedLeafFlattened.1, .ok sharedLeafFlattened.2) ∧
    sharedLeafFlattened.2.Elements = [("Container", 0), ("Replicas", 1)] ∧
    (sharedLeafFlattened.2.Elements.map Prod.fst).count "Container" = 1 ∧
    ∃ p, mapGet sharedLeafFlattened.2.Elements "Container" = some p ∧
      (sharedLeafFlattened.1.deref p).Provenance.SourceComposite = "Worker" :=
  ⟨rfl, by decide,
    (flattenComponent_shared_leaf_last_wins sampleEngine 1 leavesResolved "frontend"
      sharedLeafComponent "Web" "Worker" (rawComposite "Web" ["Container"])
      (rawComposite "Worker" ["Container", "Replicas"]) "Container" 0
      (by decide) rfl rfl (by decide) rfl rfl rfl
      (by decide) rfl rfl (by decide)).1 sharedLeafFlattened.1 sharedLeafFlattened.2 rfl⟩

/-- C9: every element `resolveElement` builds has `Composes` empty unless its
Kind is "composite" and `Modifies` empty unless its Kind is "modifier",
whatever the raw value carries; hence, from a state whose cached elements all
satisfy this, the element `resolveElement` returns satisfies it, and so does
every cached element after `resolveElement`, `expandComposite` and
`flattenComponent`. -/
theorem resolveElement_kind_gated (E : Engine) (f : Flattener) (hf : f.WF)
    (hg : CacheGated f) :
    (∀ k v, KindGated (buildElement E k v)) ∧
    (∀ k v, ∃ p, (resolveElement E f k v).2 = .ok p ∧
      KindGated ((resolveElement E f k v).1.deref p) ∧
      CacheGated (resolveElement E f k v).1) ∧
    (∀ fuel c o f' r, expandComposite fuel f c o = some (f', r) → CacheGated f') ∧
    (∀ fuel id compValue f' r, flattenComponent E fuel f id compValue = some (f', r) →
      CacheGated f') := by
  refine ⟨buildElement_kindGated E, fun k v => ?_, fun fuel c o f' r h => ?_,
    fun fuel id compValue f' r h => ?_⟩
  · obtain ⟨p, hp, -, -, -, hget, -⟩ := resolveElement_spec E f k v hf
    have hg' := resolveElement_cacheGated E f k v hf hg
    exact ⟨p, hp, hg' (k, p) (mem_of_mapGet hget), hg'⟩
  · exact cacheGated_of_stampedBy (expandComposite_spec fuel f c o f' r hf h).1 hg
  · exact flattenComponent_cacheGated E fuel f id compValue f' r hf hg h

/-- C9 from a fresh flattener; a primitive whose raw value carries `composes`
and `modifies` gets neither. -/
theorem resolveElement_kind_gated_witness :
    (buildElement sampleEngine "Stray" strayFieldsLeaf).Composes = [] ∧
    (buildElement sampleEngine "Stray" strayFieldsLeaf).Modifies = [] ∧
    ((∀ k v, KindGated (buildElement sampleEngine k v)) ∧
    (∀ k v, ∃ p, (resolveElement sampleEngine NewFlattener k v).2 = .ok p ∧
      KindGated ((resolveElement sampleEngine NewFlattener k v).1.deref p) ∧
      CacheGated (resolveElement sampleEngine NewFlattener k v).1) ∧
    (∀ fuel c o f' r, expandComposite fuel NewFlattener c o = some (f', r) → CacheGated f') ∧
    (∀ fuel id compValue f' r,
      flattenComponent sampleEngine fuel NewFlattener id compValue = some (f', r) →
      CacheGated f')) :=
  ⟨rfl, rfl,
    resolveElement_kind_gated sampleEngine NewFlattener (by decide)
      (fun e he => by cases he)⟩

/-- C10: `computeElementHash` is the first 16 characters of the hexadecimal
encoding of the SHA-256 digest of the concatenation `hashInput` (FQN, Kind,
APIVersion, the formatted schema when it exists, the Composes entries, the
Modifies entries); it is 16 characters long, all hexadecimal digits; and it
does not depend on Name, Target, Labels, Description or Provenance. -/
theorem computeElementHash_spec (E : Engine) (e : Element) :
    computeElementHash E e = String.mk ((hexEncode (E.sha256 (hashInput E e)).val).take 16) ∧
    (computeElementHash E e).length = 16 ∧
    (∀ c ∈ (computeElementHash E e).data, c ∈ hextable) ∧
    ∀ (name : String) (target : List String) (labels : List (String × String))
      (description : String) (provenance : ProvenanceInfo),
      computeElementHash E
        { e with Name := name, Target := target, Labels := labels,
                 Description := description, Provenance := provenance }
        = computeElementHash E e := by
  refine ⟨computeElementHash_eq E e, ?_, ?_, fun _ _ _ _ _ => rfl⟩
  · rw [computeElementHash_eq]
    simp only [String.length, List.length_take, length_hexEncode, (E.sha256 _).property]
    rfl
  · rw [computeElementHash_eq]
    intro c hc
    exact hexEncode_mem _ c (List.mem_of_mem_take hc)

theorem computeElementHash_length (E : Engine) (e : Element) :
    (computeElementHash E e).length = 16 := by
  rw [computeElementHash_eq]
  simp only [String.length, List.length_take, length_hexEncode, (E.sha256 _).property]
  rfl

theorem buildElement_allAbsent (E : Engine) (k : String) (v : CueValue) (h : AllAbsent v) :
    buildElement E k v
      = { Element.zero with
          FQN := k, Hash := computeElementHash E { Element.zero with FQN := k } } := by
  have h₁ := h "name" (by decide)
  have h₂ := h "kind" (by decide)
  have h₃ := h "#apiVersion" (by decide)
  have h₄ := h "target" (by decide)
  have h₅ := h "schema" (by decide)
  have h₆ := h "labels" (by decide)
  have h₇ := h "description" (by decide)
  simp [buildElement, stringField, stringListField, h₁, h₂, h₃, h₄, h₅, h₆, h₇, Element.zero]

/-- C11 (as the code behaves): `resolveElement` returns no error for any raw
value; for a key not yet cached and a raw value in which name, kind, the
`#apiVersion`, target, schema, composes, modifies, labels and description are
all absent, the element it returns has FQN equal to the key, `Hash` equal to
the content hash of that element (16 characters, never empty), and every
other attribute at its zero value. -/
theorem resolveElement_absent_fields (E : Engine) (f : Flattener) (k : String)
    (v : CueValue) :
    (∃ p, (resolveElement E f k v).2 = .ok p) ∧
    (mapGet f.elementCache k = none → AllAbsent v →
      (resolveElement E f k v).2 = .ok f.heap.length ∧
      (resolveElement E f k v).1.deref f.heap.length
        = { Element.zero with
            FQN := k, Hash := computeElementHash E { Element.zero with FQN := k } } ∧
      (computeElementHash E { Element.zero with FQN := k }).length = 16) := by
  refine ⟨resolveElement_ok E f k v, fun hk hv => ?_⟩
  rw [resolveElement_miss E f k v hk]
  exact ⟨rfl, by rw [deref_alloc_new, buildElement_allAbsent E k v hv],
    computeElementHash_length E _⟩

/-- C11 on a fresh flattener and the empty struct. -/
theorem resolveElement_absent_fields_witness :
    (resolveElement sampleEngine NewFlattener "X" (.struct [])).2 = .ok 0 ∧
    (resolveElement sampleEngine NewFlattener "X" (.struct [])).1.deref 0
      = { Element.zero with
          FQN := "X",
          Hash := computeElementHash sampleEngine { Element.zero with FQN := "X" } } ∧
    (computeElementHash sampleEngine { Element.zero with FQN := "X" }).length = 16 :=
  (resolveElement_absent_fields sampleEngine NewFlattener "X" (.struct [])).2 rfl
    (fun _ _ => rfl)

/-- C11 as stated fails: with every field absent the returned element still
has a non-empty `Hash`; and for a key that is already cached the cached
element is returned, here with the name and kind of `Container`. -/
theorem resolveElement_absent_fields_nonzero :
    AllAbsent (.struct []) ∧
    ((resolveElement sampleEngine NewFlattener "X" (.struct [])).1.deref 0).Hash
      = "0101010101010101" ∧
    (resolveElement sampleEngine leavesResolved "Container" (.struct [])).2 = .ok 0 ∧
    ((resolveElement sampleEngine leavesResolved "Container" (.struct [])).1.deref 0).Name
      = "Container" ∧
    ((resolveElement sampleEngine leavesResolved "Container" (.struct [])).1.deref 0).Kind
      = "primitive" :=
  ⟨fun _ _ => rfl, by decide, rfl, by decide, by decide⟩

/-! ## Provenance, order of entries and kinds -/

/-- The loop of `flattenComponent` appends to `Provenance` the FQNs of the
entries resolved to composites, in order. -/
theorem flattenLoop_provenance (E : Engine) (fuel : Nat) :
    ∀ (entries : List (String × CueValue)) (f : Flattener) (comp : ComponentIR)
      (f' : Flattener) (comp' : ComponentIR),
      f.WF → flattenLoop E fuel entries f comp = some (f', .ok comp') →
      comp'.Provenance = comp.Provenance ++ compositeFQNs f' entries := by
  intro entries
  induction entries with
  | nil =>
    intro f comp f' comp' _ h
    simp only [flattenLoop, Option.some.injEq, Prod.mk.injEq, Except.ok.injEq] at h
    rw [← h.2]
    simp [compositeFQNs]
  | cons entry rest ih =>
    intro f comp f' comp' hf h
    obtain ⟨k, v⟩ := entry
    obtain ⟨p, hr, hwf1, hev1, hp1, hc1, -⟩ := resolveElement_spec E f k v hf
    have hres : resolveElement E f k v = ((resolveElement E f k v).1, .ok p) := by
      rw [← hr]
    rw [flattenLoop, hres] at h
    simp only at h
    by_cases hk : ((resolveElement E f k v).1.deref p).Kind = "composite"
    · rw [if_pos hk] at h
      cases hx : expandComposite fuel (resolveElement E f k v).1 p k with
      | none => rw [hx] at h; cases h
      | some out =>
        obtain ⟨f2, r2⟩ := out
        rw [hx] at h
        cases r2 with
        | error err => simp only at h; cases h
        | ok prims =>
          simp only at h
          have hst := (expandComposite_spec fuel _ p k f2 (.ok prims) hwf1 hx).1
          have hwf2 := stampedBy_wf hst hwf1
          have hev2 := evolves_of_stampedBy hst
          obtain ⟨hev3, -⟩ := flattenLoop_evolves E fuel rest f2 _ f' (.ok comp') hwf2 h
          have hlen2 : p < f2.heap.length := by rw [hst.2.2.1]; exact hp1
          have hcache : mapGet f'.elementCache k = some p :=
            hev3.2.2.1 k p (hev2.2.2.1 k p hc1)
          have hkind : (f'.deref p).Kind = "composite" := by
            rw [evolves_kind hev3 hlen2, evolves_kind hev2 hp1]; exact hk
          have hfqn : (f'.deref p).FQN = (f2.deref p).FQN := evolves_fqn hev3 hlen2
          rw [ih f2 _ f' comp' hwf2 h]
          simp only [compositeFQNs, List.filterMap_cons, hcache, hkind, if_true, hfqn,
            List.append_assoc, List.singleton_append]
    · rw [if_neg hk] at h
      obtain ⟨hev3, -⟩ := flattenLoop_evolves E fuel rest _ _ f' (.ok comp') hwf1 h
      have hcache : mapGet f'.elementCache k = some p := hev3.2.2.1 k p hc1
      have hkind : (f'.deref p).Kind ≠ "composite" := by
        rw [evolves_kind hev3 hp1]; exact hk
      rw [ih _ _ f' comp' hwf1 h]
      simp only [compositeFQNs, List.filterMap_cons, hcache, hkind, if_false]

/-- Over a list of FQNs none of which is cached, the loop of `expandComposite`
skips every reference and returns the list it was given. -/
theorem expandLoop_uncached (recur : Flattener → Ptr → String → Outcome (List Ptr))
    (o : String) (f : Flattener) :
    ∀ (L : List String) (acc : List Ptr), (∀ y ∈ L, mapGet f.elementCache y = none) →
      expandLoop recur o L f acc = some (f, .ok acc) := by
  intro L
  induction L with
  | nil => intro acc _; rfl
  | cons y rest ih =>
    intro acc h
    rw [expandLoop]
    simp only [resolveElementByFQN, h y (List.mem_cons_self _ _)]
    exact ih acc fun z hz => h z (List.mem_cons_of_mem _ hz)

/-- A cached composite that composes only itself is never expanded, whatever
the fuel. -/
theorem expandComposite_self (f : Flattener) (a : String) (pa : Ptr)
    (ha : mapGet f.elementCache a = some pa) (hka : (f.deref pa).Kind = "composite")
    (hca : (f.deref pa).Composes = [a]) :
    ∀ fuel o, expandComposite fuel f pa o = none := by
  intro fuel
  induction fuel with
  | zero => intro o; rfl
  | succ n ih =>
    intro o
    rw [expandComposite, hca, expandLoop]
    simp only [resolveElementByFQN, ha, hka, if_true, ih o]

/-- One round of the loop of `flattenComponent` on an entry that is not
cached and does not resolve to a composite. -/
theorem flattenLoop_cons_leaf (E : Engine) (fuel : Nat) (f : Flattener) (k : String)
    (v : CueValue) (rest : List (String × CueValue)) (comp : ComponentIR)
    (hk : mapGet f.elementCache k = none) (hkind : (buildElement E k v).Kind ≠ "composite") :
    flattenLoop E fuel ((k, v) :: rest) f comp
      = flattenLoop E fuel rest (f.alloc k (buildElement E k v))
          { comp with Elements := mapSet comp.Elements k f.heap.length } := by
  rw [flattenLoop, resolveElement_miss E f k v hk]
  simp only [deref_alloc_new, hkind, if_false, buildElement_fqn]

/-- One round of the loop of `flattenComponent` on an entry that is not
cached and resolves to a composite whose expansion returns. -/
theorem flattenLoop_cons_composite (E : Engine) (fuel : Nat) (f : Flattener) (k : String)
    (v : CueValue) (rest : List (String × CueValue)) (comp : ComponentIR)
    (f2 : Flattener) (prims : List Ptr)
    (hk : mapGet f.elementCache k = none) (hkind : (buildElement E k v).Kind = "composite")
    (hx : expandComposite fuel (f.alloc k (buildElement E k v)) f.heap.length k
      = some (f2, .ok prims)) :
    flattenLoop E fuel ((k, v) :: rest) f comp
      = flattenLoop E fuel rest f2
          { comp with
            Elements := addPrimitives f2 comp.Elements prims,
            Provenance := comp.Provenance ++ [(f2.deref f.heap.length).FQN] } := by
  rw [flattenLoop, resolveElement_miss E f k v hk]
  simp only [deref_alloc_new, hkind, if_true, hx]

/-- C24: the component `flattenComponent` returns has `Provenance` equal to
the list of the FQNs of the directly listed elements whose kind is
"composite", in the order of the entries; a composite reached only through
the `Composes` of another composite is not added, and a component none of
whose entries is a composite has an empty `Provenance`. -/
theorem flattenComponent_provenance (E : Engine) (fuel : Nat) (f : Flattener) (id : String)
    (compValue : CueValue) (f' : Flattener) (comp : ComponentIR) (hf : f.WF)
    (h : flattenComponent E fuel f id compValue = some (f', .ok comp)) :
    (∀ entries, compValue.lookupPath "#elements" = some (.struct entries) →
      comp.Provenance = compositeFQNs f' entries ∧
      (∀ x ∈ comp.Provenance, ∃ entry ∈ entries, ∃ p,
        mapGet f'.elementCache entry.1 = some p ∧ (f'.deref p).Kind = "composite" ∧
        (f'.deref p).FQN = x) ∧
      ((∀ entry ∈ entries, ∀ p, mapGet f'.elementCache entry.1 = some p →
        (f'.deref p).Kind ≠ "composite") → comp.Provenance = [])) ∧
    (compValue.lookupPath "#elements" = none → comp.Provenance = []) := by
  unfold flattenComponent at h
  constructor
  · intro entries hel
    rw [hel] at h
    simp only [CueValue.fields] at h
    cases hl : flattenLoop E fuel entries f
        { ID := id, Metadata := compValue.lookupPath "#metadata", Elements := [],
          DataFields := none, Provenance := [] } with
    | none => rw [hl] at h; cases h
    | some out =>
      obtain ⟨g, r⟩ := out
      rw [hl] at h
      cases r with
      | error err => simp only at h; cases h
      | ok comp' =>
        simp only [Option.some.injEq, Prod.mk.injEq, Except.ok.injEq] at h
        obtain ⟨rfl, rfl⟩ := h
        have hp := flattenLoop_provenance E fuel entries f _ g comp' hf hl
        simp only [List.nil_append] at hp
        refine ⟨hp, fun x hx => ?_, fun hnone => ?_⟩
        · simp only [] at hx
          rw [hp] at hx
          simp only [compositeFQNs, List.mem_filterMap] at hx
          obtain ⟨entry, hmem, hsome⟩ := hx
          cases hc : mapGet g.elementCache entry.1 with
          | none => rw [hc] at hsome; cases hsome
          | some p =>
            rw [hc] at hsome
            by_cases hkp : (g.deref p).Kind = "composite"
            · simp only [hkp, if_true, Option.some.injEq] at hsome
              exact ⟨entry, hmem, p, hc, hkp, hsome⟩
            · simp only [hkp, if_false] at hsome
              cases hsome
        · simp only []
          rw [hp]
          simp only [compositeFQNs, List.filterMap_eq_nil_iff]
          intro entry hmem
          cases hc : mapGet g.elementCache entry.1 with
          | none => rfl
          | some p => simp only [hnone entry hmem p hc, if_false]
  · intro hel
    rw [hel] at h
    simp only [Option.some.injEq, Prod.mk.injEq, Except.ok.injEq] at h
    rw [← h.2]

/-- C24 on `outerComponent` with `Leaf`, `Inner` and `Outer` cached: only
`Outer` is recorded, not `Inner`, which is reached through `Outer`. -/
theorem flattenComponent_provenance_witness :
    outerFlattened.2.Provenance = ["Outer"] ∧
    outerFlattened.2.Elements = [("Leaf", 0)] ∧
    outerFlattened.2.Provenance
      = compositeFQNs outerFlattened.1
          [("Leaf", rawLeaf "Leaf"), ("Outer", rawComposite "Outer" ["Inner"])] :=
  ⟨by decide, by decide,
    ((flattenComponent_provenance sampleEngine 2 nestedResolved "frontend" outerComponent
      outerFlattened.1 outerFlattened.2 (by decide) rfl).1 _ rfl).1⟩

/-- C29: `computeElementHash` hashes the concatenation of its fields, with no
separator or length prefix: the hash is a function of the concatenated bytes,
and the element with FQN `ab` and kind `c` and the element with FQN `a` and
kind `bc`, both without schema, differ in the hashed fields and receive the
same hash, whatever the digest. -/
theorem computeElementHash_unseparated :
    (∀ E e e', hashInput E e = hashInput E e' →
      computeElementHash E e = computeElementHash E e') ∧
    hashedFields elementAbC ≠ hashedFields elementABc ∧
    elementAbC.Schema = none ∧ elementABc.Schema = none ∧
    (∀ E, hashInput E elementAbC = hashInput E elementABc) ∧
    ∀ E, computeElementHash E elementAbC = computeElementHash E elementABc := by
  have hin : ∀ E, hashInput E elementAbC = hashInput E elementABc := fun E => by
    simp [hashInput, elementAbC, elementABc, Element.zero, stringBytes]
  have hfun : ∀ E e e', hashInput E e = hashInput E e' →
      computeElementHash E e = computeElementHash E e' := fun E e e' h => by
    rw [computeElementHash_eq, computeElementHash_eq, h]
  refine ⟨hfun, ?_, rfl, rfl, hin, fun E => hfun E _ _ (hin E)⟩
  intro h
  have h1 : (hashedFields elementAbC).1 = (hashedFields elementABc).1 := by rw [h]
  exact absurd h1 (by decide)

/-- C29 on the sample engine: the two elements receive the same 16
characters. -/
theorem computeElementHash_unseparated_witness :
    computeElementHash sampleEngine elementAbC = "0303030303030303" ∧
    computeElementHash sampleEngine elementAbC = computeElementHash sampleEngine elementABc :=
  ⟨by decide, computeElementHash_unseparated.1 sampleEngine elementAbC elementABc (by decide)⟩

/-- The loop of `flattenComponent` never returns once it reaches an entry that
is not cached and resolves to a composite composing only itself. -/
theorem flattenLoop_self (E : Engine) (fuel : Nat) (f : Flattener) (comp : ComponentIR)
    (a : String) (va : CueValue) (rest : List (String × CueValue))
    (ha : mapGet f.elementCache a = none) (hka : (buildElement E a va).Kind = "composite")
    (hca : (buildElement E a va).Composes = [a]) :
    flattenLoop E fuel ((a, va) :: rest) f comp = none := by
  rw [flattenLoop, resolveElement_miss E f a va ha]
  simp only [deref_alloc_new, hka, if_true]
  have hdiv := expandComposite_self (f.alloc a (buildElement E a va)) a f.heap.length
    (mapGet_alloc_self _ _ _) (by rw [deref_alloc_new]; exact hka)
    (by rw [deref_alloc_new]; exact hca) fuel a
  simp only [hdiv]

theorem newFlattener_alloc_get (k : String) (e : Element) (y : String) (h : y ≠ k) :
    mapGet (NewFlattener.alloc k e).elementCache y = none := by
  rw [mapGet_alloc_ne NewFlattener e (Ne.symm h)]
  rfl

/-- C26 (as the code behaves): with a fresh flattener and enough fuel (one
level), flattening a component whose only element is a composite that does not
list its own FQN in its `Composes` returns no error, an empty `Elements` map
and `Provenance` equal to the FQN of the composite: no composed reference is
in the cache, so each is skipped. -/
theorem flattenComponent_fresh_composite (E : Engine) (fuel : Nat) (id : String)
    (compValue : CueValue) (k : String) (v : CueValue)
    (hel : compValue.lookupPath "#elements" = some (.struct [(k, v)]))
    (hkind : (buildElement E k v).Kind = "composite")
    (hself : k ∉ (buildElement E k v).Composes) :
    flattenComponent E (fuel + 1) NewFlattener id compValue
      = some (NewFlattener.alloc k (buildElement E k v),
          .ok { ID := id, Metadata := compValue.lookupPath "#metadata", Elements := [],
                DataFields := some compValue, Provenance := [k] }) := by
  have hx : expandComposite (fuel + 1) (NewFlattener.alloc k (buildElement E k v))
      NewFlattener.heap.length k
        = some (NewFlattener.alloc k (buildElement E k v), .ok []) := by
    rw [expandComposite, deref_alloc_new]
    exact expandLoop_uncached _ k _ _ [] fun y hy =>
      newFlattener_alloc_get k _ y fun hyk => hself (hyk ▸ hy)
  unfold flattenComponent
  rw [hel]
  simp only [CueValue.fields]
  rw [flattenLoop_cons_composite E (fuel + 1) NewFlattener k v [] _ _ [] rfl hkind hx]
  simp only [flattenLoop, addPrimitives, deref_alloc_new, buildElement_fqn, List.nil_append]

/-- C26 on `statelessComponent`, the component of `main`, flattened by a fresh
flattener. -/
theorem flattenComponent_fresh_composite_witness :
    (buildElement sampleEngine "Stateless"
      (rawComposite "Stateless" ["Container", "Replicas"])).Composes
        = ["Container", "Replicas"] ∧
    flattenComponent sampleEngine 1 NewFlattener "frontend" statelessComponent
      = some (NewFlattener.alloc "Stateless" (buildElement sampleEngine "Stateless"
            (rawComposite "Stateless" ["Container", "Replicas"])),
          .ok { ID := "frontend", Metadata := statelessComponent.lookupPath "#metadata",
                Elements := [], DataFields := some statelessComponent,
                Provenance := ["Stateless"] }) :=
  ⟨by decide,
    flattenComponent_fresh_composite sampleEngine 0 "frontend" statelessComponent "Stateless"
      (rawComposite "Stateless" ["Container", "Replicas"]) rfl (by decide) (by decide)⟩

/-- C26 as stated fails: the only element of `selfComponent` is a composite
with non-empty `Composes`, and a fresh flattener never returns on it, so it
yields neither an empty `Elements` map nor a `Provenance` list. -/
theorem flattenComponent_self_composite_never_returns :
    (buildElement sampleEngine "Loop" (rawComposite "Loop" ["Loop"])).Kind = "composite" ∧
    (buildElement sampleEngine "Loop" (rawComposite "Loop" ["Loop"])).Composes = ["Loop"] ∧
    ¬ ∃ fuel f' r,
      flattenComponent sampleEngine fuel NewFlattener "frontend" selfComponent
        = some (f', r) := by
  refine ⟨by decide, by decide, ?_⟩
  rintro ⟨fuel, f', r, h⟩
  have hel : selfComponent.lookupPath "#elements"
      = some (.struct [("Loop", rawComposite "Loop" ["Loop"])]) := rfl
  unfold flattenComponent at h
  rw [hel] at h
  simp only [CueValue.fields] at h
  rw [flattenLoop_self sampleEngine fuel NewFlattener _ "Loop" _ [] rfl (by decide)
    (by decide)] at h
  cases h

theorem setSourceComposite_idem (f : Flattener) (p : Ptr) (o : String)
    (hp : p < f.heap.length) :
    (f.setSourceComposite p o).setSourceComposite p o = f.setSourceComposite p o := by
  have hd : (f.setSourceComposite p o).deref p = (f.deref p).stamp o := by
    rw [deref_setSourceComposite, if_pos ⟨rfl, hp⟩]
  unfold Flattener.setSourceComposite at hd ⊢
  simp only [hd, stamp_stamp, List.set_set]

/-- The loop of `expandComposite` over a list in which the FQN `x` is cached
as a leaf at `p` and no other member is cached: every occurrence of `x` stamps
the leaf and appends it, the other members are skipped. -/
theorem expandLoop_single_leaf (recur : Flattener → Ptr → String → Outcome (List Ptr))
    (o x : String) (p : Ptr) :
    ∀ (L : List String) (f : Flattener) (acc : List Ptr),
      mapGet f.elementCache x = some p → p < f.heap.length →
      (f.deref p).Kind ≠ "composite" →
      (∀ y ∈ L, y ≠ x → mapGet f.elementCache y = none) →
      expandLoop recur o L f acc
        = some (if x ∈ L then f.setSourceComposite p o else f,
            .ok (acc ++ List.replicate (L.count x) p)) := by
  intro L
  induction L with
  | nil => intro f acc _ _ _ _; simp [expandLoop]
  | cons y rest ih =>
    intro f acc hx hp hk hrest
    rw [expandLoop]
    by_cases hy : y = x
    · subst hy
      simp only [resolveElementByFQN, hx, hk, if_false]
      have hk' : ((f.setSourceComposite p o).deref p).Kind ≠ "composite" := by
        rw [deref_setSourceComposite, if_pos ⟨rfl, hp⟩]; exact hk
      have hp' : p < (f.setSourceComposite p o).heap.length := by
        simp only [Flattener.setSourceComposite, List.length_set]; exact hp
      rw [ih (f.setSourceComposite p o) (acc ++ [p]) hx hp' hk'
        (fun z hz hzy => hrest z (List.mem_cons_of_mem _ hz) hzy)]
      simp only [setSourceComposite_idem f p o hp, ite_self, List.mem_cons, true_or, if_true,
        List.count_cons_self, List.replicate_succ, List.append_assoc, List.singleton_append]
    · have hnone := hrest y (List.mem_cons_self _ _) hy
      simp only [resolveElementByFQN, hnone]
      rw [ih f acc hx hp hk (fun z hz hzy => hrest z (List.mem_cons_of_mem _ hz) hzy)]
      have hxy : ¬ x = y := fun h => hy h.symm
      have hc : (y :: rest).count x = rest.count x := List.count_cons_of_ne hxy rest
      simp only [List.mem_cons, hxy, false_or, hc]

theorem mapSet_eq_self {α : Type} (k : String) (v : α) :
    ∀ (m : List (String × α)), mapGet m k = some v → mapSet m k v = m := by
  intro m
  induction m with
  | nil => intro h; cases h
  | cons e rest ih =>
    intro h
    obtain ⟨k', v'⟩ := e
    by_cases hk : k' = k
    · subst hk
      simp only [mapGet, if_true, Option.some.injEq] at h
      simp [mapSet, h]
    · simp only [mapGet, hk, if_false] at h
      simp [mapSet, hk, ih h]

/-- Adding again a pointer the map already holds under its FQN leaves the map
as it is. -/
theorem addPrimitives_replicate (f : Flattener) (els : List (String × Ptr)) (k : String)
    (p : Ptr) (h : (f.deref p).FQN = k) (hg : mapGet els k = some p) :
    ∀ n, addPrimitives f els (List.replicate n p) = els := by
  intro n
  induction n with
  | zero => rfl
  | succ n ih =>
    rw [List.replicate_succ, addPrimitives, h, mapSet_eq_self k p els hg]
    exact ih

theorem buildElement_source (E : Engine) (k : String) (v : CueValue) :
    (buildElement E k v).Provenance.SourceComposite = "" := by
  unfold buildElement
  dsimp only
  split_ifs <;> (repeat' split) <;> rfl

theorem rawComponent_elements (entries : List (String × CueValue)) :
    (rawComponent entries).lookupPath "#elements" = some (.struct entries) := rfl

/-- The loop of `flattenComponent` on a leaf followed by a composite that
composes it, from a fresh flattener. -/
theorem flattenLoop_leaf_then_composite (E : Engine) (fuel : Nat) (comp : ComponentIR)
    (x c : String) (vx vc : CueValue) (hxc : x ≠ c)
    (hleaf : (buildElement E x vx).Kind ≠ "composite")
    (hcomp : (buildElement E c vc).Kind = "composite")
    (hmem : x ∈ (buildElement E c vc).Composes)
    (hself : c ∉ (buildElement E c vc).Composes) :
    flattenLoop E (fuel + 1) [(x, vx), (c, vc)] NewFlattener comp
      = some (((NewFlattener.alloc x (buildElement E x vx)).alloc c
            (buildElement E c vc)).setSourceComposite 0 c,
          .ok { comp with
                Elements := mapSet comp.Elements x 0,
                Provenance := comp.Provenance ++ [c] }) := by
  have hcx : c ≠ x := fun h => hxc h.symm
  rw [flattenLoop_cons_leaf E (fuel + 1) NewFlattener x vx _ comp rfl hleaf]
  generalize hf₁ : NewFlattener.alloc x (buildElement E x vx) = f₁
  have hlen₁ : f₁.heap.length = 1 := by subst hf₁; rfl
  have hx₁ : mapGet f₁.elementCache x = some 0 := by subst hf₁; exact mapGet_alloc_self _ _ _
  have hd₁ : f₁.deref 0 = buildElement E x vx := by subst hf₁; exact deref_alloc_new _ _ _
  have hnone₁ : ∀ y, y ≠ x → mapGet f₁.elementCache y = none := by
    subst hf₁; exact fun y hy => newFlattener_alloc_get x _ y hy
  generalize hf₂ : f₁.alloc c (buildElement E c vc) = f₂
  have hlen₂ : f₂.heap.length = 2 := by subst hf₂; rw [length_alloc, hlen₁]
  have hx₂ : mapGet f₂.elementCache x = some 0 := by
    subst hf₂; rw [mapGet_alloc_ne f₁ _ hcx]; exact hx₁
  have hd₂ : f₂.deref 0 = buildElement E x vx := by
    have h0 : (0 : Nat) < f₁.heap.length := by omega
    subst hf₂; rw [deref_alloc_old f₁ _ _ h0]; exact hd₁
  have hdc : f₂.deref 1 = buildElement E c vc := by
    subst hf₂; rw [← hlen₁]; exact deref_alloc_new _ _ _
  have hnone₂ : ∀ y ∈ (buildElement E c vc).Composes, y ≠ x →
      mapGet f₂.elementCache y = none := by
    intro y hy hyx
    have hyc : c ≠ y := fun h => hself (h ▸ hy)
    subst hf₂
    rw [mapGet_alloc_ne f₁ _ hyc]
    exact hnone₁ y hyx
  have h0₂ : (0 : Nat) < f₂.heap.length := by omega
  have h10 : ¬ ((1 : Nat) = 0 ∧ 0 < f₂.heap.length) := by omega
  have hx : expandComposite (fuel + 1) f₂ f₁.heap.length c
      = some (f₂.setSourceComposite 0 c,
          .ok (List.replicate ((buildElement E c vc).Composes.count x) 0)) := by
    rw [expandComposite, hlen₁, hdc,
      expandLoop_single_leaf _ c x 0 _ f₂ [] hx₂ h0₂ (by rw [hd₂]; exact hleaf) hnone₂]
    simp only [hmem, if_true, List.nil_append]
  have hk₁ : mapGet f₁.elementCache c = none := hnone₁ c hcx
  rw [← hf₂] at hx
  rw [flattenLoop_cons_composite E (fuel + 1) f₁ c vc [] _ _ _ hk₁ hcomp hx, hf₂]
  have hfx : ((f₂.setSourceComposite 0 c).deref 0).FQN = x := by
    rw [deref_setSourceComposite, if_pos ⟨rfl, h0₂⟩, hd₂]
    exact buildElement_fqn E x vx
  have hfc : ((f₂.setSourceComposite 0 c).deref 1).FQN = c := by
    rw [deref_setSourceComposite, if_neg h10, hdc]
    exact buildElement_fqn E c vc
  simp only [flattenLoop, hlen₁, hfc]
  have hnew : NewFlattener.heap.length = 0 := rfl
  rw [hnew, addPrimitives_replicate _ _ x 0 hfx (mapGet_mapSet_self _ _ _)]

/-- The loop of `flattenComponent` on a composite followed by a leaf it
composes, from a fresh flattener: the reference to the leaf is skipped. -/
theorem flattenLoop_composite_then_leaf (E : Engine) (fuel : Nat) (comp : ComponentIR)
    (x c : String) (vx vc : CueValue) (hxc : x ≠ c)
    (hleaf : (buildElement E x vx).Kind ≠ "composite")
    (hcomp : (buildElement E c vc).Kind = "composite")
    (hself : c ∉ (buildElement E c vc).Composes) :
    flattenLoop E (fuel + 1) [(c, vc), (x, vx)] NewFlattener comp
      = some ((NewFlattener.alloc c (buildElement E c vc)).alloc x (buildElement E x vx),
          .ok { comp with
                Elements := mapSet comp.Elements x 1,
                Provenance := comp.Provenance ++ [c] }) := by
  have hx : expandComposite (fuel + 1) (NewFlattener.alloc c (buildElement E c vc))
      NewFlattener.heap.length c
        = some (NewFlattener.alloc c (buildElement E c vc), .ok []) := by
    rw [expandComposite, deref_alloc_new]
    exact expandLoop_uncached _ c _ _ [] fun y hy =>
      newFlattener_alloc_get c _ y fun hyc => hself (hyc ▸ hy)
  rw [flattenLoop_cons_composite E (fuel + 1) NewFlattener c vc _ comp _ [] rfl hcomp hx]
  have hk : mapGet (NewFlattener.alloc c (buildElement E c vc)).elementCache x = none :=
    newFlattener_alloc_get c _ x hxc
  rw [flattenLoop_cons_leaf E (fuel + 1) _ x vx [] _ hk hleaf]
  simp only [flattenLoop, addPrimitives, deref_alloc_new, buildElement_fqn, length_alloc]
  rfl

/-- C27: the result of `flattenComponent` depends on the order of the element
entries. For a leaf P and a composite C that composes P (and does not compose
itself), both listed directly and flattened by a fresh flattener with enough
fuel (one level): when P comes before C, the element under P has
`Provenance.SourceComposite` equal to the FQN of C; when C comes before P,
the reference of C to P is skipped and the element under P has an empty
`Provenance.SourceComposite`. The keys of `Elements` are P alone in both
cases. -/
theorem flattenComponent_order_dependent (E : Engine) (fuel : Nat) (id : String)
    (P C : String) (vp vc : CueValue) (hPC : P ≠ C)
    (hleaf : (buildElement E P vp).Kind ≠ "composite")
    (hcomp : (buildElement E C vc).Kind = "composite")
    (hmem : P ∈ (buildElement E C vc).Composes)
    (hself : C ∉ (buildElement E C vc).Composes) :
    (∃ f' comp,
      flattenComponent E (fuel + 1) NewFlattener id (rawComponent [(P, vp), (C, vc)])
        = some (f', .ok comp) ∧
      comp.Elements.map Prod.fst = [P] ∧
      ∃ p, mapGet comp.Elements P = some p ∧ (f'.deref p).FQN = P ∧
        (f'.deref p).Provenance.SourceComposite = C) ∧
    (∃ f' comp,
      flattenComponent E (fuel + 1) NewFlattener id (rawComponent [(C, vc), (P, vp)])
        = some (f', .ok comp) ∧
      comp.Elements.map Prod.fst = [P] ∧
      ∃ p, mapGet comp.Elements P = some p ∧ (f'.deref p).FQN = P ∧
        (f'.deref p).Provenance.SourceComposite = "") := by
  have h0 : (0 : Nat)
      < ((NewFlattener.alloc P (buildElement E P vp)).alloc C (buildElement E C vc)).heap.length := by
    simp [Flattener.alloc]
  have h0' : (0 : Nat) < (NewFlattener.alloc P (buildElement E P vp)).heap.length := by
    simp [Flattener.alloc]
  have hPCrun :
      flattenComponent E (fuel + 1) NewFlattener id (rawComponent [(P, vp), (C, vc)])
        = some (((NewFlattener.alloc P (buildElement E P vp)).alloc C
              (buildElement E C vc)).setSourceComposite 0 C,
            .ok { ID := id, Metadata := (rawComponent [(P, vp), (C, vc)]).lookupPath "#metadata",
                  Elements := [(P, 0)],
                  DataFields := some (rawComponent [(P, vp), (C, vc)]),
                  Provenance := [C] }) := by
    unfold flattenComponent
    rw [rawComponent_elements]
    simp only [CueValue.fields]
    rw [flattenLoop_leaf_then_composite E fuel _ P C vp vc hPC hleaf hcomp hmem hself]
    rfl
  have hCPrun :
      flattenComponent E (fuel + 1) NewFlattener id (rawComponent [(C, vc), (P, vp)])
        = some ((NewFlattener.alloc C (buildElement E C vc)).alloc P (buildElement E P vp),
            .ok { ID := id, Metadata := (rawComponent [(C, vc), (P, vp)]).lookupPath "#metadata",
                  Elements := [(P, 1)],
                  DataFields := some (rawComponent [(C, vc), (P, vp)]),
                  Provenance := [C] }) := by
    unfold flattenComponent
    rw [rawComponent_elements]
    simp only [CueValue.fields]
    rw [flattenLoop_composite_then_leaf E fuel _ P C vp vc hPC hleaf hcomp hself]
    rfl
  constructor
  · refine ⟨_, _, hPCrun, rfl, 0, by simp [mapGet], ?_, ?_⟩
    · rw [deref_setSourceComposite, if_pos ⟨rfl, h0⟩, deref_alloc_old _ _ _ h0']
      exact (congrArg Element.FQN (deref_alloc_new NewFlattener P _)).trans
        (buildElement_fqn E P vp)
    · rw [deref_setSourceComposite, if_pos ⟨rfl, h0⟩]
      rfl
  · refine ⟨_, _, hCPrun, rfl, 1, by simp [mapGet], ?_, ?_⟩
    · exact (congrArg Element.FQN
        (deref_alloc_new (NewFlattener.alloc C (buildElement E C vc)) P _)).trans
        (buildElement_fqn E P vp)
    · exact (congrArg (fun e => e.Provenance.SourceComposite)
        (deref_alloc_new (NewFlattener.alloc C (buildElement E C vc)) P _)).trans
        (buildElement_source E P vp)

/-- C27 on `Container` and the composite `Web`, in both orders. -/
theorem flattenComponent_order_dependent_witness :
    (returned (flattenComponent sampleEngine 1 NewFlattener "frontend"
      (rawComponent leafFirst))).2.Elements = [("Container", 0)] ∧
    ((returned (flattenComponent sampleEngine 1 NewFlattener "frontend"
      (rawComponent leafFirst))).1.deref 0).Provenance.SourceComposite = "Web" ∧
    (returned (flattenComponent sampleEngine 1 NewFlattener "frontend"
      (rawComponent compositeFirst))).2.Elements = [("Container", 1)] ∧
    ((returned (flattenComponent sampleEngine 1 NewFlattener "frontend"
      (rawComponent compositeFirst))).1.deref 1).Provenance.SourceComposite = "" ∧
    ∃ f' comp,
      flattenComponent sampleEngine 1 NewFlattener "frontend" (rawComponent leafFirst)
        = some (f', .ok comp) ∧
      comp.Elements.map Prod.fst = ["Container"] ∧
      ∃ p, mapGet comp.Elements "Container" = some p ∧ (f'.deref p).FQN = "Container" ∧
        (f'.deref p).Provenance.SourceComposite = "Web" :=
  ⟨by decide, by decide, by decide, by decide,
    (flattenComponent_order_dependent sampleEngine 0 "frontend" "Container" "Web"
      (rawLeaf "Container") (rawComposite "Web" ["Container", "Sidecar"])
      (by decide) (by decide) (by decide) (by decide) (by decide)).1⟩

theorem buildElement_kind_ne (E : Engine) (k : String) (v : CueValue)
    (h : v.lookupPath "kind" ≠ some (.str "composite")) :
    (buildElement E k v).Kind ≠ "composite" := by
  rw [buildElement_kind]
  exact fun hk => h ((stringField_kind_composite v).1 hk)

/-- C30: an element whose kind is missing or is any string other than
"composite" is treated as a leaf without error. `flattenComponent` inserts an
entry that resolves to it into `Elements` under its FQN, for any fuel; and
`expandComposite`, which never returns an error, returns a cached element of
such a kind that a composite composes, with `Provenance.SourceComposite` set
to the origin, and does return when every cached composed element is of such
a kind. -/
theorem other_kind_is_leaf (E : Engine) (fuel : Nat) (f : Flattener) (hf : f.WF) :
    (∀ id compValue k v, compValue.lookupPath "#elements" = some (.struct [(k, v)]) →
      mapGet f.elementCache k = none → v.lookupPath "kind" ≠ some (.str "composite") →
      flattenComponent E fuel f id compValue
        = some (f.alloc k (buildElement E k v),
            .ok { ID := id, Metadata := compValue.lookupPath "#metadata",
                  Elements := [(k, f.heap.length)], DataFields := some compValue,
                  Provenance := [] }) ∧
      (buildElement E k v).FQN = k ∧ (buildElement E k v).Kind = stringField v "kind" "") ∧
    (∀ k v rest comp, mapGet f.elementCache k = none →
      v.lookupPath "kind" ≠ some (.str "composite") →
      flattenLoop E fuel ((k, v) :: rest) f comp
        = flattenLoop E fuel rest (f.alloc k (buildElement E k v))
            { comp with Elements := mapSet comp.Elements k f.heap.length }) ∧
    (∀ c o y q, y ∈ (f.deref c).Composes → mapGet f.elementCache y = some q →
      (f.deref q).Kind ≠ "composite" →
      (∀ f' e, expandComposite fuel f c o ≠ some (f', .error e)) ∧
      ∀ f' prims, expandComposite fuel f c o = some (f', .ok prims) →
        q ∈ prims ∧ (f'.deref q).Provenance.SourceComposite = o ∧
        (f'.deref q).Kind = (f.deref q).Kind) ∧
    (∀ c o, (∀ y ∈ (f.deref c).Composes, ∀ q, mapGet f.elementCache y = some q →
        (f.deref q).Kind ≠ "composite") →
      ∃ f' prims, expandComposite (fuel + 1) f c o = some (f', .ok prims)) := by
  refine ⟨fun id compValue k v hel hk hkind => ⟨?_, buildElement_fqn E k v,
      buildElement_kind E k v⟩,
    fun k v rest comp hk hkind =>
      flattenLoop_cons_leaf E fuel f k v rest comp hk (buildElement_kind_ne E k v hkind),
    fun c o y q hy hq hkq => ⟨fun f' e => expandComposite_no_error fuel f c o f' e,
      fun f' prims hx => ?_⟩,
    fun c o hall => ?_⟩
  · unfold flattenComponent
    rw [hel]
    simp only [CueValue.fields]
    rw [flattenLoop_cons_leaf E fuel f k v [] _ hk (buildElement_kind_ne E k v hkind)]
    rfl
  · have hmem := expandComposite_mem fuel f c o f' prims hf hx y hy q hq hkq
    obtain ⟨hst, hleaf⟩ := expandComposite_spec fuel f c o f' (.ok prims) hf hx
    exact ⟨hmem, (hleaf prims rfl q hmem).2.2, stampedBy_kind hst q⟩
  · obtain ⟨f', prims, hx, -⟩ := expandLoop_leaves (expandComposite fuel) o
      (f.deref c).Composes f [] hall
    exact ⟨f', prims, by rw [expandComposite]; exact hx⟩

/-- C30 on an element of kind `widget` and an element without kind: each is
inserted into `Elements` by a fresh flattener without fuel, and expanding the
composite `Box` (pointer 2) that composes both returns both, stamped. -/
theorem other_kind_is_leaf_witness :
    flattenComponent sampleEngine 0 NewFlattener "frontend"
        (rawComponent [("Gadget", rawWidget)])
      = some (NewFlattener.alloc "Gadget" (buildElement sampleEngine "Gadget" rawWidget),
          .ok { ID := "frontend",
                Metadata := (rawComponent [("Gadget", rawWidget)]).lookupPath "#metadata",
                Elements := [("Gadget", 0)],
                DataFields := some (rawComponent [("Gadget", rawWidget)]),
                Provenance := [] }) ∧
    (buildElement sampleEngine "Gadget" rawWidget).Kind = "widget" ∧
    (buildElement sampleEngine "Bare" (.struct [])).Kind = "" ∧
    expandComposite 1 widgetsResolved 2 "Box"
      = some ((widgetsResolved.setSourceComposite 0 "Box").setSourceComposite 1 "Box",
          .ok [0, 1]) ∧
    (((widgetsResolved.setSourceComposite 0 "Box").setSourceComposite 1 "Box").deref
      1).Provenance.SourceComposite = "Box" :=
  ⟨((other_kind_is_leaf sampleEngine 0 NewFlattener (by decide)).1 "frontend"
      (rawComponent [("Gadget", rawWidget)]) "Gadget" rawWidget rfl rfl
      (by simp [rawWidget, CueValue.lookupPath, mapGet])).1,
    by decide, by decide, rfl, by decide⟩

end Flatten

namespace Render

open Flatten

/-! ## Lemmas on path elements -/

theorem splitSep_ne_nil (l : List Char) : splitSep l ≠ [] := by
  cases l with
  | nil => simp [splitSep]
  | cons c cs =>
    unfold splitSep
    split_ifs
    · simp
    · split <;> simp

theorem splitSep_nosep (c : Char) (cs : List Char) (h : c ≠ '/') :
    ∃ e es, splitSep cs = e :: es ∧ splitSep (c :: cs) = (c :: e) :: es := by
  cases hs : splitSep cs with
  | nil => exact absurd hs (splitSep_ne_nil cs)
  | cons e es => exact ⟨e, es, rfl, by simp [splitSep, h, hs]⟩

theorem splitSep_append_sep (a b : List Char) :
    splitSep (a ++ '/' :: b) = splitSep a ++ splitSep b := by
  induction a with
  | nil => simp [splitSep]
  | cons c cs ih =>
    by_cases h : c = '/'
    · subst h
      simp [splitSep, ih]
    · obtain ⟨e, es, hs, hcs⟩ := splitSep_nosep c cs h
      rw [hcs]
      obtain ⟨e', es', hs', hcs'⟩ := splitSep_nosep c (cs ++ '/' :: b) h
      rw [List.cons_append, hcs']
      rw [ih, hs] at hs'
      simp only [List.cons_append, List.cons.injEq] at hs'
      obtain ⟨rfl, rfl⟩ := hs'
      rfl

theorem joinSep_cons_cons (e e' : List Char) (es : List (List Char)) :
    joinSep (e :: e' :: es) = e ++ '/' :: joinSep (e' :: es) := rfl

theorem joinSep_cons_of_ne_nil (e : List Char) {es : List (List Char)} (h : es ≠ []) :
    joinSep (e :: es) = e ++ '/' :: joinSep es := by
  cases es with
  | nil => exact absurd rfl h
  | cons e' es' => rfl

theorem joinSep_consHead (c : Char) (e : List Char) (es : List (List Char)) :
    joinSep ((c :: e) :: es) = c :: joinSep (e :: es) := by
  cases es with
  | nil => rfl
  | cons e' es' => rfl

theorem joinSep_splitSep (l : List Char) : joinSep (splitSep l) = l := by
  induction l with
  | nil => rfl
  | cons c cs ih =>
    by_cases h : c = '/'
    · subst h
      simp only [splitSep, if_true]
      rw [joinSep_cons_of_ne_nil _ (splitSep_ne_nil cs), ih]
      rfl
    · obtain ⟨e, es, hs, hcs⟩ := splitSep_nosep c cs h
      rw [hcs, joinSep_consHead, ← hs, ih]

theorem splitSep_injective {a b : List Char} (h : splitSep a = splitSep b) : a = b := by
  rw [← joinSep_splitSep a, ← joinSep_splitSep b, h]

theorem joinSep_append {D r : List (List Char)} (hD : D ≠ []) (hr : r ≠ []) :
    joinSep (D ++ r) = joinSep D ++ '/' :: joinSep r := by
  induction D with
  | nil => exact absurd rfl hD
  | cons e es ih =>
    cases es with
    | nil =>
      simp only [List.singleton_append]
      rw [joinSep_cons_of_ne_nil _ hr]
      rfl
    | cons e' es' =>
      rw [List.cons_append, joinSep_cons_of_ne_nil _ (by simp), ih (by simp),
        joinSep_cons_cons]
      simp

/-- The path elements of `d` lead those of `p` exactly when `p` is `d` or
begins with `d` followed by a separator. -/
theorem splitSep_prefix_iff (d p : List Char) :
    splitSep d <+: splitSep p ↔ p = d ∨ (d ++ ['/']) <+: p := by
  constructor
  · rintro ⟨r, hr⟩
    cases r with
    | nil =>
      rw [List.append_nil] at hr
      exact Or.inl (splitSep_injective hr.symm)
    | cons x xs =>
      right
      have hp : p = d ++ '/' :: joinSep (x :: xs) := by
        rw [← joinSep_splitSep p, ← hr, joinSep_append (splitSep_ne_nil d) (by simp),
          joinSep_splitSep]
      exact ⟨joinSep (x :: xs), by rw [hp]; simp⟩
  · rintro (rfl | ⟨b, hb⟩)
    · exact List.prefix_refl _
    · rw [← hb]
      have : d ++ ['/'] ++ b = d ++ '/' :: b := by simp
      rw [this, splitSep_append_sep]
      exact List.prefix_append _ _

theorem splitSep_slash_free (l : List Char) : ∀ e ∈ splitSep l, '/' ∉ e := by
  induction l with
  | nil => intro e he; simp [splitSep] at he; subst he; simp
  | cons c cs ih =>
    by_cases h : c = '/'
    · subst h
      intro e he
      simp only [splitSep, if_true, List.mem_cons] at he
      rcases he with rfl | he
      · simp
      · exact ih e he
    · obtain ⟨e₀, es, hs, hcs⟩ := splitSep_nosep c cs h
      rw [hcs]
      intro e he
      rcases List.mem_cons.1 he with rfl | he
      · have := ih e₀ (by rw [hs]; exact List.mem_cons_self _ _)
        simp only [List.mem_cons, not_or]
        exact ⟨fun e => h e.symm, this⟩
      · exact ih e (by rw [hs]; exact List.mem_cons_of_mem _ he)

theorem splitSep_of_slash_free (e : List Char) (h : '/' ∉ e) : splitSep e = [e] := by
  induction e with
  | nil => rfl
  | cons c cs ih =>
    simp only [List.mem_cons, not_or] at h
    have hc : c ≠ '/' := fun e => h.1 e.symm
    simp [splitSep, hc, ih h.2]

theorem splitSep_joinSep (xs : List (List Char)) (hne : xs ≠ [])
    (hfree : ∀ e ∈ xs, '/' ∉ e) : splitSep (joinSep xs) = xs := by
  induction xs with
  | nil => exact absurd rfl hne
  | cons e es ih =>
    cases es with
    | nil => exact splitSep_of_slash_free e (hfree e (List.mem_singleton_self e))
    | cons e' es' =>
      rw [joinSep_cons_cons, splitSep_append_sep,
        splitSep_of_slash_free e (hfree e (List.mem_cons_self _ _)),
        ih (by simp) (fun x hx => hfree x (List.mem_cons_of_mem _ hx))]
      rfl


/-! ## Lemmas on `filepath.Clean` -/

theorem cleanStep_nil (r : Bool) (buf : CleanBuf) : cleanStep r buf [] = buf := by
  simp [cleanStep]

theorem cleanStep_dot (r : Bool) (buf : CleanBuf) : cleanStep r buf ['.'] = buf := by
  simp [cleanStep]

theorem cleanStep_name (r : Bool) (buf : CleanBuf) {e : List Char} (h : IsName e) :
    cleanStep r buf e = { buf with elems := e :: buf.elems } := by
  simp [cleanStep, h.1, h.2.1, h.2.2]

theorem cleanStep_dotdot_cons (r : Bool) (k : Nat) (x : List Char) (es : List (List Char)) :
    cleanStep r ⟨k, x :: es⟩ ['.', '.'] = ⟨k, es⟩ := by
  simp [cleanStep]

theorem cleanStep_dotdot_nil (k : Nat) : cleanStep false ⟨k, []⟩ ['.', '.'] = ⟨k + 1, []⟩ := by
  simp [cleanStep]

theorem elem_cases (e : List Char) :
    e = [] ∨ e = ['.'] ∨ e = ['.', '.'] ∨ IsName e := by
  by_cases h₁ : e = []
  · exact Or.inl h₁
  · by_cases h₂ : e = ['.']
    · exact Or.inr (Or.inl h₂)
    · by_cases h₃ : e = ['.', '.']
      · exact Or.inr (Or.inr (Or.inl h₃))
      · exact Or.inr (Or.inr (Or.inr ⟨h₁, h₂, h₃⟩))

/-- Every element written to the buffer is a name and, when the elements
read have no separator, has none. -/
theorem cleanStep_elems (r : Bool) (buf : CleanBuf) (e : List Char) :
    ∀ x ∈ (cleanStep r buf e).elems, x ∈ buf.elems ∨ (x = e ∧ IsName e) := by
  intro x hx
  rcases elem_cases e with rfl | rfl | rfl | hn
  · rw [cleanStep_nil] at hx; exact Or.inl hx
  · rw [cleanStep_dot] at hx; exact Or.inl hx
  · obtain ⟨k, es⟩ := buf
    cases es with
    | nil => cases r <;> simp [cleanStep] at hx
    | cons y ys =>
      rw [cleanStep_dotdot_cons] at hx
      exact Or.inl (List.mem_cons_of_mem _ hx)
  · rw [cleanStep_name r buf hn] at hx
    rcases List.mem_cons.1 hx with rfl | hx
    · exact Or.inr ⟨rfl, hn⟩
    · exact Or.inl hx

theorem foldl_cleanStep_elems (r : Bool) :
    ∀ (cs : List (List Char)) (buf : CleanBuf),
      ∀ x ∈ (cs.foldl (cleanStep r) buf).elems, x ∈ buf.elems ∨ (x ∈ cs ∧ IsName x) := by
  intro cs
  induction cs with
  | nil => intro buf x hx; exact Or.inl hx
  | cons c rest ih =>
    intro buf x hx
    rcases ih (cleanStep r buf c) x hx with h | ⟨h, hn⟩
    · rcases cleanStep_elems r buf c x h with h' | ⟨rfl, hn⟩
      · exact Or.inl h'
      · exact Or.inr ⟨List.mem_cons_self _ _, hn⟩
    · exact Or.inr ⟨List.mem_cons_of_mem _ h, hn⟩

theorem foldl_cleanStep_names (r : Bool) :
    ∀ (xs : List (List Char)) (buf : CleanBuf), (∀ x ∈ xs, IsName x) →
      xs.foldl (cleanStep r) buf = ⟨buf.dotdots, xs.reverse ++ buf.elems⟩ := by
  intro xs
  induction xs with
  | nil => intro buf _; rfl
  | cons x rest ih =>
    intro buf h
    rw [List.foldl_cons, cleanStep_name r buf (h x (List.mem_cons_self _ _)),
      ih _ (fun y hy => h y (List.mem_cons_of_mem _ hy))]
    simp

theorem foldl_cleanStep_rooted_dotdots :
    ∀ (cs : List (List Char)) (buf : CleanBuf),
      (cs.foldl (cleanStep true) buf).dotdots = buf.dotdots := by
  intro cs
  induction cs with
  | nil => intro buf; rfl
  | cons c rest ih =>
    intro buf
    rw [List.foldl_cons, ih]
    rcases elem_cases c with rfl | rfl | rfl | hn
    · rw [cleanStep_nil]
    · rw [cleanStep_dot]
    · obtain ⟨k, es⟩ := buf
      cases es <;> simp [cleanStep]
    · rw [cleanStep_name true buf hn]

/-- Reading one more element after the elements a buffer stands for is
reading the elements the next buffer stands for. -/
theorem foldl_bufElems_step (r : Bool) (S b : CleanBuf) (e : List Char)
    (hb : ∀ x ∈ b.elems, IsName x) :
    (bufElems b ++ [e]).foldl (cleanStep r) S
      = (bufElems (cleanStep false b e)).foldl (cleanStep r) S := by
  rcases elem_cases e with rfl | rfl | rfl | hn
  · rw [List.foldl_append, cleanStep_nil]
    simp [cleanStep_nil]
  · rw [List.foldl_append, cleanStep_dot]
    simp [cleanStep_dot]
  · obtain ⟨k, es⟩ := b
    cases es with
    | nil =>
      rw [cleanStep_dotdot_nil]
      simp [bufElems, List.replicate_succ']
    | cons x rest =>
      rw [cleanStep_dotdot_cons]
      have hx : IsName x := hb x (List.mem_cons_self _ _)
      simp only [bufElems, List.reverse_cons, List.foldl_append, List.foldl_cons,
        List.foldl_nil]
      rw [cleanStep_name r _ hx]
      simp [cleanStep]
  · rw [cleanStep_name false b hn]
    simp [bufElems]

/-- Reading a list of path elements from any buffer gives the same as reading
the elements its cleaned form stands for. -/
theorem foldl_cleanStep_norm (r : Bool) (cs : List (List Char)) :
    ∀ S : CleanBuf, cs.foldl (cleanStep r) S
      = (bufElems (cs.foldl (cleanStep false) ⟨0, []⟩)).foldl (cleanStep r) S := by
  induction cs using List.reverseRecOn with
  | nil => intro S; rfl
  | append_singleton cs e ih =>
    intro S
    have hb : ∀ x ∈ (cs.foldl (cleanStep false) ⟨0, []⟩).elems, IsName x := by
      intro x hx
      rcases foldl_cleanStep_elems false cs ⟨0, []⟩ x hx with h | ⟨-, hn⟩
      · cases h
      · exact hn
    rw [List.foldl_append, List.foldl_append, List.foldl_cons, List.foldl_nil, List.foldl_cons,
      List.foldl_nil, ← foldl_bufElems_step r S _ e hb, List.foldl_append, ← ih S]
    rfl


theorem pathIsAbs_iff (s : String) : pathIsAbs s = true ↔ ∃ t, s.data = '/' :: t := by
  unfold pathIsAbs hasPrefix
  rw [List.isPrefixOf_iff_prefix]
  constructor
  · rintro ⟨t, ht⟩
    exact ⟨t, ht.symm⟩
  · rintro ⟨t, ht⟩
    exact ⟨t, ht.symm⟩

theorem pathClean_data (p : String) :
    (pathClean p).data
      = cleanOutput (pathIsAbs p) ((splitSep p.data).foldl (cleanStep (pathIsAbs p)) ⟨0, []⟩) :=
  rfl

theorem joinSep_eq_nil {xs : List (List Char)} (h : joinSep xs = []) (hx : ∀ x ∈ xs, x ≠ []) :
    xs = [] := by
  cases xs with
  | nil => rfl
  | cons e es =>
    have he := hx e (List.mem_cons_self _ _)
    cases es with
    | nil => exact absurd h he
    | cons e' es' => rw [joinSep_cons_cons] at h; simp at h

theorem joinSep_head {x : List Char} {xs : List (List Char)} {c : Char} {t : List Char}
    (hx : x = c :: t) : ∃ u, joinSep (x :: xs) = c :: u := by
  subst hx
  exact ⟨joinSep (t :: xs), joinSep_consHead c t xs⟩

/-- What the elements a buffer stands for are like, for a buffer filled from
the path elements of a string. -/
theorem bufElems_good (r : Bool) (l : List Char) :
    ∀ x ∈ bufElems ((splitSep l).foldl (cleanStep r) ⟨0, []⟩), x ≠ [] ∧ '/' ∉ x := by
  intro x hx
  simp only [bufElems, List.mem_append, List.mem_replicate, List.mem_reverse] at hx
  rcases hx with ⟨-, rfl⟩ | hx
  · exact ⟨by simp, by decide⟩
  · rcases foldl_cleanStep_elems r (splitSep l) ⟨0, []⟩ x hx with h | ⟨h, hn⟩
    · cases h
    · exact ⟨hn.1, splitSep_slash_free l x h⟩

/-- Reading the path elements of a cleaned relative path gives the same as
reading those of the path itself. -/
theorem foldl_splitSep_pathClean (r : Bool) (S : CleanBuf) (p : String)
    (hp : pathIsAbs p = false) :
    (splitSep (pathClean p).data).foldl (cleanStep r) S
      = (splitSep p.data).foldl (cleanStep r) S := by
  rw [pathClean_data, hp, foldl_cleanStep_norm r (splitSep p.data) S]
  have hgood := bufElems_good false p.data
  generalize (splitSep p.data).foldl (cleanStep false) ⟨0, []⟩ = b at hgood ⊢
  unfold cleanOutput
  simp only [Bool.false_eq_true, if_false]
  by_cases hb : joinSep (List.replicate b.dotdots ['.', '.'] ++ b.elems.reverse) = []
  · have hnil := joinSep_eq_nil hb (fun x hx => (hgood x hx).1)
    rw [if_pos hb]
    unfold bufElems
    rw [hnil]
    simp [splitSep, cleanStep_dot]
  · rw [if_neg hb]
    have hne : bufElems b ≠ [] := by
      intro h
      unfold bufElems at h
      rw [h] at hb
      exact hb rfl
    have := splitSep_joinSep (bufElems b) hne (fun x hx => (hgood x hx).2)
    unfold bufElems at this ⊢
    rw [this]

theorem pathIsAbs_pathClean (p : String) : pathIsAbs (pathClean p) = pathIsAbs p := by
  cases hp : pathIsAbs p with
  | true =>
    rw [pathIsAbs_iff, pathClean_data, hp]
    exact ⟨_, rfl⟩
  | false =>
    rw [Bool.eq_false_iff, Ne, pathIsAbs_iff, pathClean_data, hp]
    rintro ⟨t, ht⟩
    have hgood := bufElems_good false p.data
    generalize (splitSep p.data).foldl (cleanStep false) ⟨0, []⟩ = b at hgood ht
    unfold cleanOutput at ht
    simp only [Bool.false_eq_true, if_false] at ht
    by_cases hb : joinSep (List.replicate b.dotdots ['.', '.'] ++ b.elems.reverse) = []
    · rw [if_pos hb] at ht
      cases ht
    · rw [if_neg hb] at ht
      cases hxs : List.replicate b.dotdots ['.', '.'] ++ b.elems.reverse with
      | nil => rw [hxs] at hb; exact hb rfl
      | cons x xs =>
        have hx := hgood x (by unfold bufElems; rw [hxs]; exact List.mem_cons_self _ _)
        rw [hxs] at ht
        cases x with
        | nil => exact hx.1 rfl
        | cons c u =>
          rw [joinSep_consHead] at ht
          simp only [List.cons.injEq] at ht
          exact hx.2 (by rw [ht.1]; exact List.mem_cons_self _ _)

theorem pathClean_idem (p : String) : pathClean (pathClean p) = pathClean p := by
  have hdata : (pathClean (pathClean p)).data = (pathClean p).data := by
    cases hp : pathIsAbs p with
    | false =>
      rw [pathClean_data (pathClean p), pathIsAbs_pathClean, hp,
        foldl_splitSep_pathClean false ⟨0, []⟩ p hp, pathClean_data p, hp]
    | true =>
      rw [pathClean_data (pathClean p), pathIsAbs_pathClean, hp, pathClean_data p, hp]
      have hgood := bufElems_good true p.data
      have hdd := foldl_cleanStep_rooted_dotdots (splitSep p.data) ⟨0, []⟩
      have hnames : ∀ x ∈ ((splitSep p.data).foldl (cleanStep true) ⟨0, []⟩).elems,
          IsName x := by
        intro x hx
        rcases foldl_cleanStep_elems true (splitSep p.data) ⟨0, []⟩ x hx with h | ⟨-, hn⟩
        · cases h
        · exact hn
      generalize (splitSep p.data).foldl (cleanStep true) ⟨0, []⟩ = b at hgood hdd hnames ⊢
      obtain ⟨k, es⟩ := b
      simp only at hdd hnames
      subst hdd
      congr 1
      simp only [cleanOutput, if_true, List.replicate_zero, List.nil_append, splitSep,
        List.foldl_cons, cleanStep_nil]
      by_cases hes : es = []
      · subst hes
        simp [joinSep, splitSep, cleanStep_nil]
      · have hsplit := splitSep_joinSep es.reverse (by simpa using hes)
          (fun x hx => (hgood x (by simpa [bufElems] using hx)).2)
        rw [hsplit, foldl_cleanStep_names true es.reverse ⟨0, []⟩
          (fun x hx => hnames x (by simpa using hx))]
        simp
  exact String.ext hdata

theorem pathClean_join_relative (cwd p : String) (hcwd : pathIsAbs cwd = true)
    (hp : pathIsAbs p = false) :
    pathClean (pathJoin [cwd, pathClean p]) = pathClean (cwd ++ "/" ++ p) := by
  obtain ⟨t, ht⟩ := (pathIsAbs_iff cwd).1 hcwd
  have hne : cwd ≠ "" := by
    intro h; rw [h] at ht; cases ht
  have habs : ∀ x : String, pathIsAbs (cwd ++ "/" ++ x) = true := by
    intro x
    rw [pathIsAbs_iff]
    exact ⟨t ++ '/' :: x.data, by simp [String.data_append, ht]⟩
  have hjoin : pathJoin [cwd, pathClean p] = pathClean (cwd ++ "/" ++ pathClean p) := by
    simp [pathJoin, hne, joinStrings]
  rw [hjoin, pathClean_idem]
  apply String.ext
  have hsplit : ∀ x : String, splitSep (cwd ++ "/" ++ x).data
      = splitSep cwd.data ++ splitSep x.data := by
    intro x
    have : (cwd ++ "/" ++ x).data = cwd.data ++ '/' :: x.data := by
      simp [String.data_append]
    rw [this, splitSep_append_sep]
  rw [pathClean_data, pathClean_data, habs, habs, hsplit, hsplit, List.foldl_append,
    List.foldl_append, foldl_splitSep_pathClean true _ p hp]


/-! ## Lemmas on `extractModuleRelease` and `getReleaseFilePath` -/

theorem contains_of_eq {msg : String} (pre sub post : String) (h : msg = pre ++ sub ++ post) :
    Contains msg sub := by
  subst h
  exact ⟨pre.data, post.data, by simp [String.data_append]⟩

theorem contains_append_right {a sub : String} (b : String) (h : Contains a sub) :
    Contains (a ++ b) sub := by
  obtain ⟨pre, post, hp⟩ := h
  exact ⟨pre, post ++ b.data, by simp [String.data_append, ← hp]⟩

theorem isModuleRelease_iff (val : CueValue) :
    isModuleRelease val = true ↔ val.lookupPath "kind" = some (.str "ModuleRelease") := by
  unfold isModuleRelease
  cases h : val.lookupPath "kind" with
  | none => simp
  | some w =>
    cases w with
    | str s => simp [CueValue.asString]
    | atom t => simp [CueValue.asString]
    | list l => simp [CueValue.asString]
    | struct fs => simp [CueValue.asString]

theorem searchFields_spec :
    ∀ (fs : List (String × CueValue)),
      (∃ pre label r post, fs = pre ++ (label, r) :: post ∧ isModuleRelease r = true ∧
        (∀ e ∈ pre, isModuleRelease e.2 = false) ∧ searchFields fs = (some r, none)) ∨
      ((∀ e ∈ fs, isModuleRelease e.2 = false) ∧ ∃ msg, searchFields fs = (none, some msg) ∧
        Contains msg "no ModuleRelease found") := by
  intro fs
  induction fs with
  | nil =>
    right
    refine ⟨(fun e he => by cases he), _, rfl, ?_⟩
    exact contains_of_eq "" "no ModuleRelease found"
      " in file (check that file contains a value with kind: \"ModuleRelease\")" (by decide)
  | cons f rest ih =>
    obtain ⟨label, v⟩ := f
    by_cases hv : isModuleRelease v = true
    · left
      refine ⟨[], label, v, rest, rfl, hv, (fun e he => by cases he), ?_⟩
      simp [searchFields, hv]
    · have hv' : isModuleRelease v = false := by simpa using hv
      rcases ih with ⟨pre, l, r, post, hfs, hr, hpre, hs⟩ | ⟨hall, msg, hs, hc⟩
      · left
        refine ⟨(label, v) :: pre, l, r, post, by simp [hfs], hr, ?_,
          by simp [searchFields, hv', hs]⟩
        intro e he
        rcases List.mem_cons.1 he with rfl | he
        · exact hv'
        · exact hpre e he
      · right
        refine ⟨?_, msg, by simp [searchFields, hv', hs], hc⟩
        intro e he
        rcases List.mem_cons.1 he with rfl | he
        · exact hv'
        · exact hall e he


/-! ## Lemmas on `validateOutputPath` -/

theorem prefixTest_iff (cleanPath pre : String) :
    (hasPrefix cleanPath (pre ++ "/") || cleanPath == pre) = true ↔ IsUnder pre cleanPath := by
  unfold IsUnder hasPrefix
  rw [splitSep_prefix_iff, Bool.or_eq_true, List.isPrefixOf_iff_prefix, beq_iff_eq,
    String.data_append]
  constructor
  · rintro (h | h)
    · exact Or.inr h
    · exact Or.inl (by rw [h])
  · rintro (h | h)
    · exact Or.inr (String.ext h)
    · exact Or.inl h

theorem checkPrefixes_eq (path cleanPath : String) :
    ∀ L : List String, checkPrefixes path cleanPath L
      = if ∃ d ∈ L, IsUnder d cleanPath then
          some ("output path targets system directory: " ++ path)
        else none := by
  intro L
  induction L with
  | nil => simp [checkPrefixes]
  | cons pre rest ih =>
    unfold checkPrefixes
    by_cases h : IsUnder pre cleanPath
    · rw [if_pos ((prefixTest_iff cleanPath pre).2 h), if_pos ⟨pre, List.mem_cons_self _ _, h⟩]
    · have h' : ¬ (hasPrefix cleanPath (pre ++ "/") || cleanPath == pre) = true :=
        fun e => h ((prefixTest_iff cleanPath pre).1 e)
      rw [if_neg h', ih]
      by_cases hr : ∃ d ∈ rest, IsUnder d cleanPath
      · obtain ⟨d, hd, hu⟩ := hr
        rw [if_pos ⟨d, hd, hu⟩, if_pos ⟨d, List.mem_cons_of_mem _ hd, hu⟩]
      · rw [if_neg hr, if_neg]
        rintro ⟨d, hd, hu⟩
        rcases List.mem_cons.1 hd with rfl | hd
        · exact h hu
        · exact hr ⟨d, hd, hu⟩

/-- For a non-empty path the check of `validateOutputPath` runs on the
cleaned absolute form of the path. -/
theorem validateOutputPath_eq (getwd : Except String String) (cwd path : String)
    (hpath : path ≠ "") (hcwd : pathIsAbs cwd = true)
    (hwd : pathIsAbs path = false → getwd = .ok cwd) :
    validateOutputPath getwd path
      = checkPrefixes path (cleanedAbsolute cwd path) dangerousPrefixes := by
  unfold validateOutputPath cleanedAbsolute
  rw [if_neg hpath]
  simp only [pathIsAbs_pathClean]
  cases hp : pathIsAbs path with
  | true => simp
  | false =>
    rw [hwd hp]
    simp only [Bool.not_false, if_true, Bool.false_eq_true, if_false]
    rw [pathClean_join_relative cwd path hcwd hp]

theorem validateOutputPath_inSystemDir (getwd : Except String String) (cwd path : String)
    (hpath : path ≠ "") (hcwd : pathIsAbs cwd = true)
    (hwd : pathIsAbs path = false → getwd = .ok cwd)
    (h : InSystemDir (cleanedAbsolute cwd path)) :
    validateOutputPath getwd path
      = some ("output path targets system directory: " ++ path) := by
  have h' : ∃ d ∈ dangerousPrefixes, IsUnder d (cleanedAbsolute cwd path) := h
  rw [validateOutputPath_eq getwd cwd path hpath hcwd hwd, checkPrefixes_eq, if_pos h']

theorem validateOutputPath_none_iff (getwd : Except String String) (cwd path : String)
    (hpath : path ≠ "") (hcwd : pathIsAbs cwd = true)
    (hwd : pathIsAbs path = false → getwd = .ok cwd) :
    validateOutputPath getwd path = none ↔ ¬ InSystemDir (cleanedAbsolute cwd path) := by
  rw [validateOutputPath_eq getwd cwd path hpath hcwd hwd, checkPrefixes_eq]
  unfold InSystemDir
  by_cases h : ∃ d ∈ dangerousPrefixes, IsUnder d (cleanedAbsolute cwd path)
  · rw [if_pos h]; simp [h]
  · rw [if_neg h]; simp [h]

/-- C12 (as the code behaves): for every non-empty path whose cleaned
absolute form (a relative path is first joined to the working directory, which
`os.Getwd` returns as an absolute path) is one of /etc, /bin, /usr, /sys,
/proc, /boot, /dev or lies beneath one of them, `validateOutputPath` returns
an error containing "system directory". -/
theorem validateOutputPath_rejects_system_dirs (getwd : Except String String)
    (cwd path : String) (hpath : path ≠ "") (hcwd : pathIsAbs cwd = true)
    (hwd : pathIsAbs path = false → getwd = .ok cwd)
    (h : InSystemDir (cleanedAbsolute cwd path)) :
    ∃ msg, validateOutputPath getwd path = some msg ∧ Contains msg "system directory" :=
  ⟨_, validateOutputPath_inSystemDir getwd cwd path hpath hcwd hwd h,
    contains_append_right path (by decide)⟩

/-- C12 on a path that reaches /etc only through `..`, and on a relative path
with the working directory under /usr. -/
theorem validateOutputPath_rejects_system_dirs_witness :
    cleanedAbsolute "/home/u" "/tmp/../etc/passwd" = "/etc/passwd" ∧
    cleanedAbsolute "/usr/local" "out/manifests" = "/usr/local/out/manifests" ∧
    validateOutputPath (.ok "/usr/local") "out/manifests"
      = some "output path targets system directory: out/manifests" ∧
    ∃ msg, validateOutputPath (.ok "/home/u") "/tmp/../etc/passwd" = some msg ∧
      Contains msg "system directory" :=
  ⟨by decide, by decide, by decide,
    validateOutputPath_rejects_system_dirs (.ok "/home/u") "/home/u" "/tmp/../etc/passwd"
      (by decide) (by decide) (fun _ => rfl) (by decide)⟩

/-- C12 as stated fails: with the working directory /etc the cleaned absolute
form of the empty path is /etc, and `validateOutputPath` rejects the empty
path with an error that does not mention a system directory. -/
theorem validateOutputPath_empty_path_in_etc :
    cleanedAbsolute "/etc" "" = "/etc" ∧
    InSystemDir (cleanedAbsolute "/etc" "") ∧
    validateOutputPath (.ok "/etc") "" = some "output path cannot be empty" ∧
    ¬ Contains "output path cannot be empty" "system directory" := by
  decide

/-- C13: `validateOutputPath` returns an error only for the empty path or a
path whose cleaned absolute form is one of the seven system directories or
lies beneath one: for a non-empty path, with a working directory that can be
read, it returns nil if and only if the cleaned absolute form is not such. -/
theorem validateOutputPath_accepts_iff (getwd : Except String String) (cwd path : String)
    (hpath : path ≠ "") (hcwd : pathIsAbs cwd = true)
    (hwd : pathIsAbs path = false → getwd = .ok cwd) :
    (validateOutputPath getwd path = none ↔ ¬ InSystemDir (cleanedAbsolute cwd path)) ∧
    (∀ msg, validateOutputPath getwd path = some msg →
      InSystemDir (cleanedAbsolute cwd path)) := by
  have hiff := validateOutputPath_none_iff getwd cwd path hpath hcwd hwd
  refine ⟨hiff, fun msg hmsg => ?_⟩
  by_contra hn
  rw [hiff.2 hn] at hmsg
  cases hmsg

/-- C13 on the root, on paths with repeated separators and `..` segments, and
on names that share only a prefix with a system directory. -/
theorem validateOutputPath_accepts_iff_witness :
    validateOutputPath (.ok "/home/u/work") "/" = none ∧
    validateOutputPath (.ok "/home/u/work") "///tmp///test" = none ∧
    validateOutputPath (.ok "/home/u/work") "/tmp/../tmp/test" = none ∧
    validateOutputPath (.ok "/home/u/work") "../../test" = none ∧
    validateOutputPath (.ok "/home/u/work") "./output/../other" = none ∧
    validateOutputPath (.ok "/home/u/work") "/usr2/x" = none ∧
    cleanedAbsolute "/home/u/work" "/etcetera" = "/etcetera" ∧
    validateOutputPath (.ok "/home/u/work") "/etcetera" = none :=
  ⟨by decide, by decide, by decide, by decide, by decide, by decide, by decide,
    (validateOutputPath_accepts_iff (.ok "/home/u/work") "/home/u/work" "/etcetera"
      (by decide) (by decide) (fun _ => rfl)).1.2 (by decide)⟩


/-- C14 (as the code behaves): whenever `extractModuleRelease` succeeds, the
value it returns has the kind "ModuleRelease"; it is the input itself when the
root has that kind, whatever its fields, and otherwise the first regular
field, in the order `Fields()` yields them (definitions and hidden fields are
skipped), that has that kind. -/
theorem extractModuleRelease_returns_release (val : CueValue)
    (h : (extractModuleRelease val).2 = none) :
    ∃ r, (extractModuleRelease val).1 = some r ∧ HasKind r "ModuleRelease" ∧
      (HasKind val "ModuleRelease" → r = val) ∧
      (¬ HasKind val "ModuleRelease" →
        ∃ fs pre label post, regularFields val = .ok fs ∧ fs = pre ++ (label, r) :: post ∧
          ∀ e ∈ pre, ¬ HasKind e.2 "ModuleRelease") := by
  unfold extractModuleRelease at h ⊢
  by_cases hroot : isModuleRelease val = true
  · have hk := (isModuleRelease_iff val).1 hroot
    simp only [hroot, if_true]
    exact ⟨val, rfl, hk, fun _ => rfl, fun hn => absurd hk hn⟩
  · have hroot' : ¬ HasKind val "ModuleRelease" := fun hk => hroot ((isModuleRelease_iff val).2 hk)
    simp only [hroot, Bool.false_eq_true, if_false] at h ⊢
    cases hf : regularFields val with
    | error err => simp [hf] at h
    | ok fs =>
      simp only [hf] at h ⊢
      rcases searchFields_spec fs with ⟨pre, label, r, post, hfs, hr, hpre, hs⟩ | ⟨-, msg, hs, -⟩
      · refine ⟨r, by rw [hs], (isModuleRelease_iff r).1 hr, fun hk => absurd hk hroot',
          fun _ => ⟨fs, pre, label, post, rfl, hfs, ?_⟩⟩
        intro e he hk
        have := hpre e he
        rw [(isModuleRelease_iff e.2).2 hk] at this
        cases this
      · rw [hs] at h
        cases h

/-- C14 on `rootRelease` (the root is returned although the field `module`
qualifies too) and on `fieldRelease` (the field `myRelease` is returned). -/
theorem extractModuleRelease_returns_release_witness :
    extractModuleRelease rootRelease = (some rootRelease, none) ∧
    extractModuleRelease fieldRelease
      = (some (.struct [("kind", .str "ModuleRelease"),
          ("metadata", .struct [("name", .str "test-release")])]), none) ∧
    ∃ r, (extractModuleRelease fieldRelease).1 = some r ∧ HasKind r "ModuleRelease" ∧
      (HasKind fieldRelease "ModuleRelease" → r = fieldRelease) ∧
      (¬ HasKind fieldRelease "ModuleRelease" →
        ∃ fs pre label post, regularFields fieldRelease = .ok fs ∧
          fs = pre ++ (label, r) :: post ∧ ∀ e ∈ pre, ¬ HasKind e.2 "ModuleRelease") :=
  ⟨rfl, rfl, extractModuleRelease_returns_release fieldRelease rfl⟩

/-- C14 as stated fails: in `fieldRelease` the first top-level field with the
kind "ModuleRelease" is the definition `#Template`, but `Fields()` does not
yield definitions and `extractModuleRelease` returns the later field
`myRelease`. -/
theorem extractModuleRelease_skips_definition :
    ¬ HasKind fieldRelease "ModuleRelease" ∧
    firstTopLevelRelease fieldRelease = some (.struct [("kind", .str "ModuleRelease")]) ∧
    extractModuleRelease fieldRelease
      = (some (.struct [("kind", .str "ModuleRelease"),
          ("metadata", .struct [("name", .str "test-release")])]), none) ∧
    (extractModuleRelease fieldRelease).1 ≠ firstTopLevelRelease fieldRelease := by
  refine ⟨?_, rfl, rfl, ?_⟩
  · intro h
    cases h
  · intro h
    have hm := congrArg (fun o : Option CueValue =>
      (o.bind fun v => v.lookupPath "metadata").isSome) h
    revert hm
    decide

/-- C15 (as the code behaves): for a value whose fields can be iterated,
`extractModuleRelease` fails if and only if neither the root nor any regular
field, as `Fields()` yields them (definitions and hidden fields are skipped),
has the kind "ModuleRelease"; it then returns the zero value and an error
containing "no ModuleRelease found". -/
theorem extractModuleRelease_fails_iff (val : CueValue) (fs : List (String × CueValue))
    (hf : regularFields val = .ok fs) :
    ((extractModuleRelease val).2 ≠ none ↔
      ¬ HasKind val "ModuleRelease" ∧ ∀ f ∈ fs, ¬ HasKind f.2 "ModuleRelease") ∧
    ((extractModuleRelease val).2 ≠ none →
      ∃ msg, extractModuleRelease val = (none, some msg) ∧
        Contains msg "no ModuleRelease found") := by
  unfold extractModuleRelease
  by_cases hroot : isModuleRelease val = true
  · have hk := (isModuleRelease_iff val).1 hroot
    simp only [hroot, if_true]
    exact ⟨⟨fun h => absurd rfl h, fun h => absurd hk h.1⟩, fun h => absurd rfl h⟩
  · have hroot' : ¬ HasKind val "ModuleRelease" := fun hk => hroot ((isModuleRelease_iff val).2 hk)
    simp only [hroot, Bool.false_eq_true, if_false, hf]
    rcases searchFields_spec fs with ⟨pre, label, r, post, hfs, hr, -, hs⟩ | ⟨hall, msg, hs, hc⟩
    · rw [hs]
      refine ⟨⟨fun h => absurd rfl h, fun h => ?_⟩, fun h => absurd rfl h⟩
      exact absurd ((isModuleRelease_iff r).1 hr) (h.2 (label, r) (by simp [hfs]))
    · rw [hs]
      refine ⟨⟨fun _ => ⟨hroot', fun f hfm hk => ?_⟩, fun _ => by simp⟩, fun _ => ⟨msg, rfl, hc⟩⟩
      have := hall f hfm
      rw [(isModuleRelease_iff f.2).2 hk] at this
      cases this

/-- C15 on `nestedRelease`: a ModuleRelease two levels deep is not found. -/
theorem extractModuleRelease_fails_iff_witness :
    (extractModuleRelease nestedRelease).1.isNone = true ∧
    (((extractModuleRelease nestedRelease).2 ≠ none ↔
      ¬ HasKind nestedRelease "ModuleRelease" ∧
        ∀ f ∈ [("kind", CueValue.str "ModuleDefinition"),
            ("outer", .struct [("inner", .struct [("kind", .str "ModuleRelease")])])],
          ¬ HasKind f.2 "ModuleRelease") ∧
    ((extractModuleRelease nestedRelease).2 ≠ none →
      ∃ msg, extractModuleRelease nestedRelease = (none, some msg) ∧
        Contains msg "no ModuleRelease found")) :=
  ⟨rfl, extractModuleRelease_fails_iff nestedRelease _ rfl⟩

/-- C15 as stated fails: the top-level field `#Rel` of `definitionRelease` has
the kind "ModuleRelease", yet `extractModuleRelease` fails with "no
ModuleRelease found", because `Fields()` does not yield definitions. -/
theorem extractModuleRelease_misses_definition :
    definitionRelease.fields = .ok [("#Rel", .struct [("kind", .str "ModuleRelease")])] ∧
    (∃ f ∈ [("#Rel", CueValue.struct [("kind", .str "ModuleRelease")])],
      HasKind f.2 "ModuleRelease") ∧
    firstTopLevelRelease definitionRelease = some (.struct [("kind", .str "ModuleRelease")]) ∧
    ∃ msg, extractModuleRelease definitionRelease = (none, some msg) ∧
      Contains msg "no ModuleRelease found" :=
  ⟨rfl, ⟨_, List.mem_singleton_self _, rfl⟩, rfl, _, rfl, contains_of_eq "" _ _ rfl⟩

/-- C16: with an empty `--values` flag, `getReleaseFilePath` returns
`modulePath` joined with `releases/module_release.cue` and no error when that
file exists, and otherwise the empty path and an error containing
"no release file found". -/
theorem getReleaseFilePath_default (stat : String → Bool) (modulePath : String) :
    (stat (pathJoin [modulePath, "releases", "module_release.cue"]) = true →
      getReleaseFilePath stat modulePath ""
        = (pathJoin [modulePath, "releases", "module_release.cue"], none)) ∧
    (stat (pathJoin [modulePath, "releases", "module_release.cue"]) = false →
      ∃ msg, getReleaseFilePath stat modulePath "" = ("", some msg) ∧
        Contains msg "no release file found") := by
  constructor
  · intro h
    simp [getReleaseFilePath, h]
  · intro h
    exact ⟨noReleaseFileMessage, by simp [getReleaseFilePath, h],
      contains_append_right noReleaseFileHelp (by decide)⟩

/-- C16 for the module `/tmp/test-module`, with and without the default
release file. -/
theorem getReleaseFilePath_default_witness :
    getReleaseFilePath (onlyFile "/tmp/test-module/releases/module_release.cue")
      "/tmp/test-module" "" = ("/tmp/test-module/releases/module_release.cue", none) ∧
    ∃ msg, getReleaseFilePath (fun _ => false) "/tmp/test-module" "" = ("", some msg) ∧
      Contains msg "no release file found" :=
  ⟨(getReleaseFilePath_default (onlyFile "/tmp/test-module/releases/module_release.cue")
      "/tmp/test-module").1 (by decide),
    (getReleaseFilePath_default (fun _ => false) "/tmp/test-module").2 rfl⟩

/-- C17: with a non-empty `--values` flag, `getReleaseFilePath` returns the
flag itself when it is absolute and the file exists, and `modulePath` joined
with the flag when it is relative and that file exists; when the named file
does not exist it returns the empty path and an error containing "not found",
whatever other files exist. -/
theorem getReleaseFilePath_values_flag (stat : String → Bool) (modulePath valuesFlag : String)
    (h : valuesFlag ≠ "") :
    (pathIsAbs valuesFlag = true → stat valuesFlag = true →
      getReleaseFilePath stat modulePath valuesFlag = (valuesFlag, none)) ∧
    (pathIsAbs valuesFlag = false → stat (pathJoin [modulePath, valuesFlag]) = true →
      getReleaseFilePath stat modulePath valuesFlag
        = (pathJoin [modulePath, valuesFlag], none)) ∧
    (stat (if pathIsAbs valuesFlag then valuesFlag else pathJoin [modulePath, valuesFlag])
        = false →
      ∃ msg, getReleaseFilePath stat modulePath valuesFlag = ("", some msg) ∧
        Contains msg "not found") := by
  refine ⟨fun ha hs => ?_, fun ha hs => ?_, fun hs => ?_⟩
  · simp [getReleaseFilePath, h, ha, hs]
  · simp [getReleaseFilePath, h, ha, hs]
  · by_cases ha : pathIsAbs valuesFlag = true
    · simp only [ha, if_true] at hs
      exact ⟨"release file not found: " ++ valuesFlag, by simp [getReleaseFilePath, h, ha, hs],
        contains_append_right valuesFlag (by decide)⟩
    · simp only [ha, Bool.false_eq_true, if_false] at hs
      exact ⟨"release file not found: " ++ pathJoin [modulePath, valuesFlag],
        by simp [getReleaseFilePath, h, ha, hs],
        contains_append_right (pathJoin [modulePath, valuesFlag]) (by decide)⟩

/-- C17 for the module `/tmp/test-module`: a relative flag, an absolute flag,
and a missing file while only the default release file exists. -/
theorem getReleaseFilePath_values_flag_witness :
    getReleaseFilePath (onlyFile "/tmp/test-module/custom.release.cue") "/tmp/test-module"
      "custom.release.cue" = ("/tmp/test-module/custom.release.cue", none) ∧
    getReleaseFilePath (onlyFile "/tmp/elsewhere/release.cue") "/tmp/test-module"
      "/tmp/elsewhere/release.cue" = ("/tmp/elsewhere/release.cue", none) ∧
    ∃ msg, getReleaseFilePath (onlyFile "/tmp/test-module/releases/module_release.cue")
        "/tmp/test-module" "nonexistent.cue" = ("", some msg) ∧
      Contains msg "not found" :=
  ⟨by decide, by decide,
    (getReleaseFilePath_values_flag (onlyFile "/tmp/test-module/releases/module_release.cue")
      "/tmp/test-module" "nonexistent.cue" (by decide)).2.2 (by decide)⟩

/-! ## The component loop of `runRender` -/

theorem processed_or_fails (c : Collaborators) (componentVal : CueValue) :
    Processed c componentVal ∨ Fails c componentVal := by
  unfold Processed Fails
  cases hm : c.MatchComponent componentVal with
  | error err => exact Or.inr (Or.inl ⟨err, rfl⟩)
  | ok matchResult =>
    by_cases hs : matchResult.Selected = []
    · exact Or.inl ⟨matchResult, rfl, Or.inl hs⟩
    · cases he : c.ExecuteAll componentVal matchResult.Selected with
      | error err => exact Or.inr (Or.inr ⟨matchResult, err, rfl, hs, he⟩)
      | ok results => exact Or.inl ⟨matchResult, rfl, Or.inr ⟨results, he⟩⟩

theorem not_fails_of_processed {c : Collaborators} {componentVal : CueValue}
    (h : Processed c componentVal) : ¬ Fails c componentVal := by
  obtain ⟨matchResult, hm, hs⟩ := h
  rintro (⟨err, he⟩ | ⟨m, err, hm', hne, he⟩)
  · rw [hm] at he; cases he
  · rw [hm] at hm'
    cases hm'
    rcases hs with hs | ⟨results, hr⟩
    · exact hne hs
    · rw [hr] at he; cases he

/-- One round of the loop on a component that is processed without error. -/
theorem processComponents_cons_processed (c : Collaborators) (name : String) (val : CueValue)
    (rest : List (String × CueValue)) (all : List CueValue) (n : Nat) (h : Processed c val) :
    ∃ all', processComponents c ((name, val) :: rest) all n
      = processComponents c rest all' (n + 1) := by
  obtain ⟨matchResult, hm, hs⟩ := h
  by_cases hsel : matchResult.Selected = []
  · exact ⟨all, by simp [processComponents, hm, hsel]⟩
  · rcases hs with hs | ⟨results, hr⟩
    · exact absurd hs hsel
    · exact ⟨results.foldl (fun all result => all ++ result.Resources) all,
        by simp [processComponents, hm, hsel, hr]⟩

/-- One round of the loop on a component for which the matcher or the
executor returns an error. -/
theorem processComponents_cons_fails (c : Collaborators) (name : String) (val : CueValue)
    (rest : List (String × CueValue)) (all : List CueValue) (n : Nat) (h : Fails c val) :
    ∃ err, processComponents c ((name, val) :: rest) all n = .error err ∧
      ((∃ cause, err = "failed to match transformers for component " ++ name ++ ": " ++ cause) ∨
       ∃ cause, err = "failed to execute transformers for component " ++ name ++ ": " ++ cause) := by
  rcases h with ⟨cause, hm⟩ | ⟨matchResult, cause, hm, hne, he⟩
  · exact ⟨_, by simp [processComponents, hm], Or.inl ⟨cause, rfl⟩⟩
  · exact ⟨_, by simp [processComponents, hm, hne, he], Or.inr ⟨cause, rfl⟩⟩

theorem processComponents_error (c : Collaborators) :
    ∀ (pre : List (String × CueValue)) (name : String) (val : CueValue)
      (post : List (String × CueValue)) (all : List CueValue) (n : Nat),
      (∀ e ∈ pre, Processed c e.2) → Fails c val →
      ∃ err, processComponents c (pre ++ (name, val) :: post) all n = .error err ∧
        ((∃ cause,
            err = "failed to match transformers for component " ++ name ++ ": " ++ cause) ∨
         ∃ cause,
            err = "failed to execute transformers for component " ++ name ++ ": " ++ cause) := by
  intro pre
  induction pre with
  | nil => intro name val post all n _ hf; exact processComponents_cons_fails c name val post all n hf
  | cons e pre ih =>
    intro name val post all n hpre hf
    obtain ⟨all', h'⟩ := processComponents_cons_processed c e.1 e.2 (pre ++ (name, val) :: post)
      all n (hpre e (List.mem_cons_self _ _))
    rw [List.cons_append, h']
    exact ih name val post all' (n + 1) (fun x hx => hpre x (List.mem_cons_of_mem _ hx)) hf

theorem processComponents_ok (c : Collaborators) :
    ∀ (components : List (String × CueValue)) (all : List CueValue) (n : Nat)
      (r : List CueValue × Nat),
      processComponents c components all n = .ok r → ∀ e ∈ components, Processed c e.2 := by
  intro components
  induction components with
  | nil => intro _ _ _ _ e he; cases he
  | cons x rest ih =>
    intro all n r h e he
    rcases processed_or_fails c x.2 with hp | hf
    · obtain ⟨all', h'⟩ := processComponents_cons_processed c x.1 x.2 rest all n hp
      rw [h'] at h
      rcases List.mem_cons.1 he with rfl | he
      · exact hp
      · exact ih all' (n + 1) r h e he
    · obtain ⟨err, h', -⟩ := processComponents_cons_fails c x.1 x.2 rest all n hf
      rw [h'] at h
      cases h

/-- The first component for which a call fails splits the list. -/
theorem first_failing (c : Collaborators) :
    ∀ (components : List (String × CueValue)), (∃ e ∈ components, Fails c e.2) →
      ∃ pre name val post, components = pre ++ (name, val) :: post ∧
        (∀ e ∈ pre, Processed c e.2) ∧ Fails c val := by
  intro components
  induction components with
  | nil => rintro ⟨e, he, -⟩; cases he
  | cons x rest ih =>
    rintro ⟨e, he, hf⟩
    rcases processed_or_fails c x.2 with hp | hx
    · rcases List.mem_cons.1 he with rfl | he
      · exact absurd hf (not_fails_of_processed hp)
      · obtain ⟨pre, name, val, post, hsplit, hpre, hval⟩ := ih ⟨e, he, hf⟩
        refine ⟨x :: pre, name, val, post, by rw [hsplit]; rfl, fun y hy => ?_, hval⟩
        rcases List.mem_cons.1 hy with rfl | hy
        · exact hp
        · exact hpre y hy
    · exact ⟨[], x.1, x.2, rest, rfl, (fun y hy => by cases hy), hx⟩

theorem runRender_events_processed (c : Collaborators) (opts : renderOptions)
    (loaded : Except String CueValue) (h : (runRender c opts loaded).1 ≠ []) :
    ∃ componentsVal components r, loaded = .ok componentsVal ∧
      regularFields componentsVal = .ok components ∧
      processComponents c components [] 0 = .ok r := by
  unfold runRender at h
  cases loaded with
  | error err => exact absurd rfl h
  | ok componentsVal =>
    cases hf : regularFields componentsVal with
    | error err => simp [hf] at h
    | ok components =>
      cases hp : processComponents c components [] 0 with
      | error err => simp [hf, hp] at h
      | ok r => exact ⟨componentsVal, components, r, rfl, hf, hp⟩

/-- C25: in `runRender`, if `MatchComponent` or `ExecuteAll` returns an error
for a component, then for the first such component in field order (every
component before it is processed without error) `runRender` returns an error
that names it, and no call to the renderer or the writer is made; a call to
the renderer or the writer is made only after every component has been
processed without error. -/
theorem runRender_component_error (c : Collaborators) (opts : renderOptions)
    (componentsVal : CueValue) (components : List (String × CueValue))
    (hf : regularFields componentsVal = .ok components) :
    ((∃ e ∈ components, Fails c e.2) →
      ∃ pre name val post err, components = pre ++ (name, val) :: post ∧
        (∀ e ∈ pre, Processed c e.2) ∧ Fails c val ∧
        runRender c opts (.ok componentsVal) = ([], some err) ∧ Contains err name ∧
        Contains err "for component") ∧
    ((runRender c opts (.ok componentsVal)).1 ≠ [] → ∀ e ∈ components, Processed c e.2) := by
  constructor
  · intro hex
    obtain ⟨pre, name, val, post, hsplit, hpre, hval⟩ := first_failing c components hex
    obtain ⟨err, herr, hmsg⟩ := processComponents_error c pre name val post [] 0 hpre hval
    refine ⟨pre, name, val, post, err, hsplit, hpre, hval, ?_, ?_, ?_⟩
    · simp [runRender, hf, hsplit, herr]
    · rcases hmsg with ⟨cause, rfl⟩ | ⟨cause, rfl⟩
      · exact contains_of_eq _ name (": " ++ cause) (by rw [String.append_assoc])
      · exact contains_of_eq _ name (": " ++ cause) (by rw [String.append_assoc])
    · rcases hmsg with ⟨cause, rfl⟩ | ⟨cause, rfl⟩
      · exact contains_append_right cause (contains_append_right ": "
          (contains_append_right name (by decide)))
      · exact contains_append_right cause (contains_append_right ": "
          (contains_append_right name (by decide)))
  · intro h
    obtain ⟨v, comps, r, hv, hcomps, hr⟩ := runRender_events_processed c opts _ h
    cases hv
    rw [hf] at hcomps
    cases hcomps
    exact processComponents_ok c components [] 0 r hr

/-- C25 on the components `web` and `db`: `web` is transformed, the executor
fails on `db`, and `runRender` returns the error naming `db` without a call to
the renderer or the writer; on `web` alone it renders and writes. -/
theorem runRender_component_error_witness :
    runRender sampleCollaborators streamOptions (.ok webAndDb)
      = ([], some "failed to execute transformers for component db: transform failed") ∧
    runRender sampleCollaborators streamOptions (.ok webOnly)
      = ([.RenderSimple [.struct [("name", .str "web")]] "yaml",
          .WriteSingle "kind: Deployment" "output/resources.yaml"], none) ∧
    ∃ pre name val post err,
      [("web", CueValue.struct [("name", .str "web")]), ("db", .struct [("name", .str "db")])]
        = pre ++ (name, val) :: post ∧
      (∀ e ∈ pre, Processed sampleCollaborators e.2) ∧ Fails sampleCollaborators val ∧
      runRender sampleCollaborators streamOptions (.ok webAndDb) = ([], some err) ∧
      Contains err name ∧ Contains err "for component" :=
  ⟨rfl, rfl,
    (runRender_component_error sampleCollaborators streamOptions webAndDb
      [("web", .struct [("name", .str "web")]), ("db", .struct [("name", .str "db")])] rfl).1
      ⟨("db", .struct [("name", .str "db")]), by simp,
        Or.inr ⟨{ Selected := [deployment] }, "transform failed", rfl, by simp, rfl⟩⟩⟩

end Render

namespace Loader

open Flatten

/-! ## Lemmas on the provider loader -/

theorem sortedKeys_eq (m : List (String × Transformer)) : sortedKeys m = m.map Prod.fst := by
  unfold sortedKeys
  have h : ∀ (m : List (String × Transformer)) (acc : List String),
      m.foldl (fun keys entry => keys ++ [entry.1]) acc = acc ++ m.map Prod.fst := by
    intro m
    induction m with
    | nil => intro acc; simp
    | cons e rest ih => intro acc; simp [ih]
  simpa using h m []

theorem seenGet_mapSet (seen : List (String × Bool)) (d k : String) :
    seenGet (mapSet seen d true) k = (decide (k = d) || seenGet seen k) := by
  unfold seenGet
  by_cases h : d = k
  · subst h; simp [mapGet_mapSet_self]
  · have h' : ¬ k = d := fun e => h e.symm
    simp [mapGet_mapSet_ne _ _ h, h']

/-- The inner loop keeps `seen` in step with `result` and appends exactly the
values not yet there. -/
theorem addDefinitions_eq :
    ∀ (defs : List String) (seen : List (String × Bool)) (result : List String),
      (∀ k, seenGet seen k = decide (k ∈ result)) →
      (∀ k, seenGet (addDefinitions defs (seen, result)).1 k
        = decide (k ∈ (addDefinitions defs (seen, result)).2)) ∧
      (addDefinitions defs (seen, result)).2 = dedupInto result defs := by
  intro defs
  induction defs with
  | nil => intro seen result h; exact ⟨h, rfl⟩
  | cons d rest ih =>
    intro seen result h
    unfold addDefinitions
    by_cases hd : d ∈ result
    · have hs : seenGet seen d = true := by rw [h d]; simpa using hd
      simp only [hs, Bool.not_true, Bool.false_eq_true, if_false]
      have := ih seen result h
      simpa [dedupInto, hd] using this
    · have hs : seenGet seen d = false := by rw [h d]; simpa using hd
      simp only [hs, Bool.not_false, if_true]
      have h' : ∀ k, seenGet (mapSet seen d true) k = decide (k ∈ result ++ [d]) := by
        intro k
        rw [seenGet_mapSet, h k]
        by_cases hk : k = d <;> by_cases hr : k ∈ result <;> simp [hk, hr]
      have := ih (mapSet seen d true) (result ++ [d]) h'
      simpa [dedupInto, hd] using this

theorem visitTransformers_eq (defType : String) :
    ∀ (ts : List (String × Transformer)) (seen : List (String × Bool)) (result : List String),
      (∀ k, seenGet seen k = decide (k ∈ result)) →
      (visitTransformers defType ts (seen, result)).2
        = dedupInto result (ts.flatMap fun entry => definitionsOf entry.2 defType) := by
  intro ts
  induction ts with
  | nil => intro seen result _; rfl
  | cons t rest ih =>
    obtain ⟨fqn, transformer⟩ := t
    intro seen result h
    unfold visitTransformers
    obtain ⟨h₁, h₂⟩ := addDefinitions_eq (definitionsOf transformer defType) seen result h
    rcases hst : addDefinitions (definitionsOf transformer defType) (seen, result) with ⟨s₁, r₁⟩
    rw [hst] at h₁ h₂
    simp only at h₁ h₂
    rw [ih s₁ r₁ h₁, h₂]
    simp only [List.flatMap_cons, dedupInto, List.foldl_append]

theorem mem_keepFirst (xs : List String) (x : String) : x ∈ keepFirst xs ↔ x ∈ xs := by
  induction xs with
  | nil => simp [keepFirst]
  | cons y ys ih =>
    by_cases h : x = y
    · simp [keepFirst, h]
    · simp [keepFirst, h, ih]

theorem nodup_keepFirst (xs : List String) : (keepFirst xs).Nodup := by
  induction xs with
  | nil => simp [keepFirst]
  | cons y ys ih =>
    simp only [keepFirst, List.nodup_cons, List.mem_filter, decide_eq_true_eq, ne_eq,
      not_true_eq_false, and_false, not_false_eq_true, true_and]
    exact ih.filter _

theorem dedupInto_eq_keepFirst :
    ∀ (xs result : List String),
      dedupInto result xs = result ++ (keepFirst xs).filter fun y => decide (y ∉ result) := by
  intro xs
  induction xs with
  | nil => intro result; simp [dedupInto, keepFirst]
  | cons x rest ih =>
    intro result
    have hstep : dedupInto result (x :: rest)
        = dedupInto (if x ∈ result then result else result ++ [x]) rest := rfl
    rw [hstep]
    by_cases hx : x ∈ result
    · rw [if_pos hx, ih result]
      congr 1
      simp only [keepFirst, List.filter_cons, hx, not_true_eq_false, decide_False,
        Bool.false_eq_true, if_false, List.filter_filter]
      apply List.filter_congr
      intro y _
      by_cases hy : y ∈ result
      · simp [hy]
      · have : y ≠ x := fun e => hy (e ▸ hx)
        simp [hy, this]
    · rw [if_neg hx, ih (result ++ [x])]
      simp only [keepFirst, List.filter_cons, hx, not_false_eq_true, decide_True, if_true,
        List.filter_filter, List.append_assoc, List.singleton_append]
      congr 2
      apply List.filter_congr
      intro y _
      by_cases hy : y ∈ result <;> by_cases hyx : y = x <;> simp [hy, hyx]


/-- C18: for every provider and every `defType`, `computeDeclaredDefinitions`
returns the keep-first deduplication of the concatenated per-transformer
lists, in the order the transformers are visited: the list has no duplicate,
and its members are exactly the names some transformer declares under that
kind (`Resources`, `Traits` or `Policies`). -/
theorem computeDeclaredDefinitions_keepFirst (provider : Provider) (defType : String) :
    computeDeclaredDefinitions provider defType = keepFirst (declaredLists provider defType) ∧
    (computeDeclaredDefinitions provider defType).Nodup ∧
    (∀ name, name ∈ computeDeclaredDefinitions provider defType ↔
      ∃ entry ∈ provider.Transformers, name ∈ definitionsOf entry.2 defType) ∧
    ∀ t : Transformer, definitionsOf t "resources" = t.Resources ∧
      definitionsOf t "traits" = t.Traits ∧ definitionsOf t "policies" = t.Policies := by
  have heq : computeDeclaredDefinitions provider defType
      = keepFirst (declaredLists provider defType) := by
    unfold computeDeclaredDefinitions declaredLists
    rw [visitTransformers_eq defType provider.Transformers [] [] (fun k => by simp [seenGet, mapGet]),
      dedupInto_eq_keepFirst]
    simp
  refine ⟨heq, ?_, fun name => ?_, fun t => ⟨rfl, rfl, rfl⟩⟩
  · rw [heq]; exact nodup_keepFirst _
  · rw [heq, mem_keepFirst]
    simp [declaredLists, List.mem_flatMap]

/-- C18 on a map visited as `b`, `a`: the resources come out in first-seen
order. -/
theorem computeDeclaredDefinitions_keepFirst_witness :
    computeDeclaredDefinitions (sampleProvider mapVisitedBA) "resources"
      = ["Container", "Volume", "Secret"] ∧
    computeDeclaredDefinitions (sampleProvider mapVisitedAB) "resources"
      = ["Volume", "Container", "Secret"] ∧
    computeDeclaredDefinitions (sampleProvider mapVisitedBA) "resources"
      = keepFirst (declaredLists (sampleProvider mapVisitedBA) "resources") :=
  ⟨by decide, by decide,
    (computeDeclaredDefinitions_keepFirst (sampleProvider mapVisitedBA) "resources").1⟩

/-- C19 on the code: `sortedKeys` returns the keys in the order the `range`
visits them, without sorting. For a map with the keys `a` and `b` visited as
`b`, `a` it returns `b`, `a`, which is not ascending, and the bytes
`computeProviderHash` feeds to the digest differ from those of the same map
visited as `a`, `b`. -/
theorem sortedKeys_not_sorted :
    (∀ m, sortedKeys m = m.map Prod.fst) ∧
    sortedKeys mapVisitedBA = ["b", "a"] ∧
    ¬ List.Sorted (fun x y : String => x < y) (sortedKeys mapVisitedBA) ∧
    (∀ k, mapGet mapVisitedBA k = mapGet mapVisitedAB k) ∧
    providerHashInput (sampleProvider mapVisitedBA)
      ≠ providerHashInput (sampleProvider mapVisitedAB) := by
  refine ⟨sortedKeys_eq, by decide, ?_, fun k => ?_, by decide⟩
  · have hk : sortedKeys mapVisitedBA = ["b", "a"] := by decide
    rw [hk]
    intro hs
    have hlt : "b" < "a" := List.rel_of_sorted_cons hs "a" (List.mem_singleton_self "a")
    rw [String.lt_iff_toList_lt] at hlt
    exact absurd hlt (by decide)
  by_cases ha : k = "a"
  · subst ha; rfl
  · by_cases hb : k = "b"
    · subst hb; rfl
    · have ha' : ¬ "a" = k := fun e => ha e.symm
      have hb' : ¬ "b" = k := fun e => hb e.symm
      simp [mapVisitedBA, mapVisitedAB, mapGet, ha', hb']

/-! ## The hashing step of `LoadFromPath` -/

theorem hashOf_fresh (m : List (String × Transformer))
    (h : ∀ entry ∈ m, entry.2.Hash = "") (fqn : String) : hashOf m fqn = "" := by
  unfold hashOf
  cases hg : mapGet m fqn with
  | none => rfl
  | some t => exact h (fqn, t) (mem_of_mapGet hg)

theorem foldl_keys_fresh (m : List (String × Transformer))
    (h : ∀ entry ∈ m, entry.2.Hash = "") (keys : List String) (acc : List UInt8) :
    keys.foldl (fun h fqn => h ++ stringBytes fqn ++ stringBytes (hashOf m fqn)) acc
      = acc ++ keys.flatMap stringBytes := by
  induction keys generalizing acc with
  | nil => simp
  | cons k ks ih =>
    simp only [List.foldl_cons, List.flatMap_cons]
    rw [ih, hashOf_fresh m h k]
    simp [stringBytes]

/-- For a provider whose transformers have no hash yet, the bytes hashed are
those of the name, the version, the description and the keys. -/
theorem providerHashInput_fresh (provider : Provider)
    (h : ∀ entry ∈ provider.Transformers, entry.2.Hash = "") :
    providerHashInput provider
      = stringBytes provider.Metadata.Name ++ stringBytes provider.Metadata.Version ++
          stringBytes provider.Metadata.Description ++
          (provider.Transformers.map Prod.fst).flatMap stringBytes := by
  unfold providerHashInput
  simp only [List.nil_append]
  rw [foldl_keys_fresh provider.Transformers h, sortedKeys_eq]

/-- C28: in the hashing step of `LoadFromPath` the provider hash is computed
before any transformer hash is assigned. For a freshly extracted provider it is
the digest of the name, the version, the description and the transformer FQNs
in visiting order, so two such providers that agree on these receive the same
provider hash, whatever their transformers declare; every transformer hash is
assigned afterwards. -/
theorem assignHashes_provider_hash_early (sha256 : List UInt8 → Digest) (p q : Provider)
    (hp : FreshlyExtracted p) (hq : FreshlyExtracted q)
    (hname : p.Metadata.Name = q.Metadata.Name)
    (hversion : p.Metadata.Version = q.Metadata.Version)
    (hdesc : p.Metadata.Description = q.Metadata.Description)
    (hkeys : p.Transformers.map Prod.fst = q.Transformers.map Prod.fst) :
    (assignHashes sha256 true p).Hash = (assignHashes sha256 true q).Hash ∧
    (assignHashes sha256 true p).Hash
      = String.mk (hexEncode (sha256 (stringBytes p.Metadata.Name ++
          stringBytes p.Metadata.Version ++ stringBytes p.Metadata.Description ++
          (p.Transformers.map Prod.fst).flatMap stringBytes)).val) ∧
    (assignHashes sha256 true p).Transformers
      = p.Transformers.map (fun entry =>
          (entry.1, { entry.2 with Hash := computeTransformerHash sha256 entry.2 })) ∧
    assignHashes sha256 false p = p := by
  have hP : (assignHashes sha256 true p).Hash = computeProviderHash sha256 p := rfl
  have hQ : (assignHashes sha256 true q).Hash = computeProviderHash sha256 q := rfl
  refine ⟨?_, ?_, rfl, rfl⟩
  · rw [hP, hQ]
    unfold computeProviderHash
    rw [providerHashInput_fresh p hp, providerHashInput_fresh q hq, hname, hversion, hdesc,
      hkeys]
  · rw [hP]
    unfold computeProviderHash
    rw [providerHashInput_fresh p hp]

/-- C28 on two providers with the transformers `b` and `a` that declare
different resources and traits: the provider hashes agree although the
transformers hash different bytes. -/
theorem assignHashes_provider_hash_early_witness :
    (assignHashes sampleEngine.sha256 true (sampleProvider mapVisitedBA)).Hash
      = (assignHashes sampleEngine.sha256 true (sampleProvider mapVisitedBAOther)).Hash ∧
    (mapVisitedBA.map fun entry => transformerHashInput entry.2)
      ≠ (mapVisitedBAOther.map fun entry => transformerHashInput entry.2) :=
  ⟨(assignHashes_provider_hash_early sampleEngine.sha256 (sampleProvider mapVisitedBA)
      (sampleProvider mapVisitedBAOther) (by decide) (by decide) rfl rfl rfl rfl).1,
    by decide⟩

end Loader

namespace CliConfig

/-! ## Lemmas on `Validate` -/

theorem boolAt_validLevels (l : String) :
    boolAt validLevels l = true ↔ l ∈ ["debug", "info", "warn", "error"] := by
  unfold boolAt validLevels
  simp only [Flatten.mapGet]
  split_ifs with h₁ h₂ h₃ h₄ <;> simp_all [eq_comm]

theorem boolAt_validFormats (l : String) :
    boolAt validFormats l = true ↔ l ∈ ["text", "json"] := by
  unfold boolAt validFormats
  simp only [Flatten.mapGet]
  split_ifs with h₁ h₂ <;> simp_all [eq_comm]

theorem validate_eq_none_iff (cfg : Config) :
    Validate cfg = none ↔
      cfg.Log.Level ∈ ["debug", "info", "warn", "error"] ∧
      cfg.Log.Format ∈ ["text", "json"] ∧
      (cfg.Cache.TTL = "" ∨ 2 ≤ len cfg.Cache.TTL) ∧
      cfg.Definitions.Module ≠ "" := by
  unfold Validate
  rw [← boolAt_validLevels, ← boolAt_validFormats]
  by_cases h₁ : boolAt validLevels cfg.Log.Level = true
  · by_cases h₂ : boolAt validFormats cfg.Log.Format = true
    · by_cases h₃ : cfg.Cache.TTL ≠ "" ∧ len cfg.Cache.TTL < 2
      · simp [h₁, h₂, h₃]
      · by_cases h₄ : cfg.Definitions.Module = ""
        · simp [h₁, h₂, h₃, h₄]
        · simp only [h₁, h₂, h₃, h₄, Bool.not_true, Bool.false_eq_true, if_false, true_and,
            ne_eq, not_false_eq_true, and_true, true_iff]
          by_cases h₅ : cfg.Cache.TTL = ""
          · exact Or.inl h₅
          · exact Or.inr (Nat.le_of_not_lt fun hlt => h₃ ⟨h₅, hlt⟩)
    · simp [h₁, h₂]
  · simp [h₁]


/-- C20 (as the code behaves): `Validate` returns nil if and only if
`Log.Level` is one of debug, info, warn, error, `Log.Format` is one of text,
json, `Cache.TTL` is empty or at least 2 bytes long, and `Definitions.Module`
is non-empty; when several conditions fail, the error is that of the first
failing one in this order. -/
theorem validate_spec (cfg : Config) :
    (Validate cfg = none ↔
      cfg.Log.Level ∈ ["debug", "info", "warn", "error"] ∧
      cfg.Log.Format ∈ ["text", "json"] ∧
      (cfg.Cache.TTL = "" ∨ 2 ≤ len cfg.Cache.TTL) ∧
      cfg.Definitions.Module ≠ "") ∧
    (cfg.Log.Level ∉ ["debug", "info", "warn", "error"] →
      Validate cfg = some ("invalid log level: " ++ cfg.Log.Level
        ++ " (must be debug, info, warn, or error)")) ∧
    (cfg.Log.Level ∈ ["debug", "info", "warn", "error"] →
      cfg.Log.Format ∉ ["text", "json"] →
      Validate cfg = some ("invalid log format: " ++ cfg.Log.Format
        ++ " (must be text or json)")) ∧
    (cfg.Log.Level ∈ ["debug", "info", "warn", "error"] →
      cfg.Log.Format ∈ ["text", "json"] →
      cfg.Cache.TTL ≠ "" → len cfg.Cache.TTL < 2 →
      Validate cfg = some ("invalid cache TTL: " ++ cfg.Cache.TTL)) ∧
    (cfg.Log.Level ∈ ["debug", "info", "warn", "error"] →
      cfg.Log.Format ∈ ["text", "json"] →
      (cfg.Cache.TTL = "" ∨ 2 ≤ len cfg.Cache.TTL) → cfg.Definitions.Module = "" →
      Validate cfg = some "definitions.module cannot be empty") := by
  refine ⟨validate_eq_none_iff cfg, fun h₁ => ?_, fun h₁ h₂ => ?_, fun h₁ h₂ h₃ h₄ => ?_,
    fun h₁ h₂ h₃ h₄ => ?_⟩
  · rw [← boolAt_validLevels] at h₁
    simp [Validate, h₁]
  · rw [← boolAt_validLevels] at h₁
    rw [← boolAt_validFormats] at h₂
    simp [Validate, h₁, h₂]
  · rw [← boolAt_validLevels] at h₁
    rw [← boolAt_validFormats] at h₂
    simp [Validate, h₁, h₂, h₃, h₄]
  · rw [← boolAt_validLevels] at h₁
    rw [← boolAt_validFormats] at h₂
    have h₃' : ¬ (cfg.Cache.TTL ≠ "" ∧ len cfg.Cache.TTL < 2) := by
      rintro ⟨hne, hlt⟩
      rcases h₃ with h | h
      · exact hne h
      · exact absurd hlt (Nat.not_lt.2 h)
    simp only [Validate, h₁, h₂, h₃', h₄, Bool.not_true, Bool.false_eq_true, if_false, if_true]

/-- C20 on a configuration in which every condition fails: the log level is
reported. -/
theorem validate_spec_witness :
    Validate allInvalidConfig
      = some "invalid log level: loud (must be debug, info, warn, or error)" :=
  (validate_spec allInvalidConfig).2.1 (by decide)

/-- C20 as stated fails: the TTL `é` is one character long and not empty, yet
`Validate` accepts it, because `len` counts its two bytes. -/
theorem validate_accepts_one_character_ttl :
    Validate (configWithTTL "é") = none ∧
    (configWithTTL "é").Cache.TTL ≠ "" ∧
    (configWithTTL "é").Cache.TTL.length = 1 ∧
    len (configWithTTL "é").Cache.TTL = 2 := by
  decide

/-! ## Environment overrides and configuration paths -/

theorem applyOverrides_fields (getenv : Environ) (cfg : Config) :
    (applyOverrides getenv cfg).Registry.URL
      = overridden (getenv "OPM_REGISTRY_URL") cfg.Registry.URL ∧
    (applyOverrides getenv cfg).Definitions.Module
      = overridden (getenv "OPM_DEFINITIONS_MODULE") cfg.Definitions.Module ∧
    (applyOverrides getenv cfg).Definitions.Path
      = (if getenv "OPM_DEFINITIONS_PATH" ≠ "" then some (getenv "OPM_DEFINITIONS_PATH")
         else cfg.Definitions.Path) ∧
    (applyOverrides getenv cfg).Cache.Dir = overridden (getenv "OPM_CACHE_DIR") cfg.Cache.Dir ∧
    (applyOverrides getenv cfg).Log.Level = overridden (getenv "OPM_LOG_LEVEL") cfg.Log.Level ∧
    (applyOverrides getenv cfg).Log.Format
      = overridden (getenv "OPM_LOG_FORMAT") cfg.Log.Format ∧
    (applyOverrides getenv cfg).Providers = cfg.Providers ∧
    (applyOverrides getenv cfg).Cache.Enabled = cfg.Cache.Enabled ∧
    (applyOverrides getenv cfg).Cache.TTL = cfg.Cache.TTL := by
  unfold applyOverrides overridden
  generalize getenv "OPM_REGISTRY_URL" = a₁
  generalize getenv "OPM_DEFINITIONS_MODULE" = a₂
  generalize getenv "OPM_DEFINITIONS_PATH" = a₃
  generalize getenv "OPM_CACHE_DIR" = a₄
  generalize getenv "OPM_LOG_LEVEL" = a₅
  generalize getenv "OPM_LOG_FORMAT" = a₆
  by_cases h₁ : a₁ = "" <;> by_cases h₂ : a₂ = "" <;> by_cases h₃ : a₃ = "" <;>
    by_cases h₄ : a₄ = "" <;> by_cases h₅ : a₅ = "" <;> by_cases h₆ : a₆ = "" <;>
    simp [h₁, h₂, h₃, h₄, h₅, h₆]

theorem applyOverrides_unset (getenv : Environ) (cfg : Config)
    (h : ∀ name ∈ ["OPM_REGISTRY_URL", "OPM_DEFINITIONS_MODULE", "OPM_DEFINITIONS_PATH",
      "OPM_CACHE_DIR", "OPM_LOG_LEVEL", "OPM_LOG_FORMAT"], getenv name = "") :
    applyOverrides getenv cfg = cfg := by
  have h₁ := h "OPM_REGISTRY_URL" (by decide)
  have h₂ := h "OPM_DEFINITIONS_MODULE" (by decide)
  have h₃ := h "OPM_DEFINITIONS_PATH" (by decide)
  have h₄ := h "OPM_CACHE_DIR" (by decide)
  have h₅ := h "OPM_LOG_LEVEL" (by decide)
  have h₆ := h "OPM_LOG_FORMAT" (by decide)
  simp [applyOverrides, h₁, h₂, h₃, h₄, h₅, h₆]

/-- C21: `ApplyEnvironmentOverrides` leaves the configuration it is given
unchanged (and every other allocated configuration) and returns a new copy in
which registry.url, definitions.module, definitions.path, cache.dir, log.level
and log.format are the corresponding `OPM_` variable when that variable is not
empty and the value of the input otherwise; providers.path, cache.enabled and
cache.ttl are those of the input, so with the six variables empty the copy
equals the input. -/
theorem applyEnvironmentOverrides_spec (getenv : Environ) (store : List Config) (cfg : Nat)
    (c : Config) (h : store[cfg]? = some c) :
    ∃ store' result r, ApplyEnvironmentOverrides getenv store cfg = some (store', result) ∧
      (∀ p, p < store.length → store'[p]? = store[p]?) ∧ store'[cfg]? = some c ∧
      result ≠ cfg ∧ store'[result]? = some r ∧
      r.Registry.URL = overridden (getenv "OPM_REGISTRY_URL") c.Registry.URL ∧
      r.Definitions.Module = overridden (getenv "OPM_DEFINITIONS_MODULE") c.Definitions.Module ∧
      r.Definitions.Path
        = (if getenv "OPM_DEFINITIONS_PATH" ≠ "" then some (getenv "OPM_DEFINITIONS_PATH")
           else c.Definitions.Path) ∧
      r.Cache.Dir = overridden (getenv "OPM_CACHE_DIR") c.Cache.Dir ∧
      r.Log.Level = overridden (getenv "OPM_LOG_LEVEL") c.Log.Level ∧
      r.Log.Format = overridden (getenv "OPM_LOG_FORMAT") c.Log.Format ∧
      r.Providers = c.Providers ∧ r.Cache.Enabled = c.Cache.Enabled ∧
      r.Cache.TTL = c.Cache.TTL ∧
      ((∀ name ∈ ["OPM_REGISTRY_URL", "OPM_DEFINITIONS_MODULE", "OPM_DEFINITIONS_PATH",
          "OPM_CACHE_DIR", "OPM_LOG_LEVEL", "OPM_LOG_FORMAT"], getenv name = "") → r = c) := by
  have hlt : cfg < store.length := by
    by_contra hn
    rw [List.getElem?_eq_none (Nat.le_of_not_lt hn)] at h
    cases h
  have hold : ∀ p, p < store.length →
      (store ++ [applyOverrides getenv c])[p]? = store[p]? := fun p hp =>
    List.getElem?_append_left hp
  refine ⟨store ++ [applyOverrides getenv c], store.length, applyOverrides getenv c, ?_,
    hold, ?_, Nat.ne_of_gt hlt, ?_, ?_⟩
  · simp [ApplyEnvironmentOverrides, h]
  · rw [hold cfg hlt, h]
  · simp
  · obtain ⟨h₁, h₂, h₃, h₄, h₅, h₆, h₇, h₈, h₉⟩ := applyOverrides_fields getenv c
    exact ⟨h₁, h₂, h₃, h₄, h₅, h₆, h₇, h₈, h₉, applyOverrides_unset getenv c⟩

/-- C21 on the store holding `allInvalidConfig`, with only `OPM_LOG_LEVEL` and
`OPM_DEFINITIONS_PATH` set. -/
theorem applyEnvironmentOverrides_spec_witness :
    ApplyEnvironmentOverrides sampleEnviron [allInvalidConfig] 0
      = some ([allInvalidConfig,
          { allInvalidConfig with
            Definitions := { Module := "", Path := some "/src/defs" },
            Log := { Level := "debug", Format := "xml" } }], 1) ∧
    ∃ store' result r,
      ApplyEnvironmentOverrides sampleEnviron [allInvalidConfig] 0 = some (store', result) ∧
      (∀ p, p < [allInvalidConfig].length → store'[p]? = [allInvalidConfig][p]?) ∧
      store'[0]? = some allInvalidConfig ∧
      result ≠ 0 ∧ store'[result]? = some r ∧
      r.Registry.URL = overridden (sampleEnviron "OPM_REGISTRY_URL") allInvalidConfig.Registry.URL ∧
      r.Definitions.Module
        = overridden (sampleEnviron "OPM_DEFINITIONS_MODULE") allInvalidConfig.Definitions.Module ∧
      r.Definitions.Path
        = (if sampleEnviron "OPM_DEFINITIONS_PATH" ≠ "" then
            some (sampleEnviron "OPM_DEFINITIONS_PATH")
           else allInvalidConfig.Definitions.Path) ∧
      r.Cache.Dir = overridden (sampleEnviron "OPM_CACHE_DIR") allInvalidConfig.Cache.Dir ∧
      r.Log.Level = overridden (sampleEnviron "OPM_LOG_LEVEL") allInvalidConfig.Log.Level ∧
      r.Log.Format = overridden (sampleEnviron "OPM_LOG_FORMAT") allInvalidConfig.Log.Format ∧
      r.Providers = allInvalidConfig.Providers ∧
      r.Cache.Enabled = allInvalidConfig.Cache.Enabled ∧
      r.Cache.TTL = allInvalidConfig.Cache.TTL ∧
      ((∀ name ∈ ["OPM_REGISTRY_URL", "OPM_DEFINITIONS_MODULE", "OPM_DEFINITIONS_PATH",
          "OPM_CACHE_DIR", "OPM_LOG_LEVEL", "OPM_LOG_FORMAT"], sampleEnviron name = "") →
        r = allInvalidConfig) :=
  ⟨rfl, applyEnvironmentOverrides_spec sampleEnviron [allInvalidConfig] 0 allInvalidConfig rfl⟩

/-- C22: `GetConfigDir` returns `OPM_CONFIG_PATH` when it is not empty;
otherwise `XDG_CONFIG_HOME` joined with `opm` when that variable is not empty
and the OS is not Windows; otherwise the home directory joined with `.opm`. It
fails only when it reaches the third case and the home directory cannot be
determined. `GetConfigPath` is that directory joined with `config.cue` and
fails exactly when `GetConfigDir` fails. -/
theorem getConfigDir_priority (getenv : Environ) (goos : String)
    (userHomeDir : Except String String) (join : List String → String) :
    (getenv "OPM_CONFIG_PATH" ≠ "" →
      GetConfigDir getenv goos userHomeDir join = (getenv "OPM_CONFIG_PATH", none)) ∧
    (getenv "OPM_CONFIG_PATH" = "" → getenv "XDG_CONFIG_HOME" ≠ "" → goos ≠ "windows" →
      GetConfigDir getenv goos userHomeDir join
        = (join [getenv "XDG_CONFIG_HOME", "opm"], none)) ∧
    (getenv "OPM_CONFIG_PATH" = "" → (getenv "XDG_CONFIG_HOME" = "" ∨ goos = "windows") →
      ∀ homeDir, userHomeDir = .ok homeDir →
        GetConfigDir getenv goos userHomeDir join = (join [homeDir, ".opm"], none)) ∧
    ((GetConfigDir getenv goos userHomeDir join).2 ≠ none ↔
      getenv "OPM_CONFIG_PATH" = "" ∧ (getenv "XDG_CONFIG_HOME" = "" ∨ goos = "windows") ∧
        ∃ err, userHomeDir = .error err) ∧
    ((GetConfigDir getenv goos userHomeDir join).2 = none →
      GetConfigPath getenv goos userHomeDir join
        = (join [(GetConfigDir getenv goos userHomeDir join).1, "config.cue"], none)) ∧
    ((GetConfigPath getenv goos userHomeDir join).2 ≠ none ↔
      (GetConfigDir getenv goos userHomeDir join).2 ≠ none) := by
  unfold GetConfigPath GetConfigDir
  by_cases h₁ : getenv "OPM_CONFIG_PATH" = ""
  · by_cases h₂ : getenv "XDG_CONFIG_HOME" = ""
    · cases userHomeDir <;> simp [h₁, h₂]
    · by_cases h₃ : goos = "windows"
      · cases userHomeDir <;> simp [h₁, h₂, h₃]
      · simp [h₁, h₂, h₃]
  · simp [h₁]

/-- C22 on Linux with only `XDG_CONFIG_HOME` set, and on a system where no
variable is set and the home directory is unknown. -/
theorem getConfigDir_priority_witness :
    GetConfigPath xdgEnviron "linux" (.ok "/home/u") Render.pathJoin
      = ("/home/u/.config/opm/config.cue", none) ∧
    GetConfigPath (fun _ => "") "linux" (.error "$HOME is not defined") Render.pathJoin
      = ("", some "failed to get home directory: $HOME is not defined") ∧
    GetConfigDir xdgEnviron "windows" (.ok "/home/u") Render.pathJoin
      = ("/home/u/.opm", none) ∧
    GetConfigDir xdgEnviron "linux" (.ok "/home/u") Render.pathJoin
      = (Render.pathJoin [xdgEnviron "XDG_CONFIG_HOME", "opm"], none) :=
  ⟨by decide, by decide, by decide,
    (getConfigDir_priority xdgEnviron "linux" (.ok "/home/u") Render.pathJoin).2.1
      (by decide) (by decide) (by decide)⟩

end CliConfig

namespace Matcher

open Flatten Loader

/-! ## Transformer matching -/

theorem sorted_insertionSort_fqn (l : List Transformer) :
    (l.insertionSort FqnLE).Sorted FqnLE := by
  haveI : IsTotal Transformer FqnLE :=
    ⟨fun a b => le_total a.Metadata.FQN.data b.Metadata.FQN.data⟩
  haveI : IsTrans Transformer FqnLE := ⟨fun _ _ _ h₁ h₂ => le_trans h₁ h₂⟩
  exact List.sorted_insertionSort FqnLE l

theorem fqnLE_iff (a b : Transformer) : FqnLE a b ↔ a.Metadata.FQN ≤ b.Metadata.FQN := by
  unfold FqnLE
  rw [← not_lt, ← not_lt, String.lt_iff_toList_lt]
  rfl

theorem mem_selectBest (names : List String) (cands : List Transformer) (t : Transformer) :
    t ∈ selectBest names cands ↔ t ∈ cands ∧ ∀ a ∈ cands, ¬ Dominates names a t := by
  simp [selectBest]

theorem matchComponent_lenient (component : ComponentIR) (provider : Provider)
    (strategy : MatchStrategy) :
    ∃ r, matchComponent component provider { Strategy := strategy, Strict := false } = .ok r := by
  simp [matchComponent]

theorem matchComponent_ok {component : ComponentIR} {provider : Provider}
    {options : MatchOptions} {r : MatchResult}
    (h : matchComponent component provider options = .ok r) :
    r.Selected
      = (match options.Strategy with
          | .StrategyAll => candidates (elementNames component) provider
          | .StrategyBest =>
            selectBest (elementNames component) (candidates (elementNames component) provider)
        ).insertionSort FqnLE := by
  unfold matchComponent at h
  dsimp only at h
  split_ifs at h
  cases h
  rfl

/-- C23: with strategy best, matching the component with the elements
`Container` and `Replicas` against T1 (resources `[Container]`) and T2
(resources `[Container, Replicas]`) selects only T2, in strict mode or not.
In general, whenever a match result is returned, `Selected` is sorted by
transformer FQN ascending, and under strategy best its members are exactly the
candidates that no candidate strictly dominates; without strict mode a result
is always returned. -/
theorem matchComponent_best_specificity :
    (∀ strict, matchComponent containerReplicas specificityProvider
        { Strategy := .StrategyBest, Strict := strict }
      = .ok { Selected := [sampleTransformer "T2" ["Container", "Replicas"] [] ""] }) ∧
    (∀ component provider options r, matchComponent component provider options = .ok r →
      r.Selected.Sorted (fun a b => a.Metadata.FQN ≤ b.Metadata.FQN) ∧
      (options.Strategy = .StrategyBest → ∀ t, t ∈ r.Selected ↔
        t ∈ candidates (elementNames component) provider ∧
        ∀ c ∈ candidates (elementNames component) provider,
          ¬ Dominates (elementNames component) c t)) ∧
    (∀ component provider strategy,
      ∃ r, matchComponent component provider { Strategy := strategy, Strict := false }
        = .ok r) := by
  refine ⟨fun strict => ?_, fun component provider options r h => ⟨?_, fun hbest t => ?_⟩,
    matchComponent_lenient⟩
  · cases strict <;> rfl
  · rw [matchComponent_ok h]
    exact (sorted_insertionSort_fqn _).imp fun {a b} hab => (fqnLE_iff a b).1 hab
  · rw [matchComponent_ok h, hbest]
    dsimp only
    rw [(List.perm_insertionSort FqnLE _).mem_iff, mem_selectBest]

/-- C23 on a provider whose two transformers do not dominate each other:
both are selected, `Alpha` before `Zeta` although the provider lists `Zeta`
first. -/
theorem matchComponent_best_specificity_witness :
    matchComponent containerReplicas tiedProvider { Strategy := .StrategyBest, Strict := true }
      = .ok { Selected := [sampleTransformer "Alpha" ["Replicas"] [] "",
          sampleTransformer "Zeta" ["Container"] [] ""] } ∧
    List.Sorted (fun a b => a.Metadata.FQN ≤ b.Metadata.FQN)
      [sampleTransformer "Alpha" ["Replicas"] [] "", sampleTransformer "Zeta" ["Container"] [] ""] :=
  ⟨rfl, (matchComponent_best_specificity.2.1 containerReplicas tiedProvider
      { Strategy := .StrategyBest, Strict := true } _ rfl).1⟩

end Matcher
